import Mathlib

/-!
# photo-grouping: the ordered aggregate, the visit grouper and the title generator

A shallow embedding of `internal/heap` (photo.go, heap.go), of the parts of Go's
`container/heap` and `time` packages those files call, of
`internal/categoriser` (categoriser.go, phrases.go) and of `internal/consumer`
(consumer.go, reader.go), followed by theorems about them.

Conventions of the embedding.

* A Go slice is a `List`; slice indices are `Nat` (a Go `int` index that would be
  negative is an index that is out of range here as well, see each use).
* A Go runtime panic (index out of range) is the result `none`; the `for { ... }`
  loops of `container/heap` and of `Group` are unrolled with a fuel counter and
  running out of fuel is `none` as well.  Every theorem below that speaks about a
  result proves that the result is `some _`.
* `Heap.Push` and `Heap.Pop` are sequential functions on the slice; the mutex of
  `heap.Heap` and the goroutines that call the heap are a separate step machine
  (`Pool`), whose events are the taking and the releasing of the lock.
* The `select` of `Consumer.Run` is resolved by a schedule that says, for each
  iteration, which ready case is taken and whether the context is done at each of the
  three moments of the iteration: at the `select`, during the call of the client, and
  when `getGeocoding` reaches `photoHeap.Push`.
* What comes from outside the repository is a parameter: the geocoding client, the
  parsers of `ReadCSV`, the records the csv reader returns.
-/

set_option autoImplicit false

namespace PhotoGrouping

/-! ## Package `time` (the operations the repository calls) -/

/-- Go `time.Duration`: a signed count of nanoseconds held in an `int64`. -/
abbrev Duration := Int

/-- Go `time.Hour`, in nanoseconds. -/
def Hour : Duration := 3600000000000

/-- Largest `time.Duration` (`1<<63 - 1`). -/
def maxDuration : Duration := 9223372036854775807

/-- Smallest `time.Duration` (`-1 << 63`). -/
def minDuration : Duration := -9223372036854775808

/-- Go `time.Time` without a monotonic clock reading (the values `time.Date` and
`dateparse.ParseAny` produce): the instant is `sec` seconds after the Unix epoch plus
`nsec` nanoseconds, where `0 ≤ nsec < 10^9` in every Go value; `offset` is the offset
east of UTC, in seconds, that the value's location has at that instant. -/
structure Time where
  sec : Int
  nsec : Nat
  offset : Int
deriving DecidableEq

namespace Time

/-- Go `Time.Unix`: whole seconds since the Unix epoch (the sub-second part is dropped). -/
def Unix (t : Time) : Int := t.sec

/-- Nanoseconds since the Unix epoch: the instant itself, at full precision. -/
def nanos (t : Time) : Int := t.sec * 1000000000 + (t.nsec : Int)

/-- Go `Time.Sub`: the duration `t - u`; as documented, when the difference does not fit
a `Duration` the largest (or smallest) `Duration` is returned. -/
def Sub (t u : Time) : Duration :=
  let d := (t.sec - u.sec) * 1000000000 + ((t.nsec : Int) - (u.nsec : Int))
  if d > maxDuration then maxDuration
  else if d < minDuration then minDuration
  else d

/-- Days since 1970-01-01 of the civil date shown in the location of `t`. -/
def civilDay (t : Time) : Int := (t.sec + t.offset) / 86400

/-- Go `Time.Weekday`, with `time.Sunday = 0`, ..., `time.Saturday = 6`
(1970-01-01 was a Thursday). -/
def Weekday (t : Time) : Nat := ((t.civilDay + 4) % 7).toNat

/-- Go `Time.Month` (1 = January, ..., 12 = December) in the proleptic Gregorian
calendar, computed from the day number by eras of 400 years. -/
def Month (t : Time) : Nat :=
  let z := t.civilDay + 719468
  let doe := z % 146097
  let yoe := (doe - doe / 1460 + doe / 36524 - doe / 146096) / 365
  let doy := doe - (365 * yoe + yoe / 4 - yoe / 100)
  let mp := (5 * doy + 2) / 153
  (if mp < 10 then mp + 3 else mp - 9).toNat

/-- The zero `time.Time`: January 1, year 1, 00:00:00 UTC. -/
def zero : Time := ⟨-62135596800, 0, 0⟩

end Time

/-- Go `Month.String`: the English name of the month. -/
def monthName : Nat → String
  | 1 => "January"
  | 2 => "February"
  | 3 => "March"
  | 4 => "April"
  | 5 => "May"
  | 6 => "June"
  | 7 => "July"
  | 8 => "August"
  | 9 => "September"
  | 10 => "October"
  | 11 => "November"
  | 12 => "December"
  | n => "%!Month(" ++ toString n ++ ")"

/-- Go `time.Time.Weekday` constants used by the categoriser. -/
def Monday : Nat := 1

/-- Go `time.Friday`. -/
def Friday : Nat := 5

/-! ## `internal/heap/photo.go` -/

/-- A Go `float64`, kept as its IEEE-754 bit pattern (no arithmetic is done on it). -/
structure Float64 where
  bits : Nat
deriving DecidableEq

/-- Go `heap.Photo`.  `Addresses` is `map[string]struct{}`: the map is represented by
the list of its keys, in the order in which a `range` over it visits them. -/
structure Photo where
  Timestamp : Time
  Latitude : Float64
  Longitude : Float64
  Addresses : List String
deriving DecidableEq

/-- The zero value `Photo{}`. -/
def Photo.zero : Photo := ⟨Time.zero, ⟨0⟩, ⟨0⟩, []⟩

/-- Go `heap.PhotoHeap`, a slice of photos. -/
abbrev PhotoHeap := List Photo

namespace PhotoHeap

/-- Method `func (d PhotoHeap) Len() int`. -/
def Len (d : PhotoHeap) : Nat := d.length

/-- Method `func (d PhotoHeap) Less(i, j int) bool`: compares `Timestamp.Unix()`;
indexing out of range panics. -/
def Less (d : PhotoHeap) (i j : Nat) : Option Bool :=
  match d[i]?, d[j]? with
  | some a, some b => some (decide (a.Timestamp.Unix < b.Timestamp.Unix))
  | _, _ => none

/-- Method `func (d PhotoHeap) Swap(i, j int)`: `d[i], d[j] = d[j], d[i]`. -/
def Swap (d : PhotoHeap) (i j : Nat) : Option PhotoHeap :=
  match d[i]?, d[j]? with
  | some a, some b => some ((d.set i b).set j a)
  | _, _ => none

/-- Method `func (d *PhotoHeap) Push(x interface{})`: append. -/
def Push (d : PhotoHeap) (x : Photo) : PhotoHeap := d ++ [x]

/-- Method `func (d *PhotoHeap) Pop() interface{}`: remove and return the last element
(`old[n-1]` panics when `n = 0`). -/
def Pop (d : PhotoHeap) : Option (Photo × PhotoHeap) :=
  let n := d.length
  if n = 0 then none
  else match d[n - 1]? with
    | some x => some (x, d.take (n - 1))
    | none => none

end PhotoHeap

/-! ## Package `container/heap` instantiated at `PhotoHeap` -/

namespace ContainerHeap

/-- The loop of `up(h, j)`: `i := (j-1)/2; if i == j || !h.Less(j, i) break; h.Swap(i, j); j = i`.
For `j = 0` Go computes `(0-1)/2 = 0`, as the truncated subtraction does here. -/
def upLoop : Nat → PhotoHeap → Nat → Option PhotoHeap
  | 0, _, _ => none
  | fuel + 1, d, j =>
    let i := (j - 1) / 2
    if i = j then some d
    else match PhotoHeap.Less d j i with
      | none => none
      | some false => some d
      | some true =>
        match PhotoHeap.Swap d i j with
        | none => none
        | some d1 => upLoop fuel d1 i

/-- Function `func up(h Interface, j int)`. -/
def up (d : PhotoHeap) (j : Nat) : Option PhotoHeap := upLoop (j + 1) d j

/-- The loop of `down(h, i0, n)`, returning the slice and the final `i`. -/
def downLoop : Nat → PhotoHeap → Nat → Nat → Option (PhotoHeap × Nat)
  | 0, _, _, _ => none
  | fuel + 1, d, i, n =>
    let j1 := 2 * i + 1
    if j1 ≥ n then some (d, i)
    else
      let j2 := j1 + 1
      match (if j2 < n then PhotoHeap.Less d j2 j1 else some false) with
      | none => none
      | some c =>
        let j := if c then j2 else j1
        match PhotoHeap.Less d j i with
        | none => none
        | some false => some (d, i)
        | some true =>
          match PhotoHeap.Swap d i j with
          | none => none
          | some d1 => downLoop fuel d1 j n

/-- Function `func down(h Interface, i0, n int) bool`. -/
def down (d : PhotoHeap) (i0 n : Nat) : Option (PhotoHeap × Bool) :=
  match downLoop (n + 1) d i0 n with
  | none => none
  | some (d1, i) => some (d1, decide (i > i0))

/-- The loop of `Init`: `for i := n/2 - 1; i >= 0; i-- { down(h, i, n) }`, where `k`
counts the iterations still to run (`i = k - 1`). -/
def initLoop : Nat → PhotoHeap → Nat → Option PhotoHeap
  | 0, d, _ => some d
  | k + 1, d, n =>
    match down d k n with
    | none => none
    | some (d1, _) => initLoop k d1 n

/-- Function `func Init(h Interface)`. -/
def Init (d : PhotoHeap) : Option PhotoHeap :=
  let n := PhotoHeap.Len d
  initLoop (n / 2) d n

/-- Function `func Push(h Interface, x any)`: `h.Push(x); up(h, h.Len()-1)`. -/
def Push (d : PhotoHeap) (x : Photo) : Option PhotoHeap :=
  let d1 := PhotoHeap.Push d x
  up d1 (PhotoHeap.Len d1 - 1)

/-- Function `func Pop(h Interface) any`: `n := h.Len() - 1; h.Swap(0, n); down(h, 0, n); return h.Pop()`.
On an empty slice Go calls `Swap(0, -1)`, which panics; here `Swap d 0 0` is out of
range on the empty list. -/
def Pop (d : PhotoHeap) : Option (Photo × PhotoHeap) :=
  let n := PhotoHeap.Len d - 1
  match PhotoHeap.Swap d 0 n with
  | none => none
  | some d1 =>
    match down d1 0 n with
    | none => none
    | some (d2, _) => PhotoHeap.Pop d2

end ContainerHeap

/-! ## `internal/heap/heap.go` -/

/-- The errors `Heap.Pop` can return; Go's `nil` error is `none : Option HeapError`. -/
inductive HeapError where
  | ErrEmptyHeap
deriving DecidableEq

/-- Go `heap.Heap` (the slice behind the `photoHeap` pointer). -/
structure Heap where
  photoHeap : PhotoHeap
deriving DecidableEq

namespace Heap

/-- Function `func New() *Heap`. -/
def New : Option Heap :=
  match ContainerHeap.Init [] with
  | none => none
  | some d => some ⟨d⟩

/-- Method `func (h *Heap) Push(photo Photo)`. -/
def Push (h : Heap) (photo : Photo) : Option Heap :=
  match ContainerHeap.Push h.photoHeap photo with
  | none => none
  | some d => some ⟨d⟩

/-- Method `func (h *Heap) Pop() (Photo, error)`, returning the heap it leaves behind too. -/
def Pop (h : Heap) : Option ((Photo × Option HeapError) × Heap) :=
  if PhotoHeap.Len h.photoHeap = 0 then
    some ((Photo.zero, some HeapError.ErrEmptyHeap), h)
  else
    match ContainerHeap.Pop h.photoHeap with
    | none => none
    | some (v, d) => some ((v, none), ⟨d⟩)

end Heap

/-! ## Sequences of calls on a heap -/

/-- Push the photos of a list one after the other, first element first. -/
def pushAll : Heap → List Photo → Option Heap
  | h, [] => some h
  | h, p :: ps =>
    match Heap.Push h p with
    | none => none
    | some h1 => pushAll h1 ps

/-- Call `Pop` `n` times, collecting what each call returned. -/
def popN : Nat → Heap → Option (List (Photo × Option HeapError) × Heap)
  | 0, h => some ([], h)
  | n + 1, h =>
    match Heap.Pop h with
    | none => none
    | some (r, h1) =>
      match popN n h1 with
      | none => none
      | some (rs, h2) => some (r :: rs, h2)

/-- A call of `Push` or of `Pop`. -/
inductive Op where
  | push (p : Photo)
  | pop
deriving DecidableEq

/-- Run one operation, dropping what `Pop` returned. -/
def runOp (h : Heap) : Op → Option Heap
  | Op.push p => Heap.Push h p
  | Op.pop =>
    match Heap.Pop h with
    | none => none
    | some (_, h1) => some h1

/-- Run a sequence of operations. -/
def runOps : Heap → List Op → Option Heap
  | h, [] => some h
  | h, o :: os =>
    match runOp h o with
    | none => none
    | some h1 => runOps h1 os

/-- The heaps that `New()` followed by any sequence of `Push` and `Pop` calls gives. -/
def Reachable (h : Heap) : Prop :=
  ∃ h0 ops, Heap.New = some h0 ∧ runOps h0 ops = some h

/-! ## `internal/categoriser/phrases.go` -/

/-- Go `categoriser.Location`: the visit of one place. -/
structure Location where
  startTime : Time
  endTime : Time
  location : String
deriving DecidableEq

/-- The three implementations of the Go interface `phrase`. -/
inductive phrase where
  | locationPhrase (s : String)
  | delimiterPhrase (s : String)
  | combinationPhrase (phrase : String) (delimiter : String)
deriving DecidableEq

/-- The three `generate` methods: `fmt.Sprintf` with `%s` verbs separated by single
spaces; the month is printed through `Month.String`. -/
def phrase.generate : phrase → Location → String
  | phrase.locationPhrase l, location => l ++ " " ++ location.location
  | phrase.delimiterPhrase d, location =>
    location.location ++ " " ++ d ++ " " ++ monthName location.startTime.Month
  | phrase.combinationPhrase p d, location =>
    p ++ " " ++ location.location ++ " " ++ d ++ " " ++ monthName location.startTime.Month

/-- Package variable `anyPhrases`. -/
def anyPhrases : List phrase :=
  [phrase.delimiterPhrase "in", phrase.combinationPhrase "Visiting" "in"]

/-- Package variable `weekendPhrases`. -/
def weekendPhrases : List phrase :=
  [phrase.locationPhrase "A weekend getaway to", phrase.locationPhrase "A weekend in"]

/-- Package variable `weekPhrases`. -/
def weekPhrases : List phrase := [phrase.locationPhrase "A trip away to"]

/-- Package variable `dayPhrases`. -/
def dayPhrases : List phrase :=
  [phrase.locationPhrase "A day out in", phrase.locationPhrase "A trip to"]

/-- Package variable `holidayPhrases`. -/
def holidayPhrases : List phrase := [phrase.locationPhrase "Holiday to"]

/-! ## `internal/categoriser/categoriser.go` -/

/-- Package variable `oneDay = time.Hour * 24`. -/
def oneDay : Duration := Hour * 24

/-- Package variable `fourDays = time.Hour * 96`. -/
def fourDays : Duration := Hour * 96

/-- Method `func (l Location) suggestions(phrases []phrase) []string`: the loop appends
`phrase.generate(l)` for each phrase in turn, starting from the empty slice. -/
def Location.suggestions (l : Location) (phrases : List phrase) : List String :=
  phrases.foldl (fun tripNames p => tripNames ++ [p.generate l]) []

/-- Method `func (l Location) GenerateTitles() []string`. -/
def Location.GenerateTitles (l : Location) : List String :=
  let startTimeWeekday := l.startTime.Weekday
  let endTimeWeekday := l.endTime.Weekday
  let tripDiff := l.endTime.Sub l.startTime
  let phrases :=
    if tripDiff < oneDay then dayPhrases
    else if tripDiff > oneDay ∧ tripDiff ≤ fourDays then
      (if startTimeWeekday ≥ Friday ∧ endTimeWeekday ≤ Monday then weekendPhrases
       else weekPhrases)
    else holidayPhrases
  l.suggestions (phrases ++ anyPhrases)

/-- Go `map[string]*Location`: a finite map, read by key.  Each key owns its `Location`
object, so a write through the stored pointer is a write at that key. -/
abbrev Locations := String → Option Location

/-- The body of the loop `for k := range photo.Addresses` in `Group`, for the key `k`. -/
def groupKey (photo : Photo) (locations : Locations) (k : String) : Locations :=
  let location : Location := ⟨photo.Timestamp, photo.Timestamp, k⟩
  match locations k with
  | none => Function.update locations k (some location)
  | some lastLocation =>
    if photo.Timestamp.Sub lastLocation.endTime ≤ oneDay then
      Function.update locations k (some { lastLocation with endTime := photo.Timestamp })
    else locations

/-- The loop `for k := range photo.Addresses` in `Group`. -/
def groupPhoto (photo : Photo) (locations : Locations) : Locations :=
  photo.Addresses.foldl (groupKey photo) locations

/-- The outer loop of `Group`: pop; stop on `ErrEmptyHeap`; otherwise fold the photo
into the map. -/
def GroupLoop : Nat → Heap → Locations → Option (Locations × Heap)
  | 0, _, _ => none
  | fuel + 1, h, locations =>
    match Heap.Pop h with
    | none => none
    | some ((photo, err), h1) =>
      match err with
      | some HeapError.ErrEmptyHeap => some (locations, h1)
      | none => GroupLoop fuel h1 (groupPhoto photo locations)

/-- Function `func Group(photoHeap *heap.Heap) map[string]*Location`, returning the heap it
leaves behind as well. -/
def Group (photoHeap : Heap) : Option (Locations × Heap) :=
  GroupLoop (PhotoHeap.Len photoHeap.photoHeap + 1) photoHeap (fun _ => none)

/-! ## Vocabulary of the statements -/

/-- The ordering key of the record at index `k` of the slice: `Timestamp.Unix()`. -/
def keyAt (d : PhotoHeap) (k : Nat) : Int := (d.getD k Photo.zero).Timestamp.Unix

/-- The slice after `d[i], d[j] = d[j], d[i]`. -/
def swp (d : PhotoHeap) (i j : Nat) : PhotoHeap :=
  (d.set i (d.getD j Photo.zero)).set j (d.getD i Photo.zero)

/-- The binary min-heap property of the slice: no record has a smaller key than the
record at its parent index `(k - 1) / 2`. -/
def heapOrdered (d : PhotoHeap) : Prop :=
  ∀ k, 0 < k → k < d.length → keyAt d ((k - 1) / 2) ≤ keyAt d k

/-- The min-heap property on the first `n` records of the slice. -/
def orderedBelow (d : PhotoHeap) (n : Nat) : Prop :=
  ∀ k, 0 < k → k < n → keyAt d ((k - 1) / 2) ≤ keyAt d k

/-- Loop invariant of `up`: the heap property holds except between `j` and its parent,
and the children of `j` are not below the parent of `j`. -/
def upInv (d : PhotoHeap) (j : Nat) : Prop :=
  (∀ k, 0 < k → k < d.length → k ≠ j → keyAt d ((k - 1) / 2) ≤ keyAt d k) ∧
  (∀ k, 0 < k → k < d.length → (k - 1) / 2 = j → 0 < j → keyAt d ((j - 1) / 2) ≤ keyAt d k)

/-- Loop invariant of `down`: the heap property holds on the first `n` records except
between `i` and its children, and the children of `i` are not below the parent of `i`. -/
def downInv (d : PhotoHeap) (i n : Nat) : Prop :=
  (∀ k, 0 < k → k < n → (k - 1) / 2 ≠ i → keyAt d ((k - 1) / 2) ≤ keyAt d k) ∧
  (∀ k, 0 < k → k < n → (k - 1) / 2 = i → 0 < i → keyAt d ((i - 1) / 2) ≤ keyAt d k)

/-- The heap-ordering property for the photos `ps` pushed in this order onto a new heap,
with timestamps compared through `key`: the pushes succeed, the next `ps.length` calls
of `Pop` succeed (nil error) and return records whose keys never decrease, and the
call after those returns the zero photo with `ErrEmptyHeap`. -/
def HeapOrdering (key : Time → Int) (ps : List Photo) : Prop :=
  ∃ h0 h outs hN, Heap.New = some h0 ∧ pushAll h0 ps = some h ∧
    popN ps.length h = some (outs, hN) ∧ (∀ o ∈ outs, o.2 = none) ∧
    outs.Pairwise (fun a b => key a.1.Timestamp ≤ key b.1.Timestamp) ∧
    Heap.Pop hN = some ((Photo.zero, some HeapError.ErrEmptyHeap), hN)

/-- The extract-min property of one heap state, with timestamps compared through `key`:
`Pop` succeeds and no record of the heap has a smaller key than the record returned. -/
def PopReturnsMin (key : Time → Int) (h : Heap) : Prop :=
  ∃ r h1, Heap.Pop h = some ((r, none), h1) ∧
    ∀ y ∈ h.photoHeap, key r.Timestamp ≤ key y.Timestamp

/-- A photo taken in London at 2022-03-28T10:10:10.9Z. -/
def photoLate : Photo := ⟨⟨1648462210, 900000000, 0⟩, ⟨0⟩, ⟨0⟩, ["London"]⟩

/-- A photo taken in London at 2022-03-28T10:10:10.1Z, in the same second as `photoLate`
and 0.8 s before it. -/
def photoEarly : Photo := ⟨⟨1648462210, 100000000, 0⟩, ⟨0⟩, ⟨0⟩, ["London"]⟩

/-- What one photo taken at `ts` whose place set contains `q` does to the entry of `q`
in the map of `Group`: create the visit, extend its end, or leave it. -/
def visitStep (ts : Time) (q : String) : Option Location → Option Location
  | none => some ⟨ts, ts, q⟩
  | some v => if ts.Sub v.endTime ≤ oneDay then some { v with endTime := ts } else some v

/-- The map of `Group` after the photos of a list have been extracted in this order. -/
def groupPhotos (outs : List Photo) (locations : Locations) : Locations :=
  outs.foldl (fun m r => groupPhoto r m) locations

/-- The empty map `make(map[string]*Location)`. -/
def noLocations : Locations := fun _ => none

/-- The end of a visit that ends at `e` after photos of its place taken at `ts` have
been extracted in this order. -/
def extendEnd (e : Time) (ts : List Time) : Time :=
  ts.foldl (fun e t => if t.Sub e ≤ oneDay then t else e) e

/-- The records of the heap whose place set contains `p`. -/
def recordsOf (h : Heap) (p : String) : List Photo :=
  h.photoHeap.filter (fun r => decide (p ∈ r.Addresses))

/-- The instants (nanoseconds since the epoch) of the records whose place set contains
`p`, in ascending order. -/
def placeInstants (h : Heap) (p : String) : List Int :=
  List.insertionSort (fun a b => a ≤ b) ((recordsOf h p).map (fun r => r.Timestamp.nanos))

/-- Every consecutive gap of an ascending list of instants is at most 24 hours. -/
def gapsWithinDay (ts : List Int) : Prop :=
  List.Chain' (fun a b => b - a ≤ oneDay) ts

/-- The timestamps of the records whose place set contains `p` have no sub-second part. -/
def wholeSeconds (h : Heap) (p : String) : Prop :=
  ∀ r ∈ h.photoHeap, p ∈ r.Addresses → r.Timestamp.nsec = 0

/-- The visit-start property of place `p`, with timestamps compared through `key`:
`Group` returns a visit for `p` whose start is the timestamp of a record containing `p`
and no record containing `p` has a smaller key. -/
def StartIsSmallest (key : Time → Int) (h : Heap) (p : String) : Prop :=
  ∃ m h1 v, Group h = some (m, h1) ∧ m p = some v ∧
    (∃ r ∈ h.photoHeap, p ∈ r.Addresses ∧ v.startTime = r.Timestamp) ∧
    ∀ r ∈ h.photoHeap, p ∈ r.Addresses → key v.startTime ≤ key r.Timestamp

/-- The visit-end property of place `p`: `Group` returns a visit for `p` whose end is the
timestamp of a record containing `p` and no record containing `p` has a later instant. -/
def EndIsLargest (h : Heap) (p : String) : Prop :=
  ∃ m h1 v, Group h = some (m, h1) ∧ m p = some v ∧
    (∃ r ∈ h.photoHeap, p ∈ r.Addresses ∧ v.endTime = r.Timestamp) ∧
    ∀ r ∈ h.photoHeap, p ∈ r.Addresses → r.Timestamp.nanos ≤ v.endTime.nanos

/-- Following the words of the specification: the last instant of the maximal initial run
of the ascending instants `e, t₁, t₂, ...` whose consecutive gaps are all at most 24h. -/
def initialRunEnd : Int → List Int → Int
  | e, [] => e
  | e, t :: ts => if t - e ≤ oneDay then initialRunEnd t ts else e

/-- The extend-only property of place `p`.  `outs` is the order in which `Group` extracts
the records.  Once a record containing `p` is extracted more than 24 hours after the
current end of the visit of `p`, the visit is the same after that record and after every
later record; and the end of the visit `Group` returns is the last instant of the
maximal initial run of the ascending instants of `p`. -/
def ExtendOnly (h : Heap) (p : String) : Prop :=
  ∃ outs : List Photo,
    popN h.photoHeap.length h = some (outs.map (fun r => (r, none)), ⟨[]⟩) ∧
    Group h = some (groupPhotos outs noLocations, ⟨[]⟩) ∧
    (∀ pre r post v, outs = pre ++ r :: post → p ∈ r.Addresses →
      groupPhotos pre noLocations p = some v → r.Timestamp.Sub v.endTime > oneDay →
      ∀ post1 post2, post = post1 ++ post2 →
        groupPhotos (pre ++ r :: post1) noLocations p = some v) ∧
    ∃ v, groupPhotos outs noLocations p = some v ∧
      ∃ t ts, placeInstants h p = t :: ts ∧ v.endTime.nanos = initialRunEnd t ts

/-- The one-visit-per-place property: `Group` returns a map whose keys are exactly the
place names that occur in some record, each stored visit carrying its key as place. -/
def OneVisitPerPlace (h : Heap) : Prop :=
  ∃ m h1, Group h = some (m, h1) ∧
    (∀ p, (m p).isSome ↔ ∃ r ∈ h.photoHeap, p ∈ r.Addresses) ∧
    ∀ p v, m p = some v → v.location = p

/-- Test fixture: a photo taken in London, United Kingdom at 2022-03-28T10:10:10Z. -/
def fixtureMorning : Photo :=
  ⟨⟨1648462210, 0, 0⟩, ⟨0⟩, ⟨0⟩, ["London", "United Kingdom"]⟩

/-- Test fixture: a photo taken in London, United Kingdom at 2022-03-28T12:10:10Z. -/
def fixtureNoon : Photo :=
  ⟨⟨1648469410, 0, 0⟩, ⟨0⟩, ⟨0⟩, ["London", "United Kingdom"]⟩

/-- A photo taken in London at 2022-03-28T10:10:10.5Z. -/
def gapFirst : Photo := ⟨⟨1648462210, 500000000, 0⟩, ⟨0⟩, ⟨0⟩, ["London"]⟩

/-- A photo taken in London at 2022-03-29T10:10:10.9Z, 24 h 0.4 s after `gapFirst`. -/
def gapSecond : Photo := ⟨⟨1648548610, 900000000, 0⟩, ⟨0⟩, ⟨0⟩, ["London"]⟩

/-- A photo taken in London at 2022-03-29T10:10:10.3Z, 23 h 59 min 59.8 s after
`gapFirst`, in the same second as `gapSecond`. -/
def gapThird : Photo := ⟨⟨1648548610, 300000000, 0⟩, ⟨0⟩, ⟨0⟩, ["London"]⟩

/-- A photo taken in London at 2022-03-31T10:10:10Z, almost three days after the
fixtures. -/
def afterGapOne : Photo := ⟨⟨1648721410, 0, 0⟩, ⟨0⟩, ⟨0⟩, ["London"]⟩

/-- A photo taken in London at 2022-03-31T12:10:10Z. -/
def afterGapTwo : Photo := ⟨⟨1648728610, 0, 0⟩, ⟨0⟩, ⟨0⟩, ["London"]⟩

/-- The titles of the "holiday" class for the visit `l`. -/
def holidayTitles (l : Location) : List String :=
  ["Holiday to " ++ l.location,
   l.location ++ " in " ++ monthName l.startTime.Month,
   "Visiting " ++ l.location ++ " in " ++ monthName l.startTime.Month]

/-- The titles of the "weekend" class for the visit `l`. -/
def weekendTitles (l : Location) : List String :=
  ["A weekend getaway to " ++ l.location,
   "A weekend in " ++ l.location,
   l.location ++ " in " ++ monthName l.startTime.Month,
   "Visiting " ++ l.location ++ " in " ++ monthName l.startTime.Month]

/-- The titles of the "week" class for the visit `l`. -/
def weekTitles (l : Location) : List String :=
  ["A trip away to " ++ l.location,
   l.location ++ " in " ++ monthName l.startTime.Month,
   "Visiting " ++ l.location ++ " in " ++ monthName l.startTime.Month]

/-- The titles of the "day" class for the visit `l`. -/
def dayTitles (l : Location) : List String :=
  ["A day out in " ++ l.location,
   "A trip to " ++ l.location,
   l.location ++ " in " ++ monthName l.startTime.Month,
   "Visiting " ++ l.location ++ " in " ++ monthName l.startTime.Month]

/-- The duration `end - start` of a visit, in nanoseconds. -/
def Location.duration (l : Location) : Int := l.endTime.nanos - l.startTime.nanos

/-- A visit of London from 2022-03-28T10:10:10Z to 2022-03-29T10:10:10Z: exactly 24 hours. -/
def exactDayVisit : Location := ⟨⟨1648462210, 0, 0⟩, ⟨1648548610, 0, 0⟩, "London"⟩

/-- A visit of London from Thursday 2022-03-31T23:00:00Z to Monday 2022-04-04T01:00:00Z
(74 hours). -/
def thursdayToMonday : Location := ⟨⟨1648767600, 0, 0⟩, ⟨1649034000, 0, 0⟩, "London"⟩

/-- Test fixture "generates weekend phrases": London from Saturday 2022-04-02T10:10:10Z
to Monday 2022-04-04T14:10:10Z. -/
def weekendVisit : Location := ⟨⟨1648894210, 0, 0⟩, ⟨1649081410, 0, 0⟩, "London"⟩

/-- The English month names, January first. -/
def englishMonths : List String :=
  ["January", "February", "March", "April", "May", "June", "July", "August",
   "September", "October", "November", "December"]

/-- Test fixture "generates day phrases": London from 2022-03-28T10:10:10Z to
2022-03-28T14:10:10Z. -/
def dayVisit : Location := ⟨⟨1648462210, 0, 0⟩, ⟨1648476610, 0, 0⟩, "London"⟩

/-- Test fixture "generates holiday phrases": London from 2022-03-28T10:10:10Z (March)
to 2022-04-05T14:10:10Z (April). -/
def holidayVisit : Location := ⟨⟨1648462210, 0, 0⟩, ⟨1649167810, 0, 0⟩, "London"⟩

/-! ## Packages `googlemaps.github.io/maps` and `context` (what `consumer.go` uses) -/

/-- Go `maps.AddressComponent`. -/
structure AddressComponent where
  LongName : String
  ShortName : String
  Types : List String
deriving DecidableEq

/-- Go `maps.GeocodingResult` (the field `consumer.go` reads). -/
structure GeocodingResult where
  AddressComponents : List AddressComponent
deriving DecidableEq

/-- Go `maps.LatLng`. -/
structure LatLng where
  Lat : Float64
  Lng : Float64
deriving DecidableEq

/-- Go `maps.GeocodingRequest` (the fields `consumer.go` sets). -/
structure GeocodingRequest where
  LatLng : LatLng
  ResultType : List String
deriving DecidableEq

/-- Go `context.Context`, as far as the consumer can observe it: whether the channel
returned by `Done()` is closed, that is whether the cancellation signal has been raised. -/
structure Context where
  done : Bool
deriving DecidableEq

/-! ## `internal/consumer/consumer.go` -/

/-- Package variable `acceptedLocationTypes`. -/
def acceptedLocationTypes : List String :=
  ["country", "locality", "sublocality", "administrative_area_level_3",
   "administrative_area_level_2", "administrative_area_level_1"]

/-- Interface `geocodeClient`: the method `ReverseGeocode(ctx, r)`, returning the results
or an error (here the text of the error). -/
abbrev geocodeClient := Context → GeocodingRequest → Except String (List GeocodingResult)

/-- Go `consumer.Consumer`. -/
structure Consumer where
  client : geocodeClient

/-- Function `func acceptedTypes(locationTypes []string) bool`: the two nested loops
return true at the first accepted type that equals one of the location types. -/
def acceptedTypes (locationTypes : List String) : Bool :=
  acceptedLocationTypes.any (fun acceptedLocation =>
    locationTypes.any (fun locationType => acceptedLocation == locationType))

/-- The body of the loop over `result.AddressComponents` in `getGeocoding`: an accepted
component whose long name is not a key of `photo.Addresses` yet is added to the map. -/
def addAddress (addresses : List String) (address : AddressComponent) : List String :=
  if acceptedTypes address.Types then
    if address.LongName ∈ addresses then addresses else addresses ++ [address.LongName]
  else addresses

/-- The two loops of `getGeocoding` over the results and their address components,
starting from the empty map `make(map[string]struct{})`. -/
def collectAddresses (results : List GeocodingResult) : List String :=
  results.foldl (fun addresses result => result.AddressComponents.foldl addAddress addresses) []

/-- The request `getGeocoding` sends for a photo. -/
def geocodingRequest (photo : Photo) : GeocodingRequest :=
  ⟨⟨photo.Latitude, photo.Longitude⟩, ["locality"]⟩

/-- Method `func (c *Consumer) getGeocoding(ctx, photoHeap, photo) error`, returning the
error (`none` is Go's `nil`) and the heap it leaves behind. -/
def Consumer.getGeocoding (c : Consumer) (ctx : Context) (photoHeap : Heap) (photo : Photo) :
    Option (Option String × Heap) :=
  match c.client ctx (geocodingRequest photo) with
  | Except.error err => some (some ("getting location: " ++ err), photoHeap)
  | Except.ok results =>
    if results.length > 0 then
      match Heap.Push photoHeap { photo with Addresses := collectAddresses results } with
      | none => none
      | some h1 => some (none, h1)
    else some (none, photoHeap)

/-- The two cases of the `select` in `Run`. -/
inductive SelectCase where
  | ctxDone
  | photos
deriving DecidableEq

/-- One iteration of the loop of `Run` as the scheduler sees it.  The context is one
object that the rest of the program cancels at a moment of its own choosing, so its
state is observed separately at each step of the iteration: `atSelect` when the `select`
is evaluated, `atCall` while `ReverseGeocode` runs (what the client can observe), and
`atPush` when `getGeocoding` reaches `photoHeap.Push` (no statement of consumer.go reads
the context there).  The field `prefer` is the case the `select` takes when both cases
are ready (Go picks one of the ready cases pseudo-randomly). -/
structure Iteration where
  atSelect : Context
  prefer : SelectCase
  atCall : Context
  atPush : Context
deriving DecidableEq

/-- The channel `photos`: the items waiting in it and whether it is closed after them. -/
structure PhotoChan where
  queue : List Photo
  closed : Bool
deriving DecidableEq

/-- Where a run of the worker stands: the heap, the channel, and whether `Run` has
returned (otherwise it is at the `select`, waiting).  The field `pushedAfterSignal` is a
log kept for the statements about cancellation: the stream items, in the order they were
received, whose call of `getGeocoding` changed the heap at a moment when the context was
already done. -/
structure RunState where
  photoHeap : Heap
  photos : PhotoChan
  returned : Bool
  pushedAfterSignal : List Photo
deriving DecidableEq

/-- Method `func (c *Consumer) Run(ctx, photoHeap, photos, wg)`: the loop around the
`select`, one iteration per element of the schedule.  The case `<-ctx.Done()` is ready
when the context is done at the `select`, the case `<-photos` when an item is waiting or
the channel is closed; when neither is ready the worker waits.  `getGeocoding` hands the
context to the client in the state it has during the call and does not look at it again
before `photoHeap.Push`; its error is logged and dropped.  The last `match` only keeps
the log `pushedAfterSignal`: the item is added to it when the call changed the heap and
the context was done by the time of the push. -/
def Consumer.Run (c : Consumer) : Heap → PhotoChan → List Iteration → Option RunState
  | photoHeap, photos, [] => some ⟨photoHeap, photos, false, []⟩
  | photoHeap, photos, it :: rest =>
    let chanReady : Bool := !photos.queue.isEmpty || photos.closed
    let taken : Option SelectCase :=
      if it.atSelect.done && chanReady then some it.prefer
      else if it.atSelect.done then some SelectCase.ctxDone
      else if chanReady then some SelectCase.photos
      else none
    match taken with
    | none => some ⟨photoHeap, photos, false, []⟩
    | some SelectCase.ctxDone => some ⟨photoHeap, photos, true, []⟩
    | some SelectCase.photos =>
      match photos.queue with
      | [] => some ⟨photoHeap, photos, true, []⟩
      | photo :: queue =>
        match c.getGeocoding it.atCall photoHeap photo with
        | none => none
        | some (_, h1) =>
          match Consumer.Run c h1 ⟨queue, photos.closed⟩ rest with
          | none => none
          | some s =>
            if it.atPush.done && decide (h1 ≠ photoHeap) then
              some { s with pushedAfterSignal := photo :: s.pushedAfterSignal }
            else some s

/-- The record `getGeocoding` pushes for a photo, if it pushes one: the photo with the
place set collected from a successful, non-empty response. -/
def Consumer.pushedFor (c : Consumer) (ctx : Context) (photo : Photo) : Option Photo :=
  match c.client ctx (geocodingRequest photo) with
  | Except.error _ => none
  | Except.ok results =>
    if results.length > 0 then some { photo with Addresses := collectAddresses results }
    else none

/-- The states of the context a schedule observes, in the order of the observations. -/
def observations (sched : List Iteration) : List Bool :=
  sched.flatMap (fun it => [it.atSelect.done, it.atCall.done, it.atPush.done])

/-- A cancelled context stays cancelled: whenever an observation of the schedule finds
the context done, every later observation finds it done as well. -/
def StaysCancelled (sched : List Iteration) : Prop :=
  (observations sched).Pairwise (fun earlier later => earlier = true → later = true)

/-- No address component of the response has an accepted type tag. -/
def NoUsableCandidate (results : List GeocodingResult) : Prop :=
  ∀ r ∈ results, ∀ a ∈ r.AddressComponents, acceptedTypes a.Types = false

/-- The geocoding request for the photo leaves the heap as it was and returns nil. -/
def DropsRecord (c : Consumer) (ctx : Context) (h : Heap) (photo : Photo) : Prop :=
  c.getGeocoding ctx h photo = some (none, h)

/-- Test fixture: the photo the consumer tests send through the worker
(2022-01-03T10:11:12Z, no place set yet). -/
def rawPhoto : Photo := ⟨⟨1641204672, 0, 0⟩, ⟨4632465981282568902⟩, ⟨4593167130799989413⟩, []⟩

/-- Test fixture "ignores unaccepted address types": the response with London
(locality) and E1 6AN (postal_code). -/
def responseWithPostcode : List GeocodingResult :=
  [⟨[⟨"London", "London", ["locality"]⟩, ⟨"E1 6AN", "", ["postal_code"]⟩]⟩]

/-- A response whose only address component is tagged `postal_code`. -/
def responsePostcodeOnly : List GeocodingResult := [⟨[⟨"E1 6AN", "", ["postal_code"]⟩]⟩]

/-- A test double of the client (like `mockGeocodingClient`): it returns the given
results whatever the context and the request. -/
def mockClient (results : List GeocodingResult) : Consumer :=
  ⟨fun _ _ => Except.ok results⟩

/-- A test double of the client that fails (like the mock of the test "nothing added to
the heap on error"). -/
def failingClient : Consumer := ⟨fun _ _ => Except.error "client error"⟩

/-- A client that honours the context: it fails once the context is done and returns
the given results before. -/
def cancellableClient (results : List GeocodingResult) : Consumer :=
  ⟨fun ctx _ => if ctx.done then Except.error "context canceled" else Except.ok results⟩

/-- A client that fails for the photo taken at the given coordinates and returns the
given results for every other request. -/
def failingAt (lat lng : Float64) (results : List GeocodingResult) : Consumer :=
  ⟨fun _ req => if req.LatLng = ⟨lat, lng⟩ then Except.error "client error"
    else Except.ok results⟩

/-- A second photo for the worker (2022-01-03T10:11:13Z, at other coordinates, no place
set yet). -/
def rawPhotoNext : Photo := ⟨⟨1641204673, 0, 0⟩, ⟨4632465981282568903⟩, ⟨4593167130799989413⟩, []⟩

/-- The cancellation property of a worker: on every reachable heap, every channel and
every schedule in which a cancelled context stays cancelled, `Run` does not panic and no
record is pushed at a moment when the cancellation signal has been raised. -/
def NoInsertAfterCancel (c : Consumer) : Prop :=
  ∀ (h : Heap) (photos : PhotoChan) (sched : List Iteration),
    Reachable h → StaysCancelled sched →
    ∃ s, c.Run h photos sched = some s ∧ s.pushedAfterSignal = []

/-! ## `internal/consumer/reader.go` -/

/-- The two parsers `ReadCSV` calls, `dateparse.ParseAny` and
`strconv.ParseFloat(s, 64)`; `none` stands for a returned error. -/
structure Parsers where
  ParseAny : String → Option Time
  ParseFloat : String → Option Float64

/-- What one call `reader.Read()` of `encoding/csv` returns before the end of the input:
the record, and whether an error other than `io.EOF` came with it (such as
`csv.ErrFieldCount`, which is returned together with the record).  After the last element
of the input `Read` returns `io.EOF`. -/
structure CsvRead where
  row : List String
  err : Bool
deriving DecidableEq

/-- The loop of the goroutine of `ReadCSV`, returning the photos sent on the channel in
order.  `ctxDone i` tells whether the context is done when iteration `i` runs its
`select`; an error of `Read` other than `io.EOF` is not looked at. -/
def ReadCSVLoop (P : Parsers) (ctxDone : Nat → Bool) : Nat → List CsvRead → List Photo
  | _, [] => []
  | i, r :: rest =>
    if ctxDone i then []
    else
      match r.row with
      | [f0, f1, f2] =>
        match P.ParseAny f0 with
        | none => ReadCSVLoop P ctxDone (i + 1) rest
        | some timestamp =>
          match P.ParseFloat f1 with
          | none => ReadCSVLoop P ctxDone (i + 1) rest
          | some latitude =>
            match P.ParseFloat f2 with
            | none => ReadCSVLoop P ctxDone (i + 1) rest
            | some longitude =>
              ⟨timestamp, latitude, longitude, []⟩ :: ReadCSVLoop P ctxDone (i + 1) rest
      | _ => ReadCSVLoop P ctxDone (i + 1) rest

/-- Method `func (r *Reader) ReadCSV(ctx) <-chan heap.Photo`: the photos the channel
delivers before it is closed, for the records the file holds. -/
def ReadCSV (P : Parsers) (ctxDone : Nat → Bool) (reads : List CsvRead) : List Photo :=
  ReadCSVLoop P ctxDone 0 reads

/-- The context is never cancelled. -/
def neverDone : Nat → Bool := fun _ => false

/-- Following the words of the specification: the record of a row that has 3 fields all
of which parse, with timestamp, latitude and longitude taken from fields 1, 2 and 3 and
an empty place set; nothing for any other row. -/
def recordOfRow (P : Parsers) (r : CsvRead) : Option Photo :=
  if r.row.length = 3 then
    match P.ParseAny (r.row.getD 0 ""), P.ParseFloat (r.row.getD 1 ""),
        P.ParseFloat (r.row.getD 2 "") with
    | some timestamp, some latitude, some longitude => some ⟨timestamp, latitude, longitude, []⟩
    | _, _, _ => none
  else none

/-- Test parsers: the timestamp of the reader tests, decimal floats kept as the length
of their text (only whether a field parses matters here). -/
def testParsers : Parsers :=
  ⟨fun s => if s = "2020-03-30 14:12:19" then some ⟨1585577539, 0, 0⟩ else none,
   fun s => if s = "not_a_float" then none else some ⟨s.length⟩⟩

/-! ## Goroutines calling the heap through its `sync.RWMutex` -/

/-- The two ways `heap.go` takes the mutex: `mu.Lock()` and `mu.RLock()`. -/
inductive LockKind where
  | Lock
  | RLock
deriving DecidableEq

/-- State of a `sync.RWMutex`: the goroutine that holds it for writing, if any, and the
goroutines that hold it for reading. -/
structure RWMutex where
  writer : Option Nat
  readers : List Nat
deriving DecidableEq

namespace RWMutex

/-- Whether a call of `Lock` or of `RLock` returns now: `Lock` needs the mutex free,
`RLock` needs no writer holding it. -/
def canAcquire (mu : RWMutex) : LockKind → Bool
  | LockKind.Lock => mu.writer.isNone && mu.readers.isEmpty
  | LockKind.RLock => mu.writer.isNone

/-- The mutex after goroutine `g` took it. -/
def acquire (mu : RWMutex) (g : Nat) : LockKind → RWMutex
  | LockKind.Lock => { mu with writer := some g }
  | LockKind.RLock => { mu with readers := g :: mu.readers }

/-- The mutex after goroutine `g` called `Unlock` or `RUnlock`. -/
def release (mu : RWMutex) (g : Nat) : LockKind → RWMutex
  | LockKind.Lock => { mu with writer := none }
  | LockKind.RLock => { mu with readers := mu.readers.erase g }

end RWMutex

/-- The lock each method of `Heap` takes: `Push` calls `h.mu.Lock()`, `Pop` calls
`h.mu.RLock()`. -/
def Heap.lockOf : Op → LockKind
  | Op.push _ => LockKind.Lock
  | Op.pop => LockKind.RLock

/-- A goroutine: the calls on the heap it still has to make, the first being the current
one, and, while it is inside the critical section of the current call, the heap as the
call found it. -/
structure Goroutine where
  calls : List Op
  inside : Option Heap
deriving DecidableEq

/-- Goroutines sharing one heap. -/
structure Pool where
  mu : RWMutex
  heap : Heap
  goroutines : List Goroutine
deriving DecidableEq

/-- What the scheduler lets happen next: goroutine `g` takes the lock of its current call
and enters the body, or goroutine `g` finishes the body and releases the lock. -/
inductive Event where
  | enter (g : Nat)
  | leave (g : Nat)
deriving DecidableEq

/-- One event.  A goroutine that cannot take the lock waits (the state is unchanged);
the body of a call works on the heap the call found when it took the lock and its
result is the shared heap when the call leaves. -/
def Pool.step (s : Pool) : Event → Option Pool
  | Event.enter g =>
    match s.goroutines[g]? with
    | none => some s
    | some gr =>
      match gr.inside, gr.calls with
      | none, op :: _ =>
        if s.mu.canAcquire (Heap.lockOf op) then
          some ⟨s.mu.acquire g (Heap.lockOf op), s.heap,
            s.goroutines.set g { gr with inside := some s.heap }⟩
        else some s
      | _, _ => some s
  | Event.leave g =>
    match s.goroutines[g]? with
    | none => some s
    | some gr =>
      match gr.inside, gr.calls with
      | some found, op :: rest =>
        match runOp found op with
        | none => none
        | some h1 => some ⟨s.mu.release g (Heap.lockOf op), h1, s.goroutines.set g ⟨rest, none⟩⟩
      | _, _ => some s

/-- A sequence of events. -/
def Pool.run : Pool → List Event → Option Pool
  | s, [] => some s
  | s, e :: es =>
    match s.step e with
    | none => none
    | some s1 => Pool.run s1 es

/-- Workers that each push the records of their list onto one new heap. -/
def startPool (ws : List (List Photo)) : Pool :=
  ⟨⟨none, []⟩, ⟨[]⟩, ws.map (fun w => ⟨w.map Op.push, none⟩)⟩

/-- Every goroutine has made all its calls. -/
def poolDone (s : Pool) : Prop :=
  ∀ gr ∈ s.goroutines, gr.calls = [] ∧ gr.inside = none

/-- The record a call pushes, if it is a push. -/
def Op.photo : Op → Option Photo
  | Op.push p => some p
  | Op.pop => none

/-- The records the goroutines still have to push. -/
def pendingPhotos (gs : List Goroutine) : List Photo :=
  gs.flatMap (fun gr => gr.calls.filterMap Op.photo)

/-- The goroutines of a pool that are inside a critical section. -/
def insiders (s : Pool) : List Bool := s.goroutines.map (fun gr => gr.inside.isSome)

/-- Two goroutines that each call `Pop` once on a heap holding two photos. -/
def twoPoppers : Pool :=
  ⟨⟨none, []⟩, ⟨[photoEarly, photoLate]⟩, [⟨[Op.pop], none⟩, ⟨[Op.pop], none⟩]⟩
/-- Invariant of a pool whose goroutines only push, `all` being the records the workers
were given: no reader holds the mutex; a goroutine inside a critical section is the
writer of the mutex and found the heap as it is now; the slice is heap-ordered; every
remaining call is a push; and the records in the heap together with the records still to
push are the records given. -/
structure PoolInv (all : List Photo) (s : Pool) : Prop where
  noReaders : s.mu.readers = []
  holder : ∀ g gr, s.goroutines[g]? = some gr → ∀ found, gr.inside = some found →
    s.mu.writer = some g ∧ found = s.heap
  ordered : heapOrdered s.heap.photoHeap
  pushes : ∀ gr ∈ s.goroutines, ∀ op ∈ gr.calls, ∃ p, op = Op.push p
  records : (s.heap.photoHeap ++ pendingPhotos s.goroutines).Perm all

/-- The binary min-heap property of a slice with timestamps compared through `key`: for
every index `i > 0` the key at `i` is not smaller than the key at its parent
`(i - 1) / 2`. -/
def MinHeapAt (key : Time → Int) (d : PhotoHeap) : Prop :=
  ∀ i, 0 < i → i < d.length →
    key (d.getD ((i - 1) / 2) Photo.zero).Timestamp ≤ key (d.getD i Photo.zero).Timestamp

/-- The record at index 0 is a minimum of the slice, with timestamps compared through
`key`. -/
def RootIsMin (key : Time → Int) (d : PhotoHeap) : Prop :=
  ∀ y ∈ d, key (d.getD 0 Photo.zero).Timestamp ≤ key y.Timestamp

/-- Test fixture "pushed unsorted": the photo of 2022-01-03T10:11:12Z. -/
def unsortedLater : Photo :=
  ⟨⟨1641204672, 0, 0⟩, ⟨13845191145896542208⟩, ⟨4621819117588971520⟩,
    ["London", "United Kingdom"]⟩

/-- Test fixture "pushed unsorted": the photo of 2022-01-02T10:11:12Z. -/
def unsortedEarlier : Photo :=
  ⟨⟨1641118272, 0, 0⟩, ⟨13845191145896542208⟩, ⟨4621819117588971520⟩,
    ["London", "United Kingdom"]⟩

/-- Test fixture "adds photo to the heap": the response with London, Greater London,
England and United Kingdom. -/
def responseLondon : List GeocodingResult :=
  [⟨[⟨"London", "London", ["locality"]⟩,
     ⟨"Greater London", "Greater London", ["administrative_area_level_2"]⟩,
     ⟨"England", "England", ["administrative_area_level_1"]⟩,
     ⟨"United Kingdom", "GB", ["country"]⟩]⟩]

/-- The well-formedness of the visits `Group` returns, with timestamps compared through
`key`: for every visit of the map, the start is not after the end, and both the start
and the end are timestamps of records of the heap whose place set contains the place of
the visit. -/
def WellFormedVisits (key : Time → Int) (h : Heap) : Prop :=
  ∃ m h1, Group h = some (m, h1) ∧
    ∀ p v, m p = some v →
      key v.startTime ≤ key v.endTime ∧
      (∃ r ∈ h.photoHeap, v.location ∈ r.Addresses ∧ v.startTime = r.Timestamp) ∧
      (∃ r ∈ h.photoHeap, v.location ∈ r.Addresses ∧ v.endTime = r.Timestamp)

/-- Pushing the records in the order `ps1` and in the order `ps2`, each onto a new heap,
makes `Group` return the same map of places to visits. -/
def SameGrouping (ps1 ps2 : List Photo) : Prop :=
  ∃ h0 h1 h2 m e1 e2, Heap.New = some h0 ∧
    pushAll h0 ps1 = some h1 ∧ pushAll h0 ps2 = some h2 ∧
    Group h1 = some (m, e1) ∧ Group h2 = some (m, e2)

/-! # Theorems -/

/-! ## The slice operations -/

theorem swap_some (d : PhotoHeap) (i j : Nat) (hi : i < d.length) (hj : j < d.length) :
    PhotoHeap.Swap d i j = some ((d.set i (d.getD j Photo.zero)).set j (d.getD i Photo.zero)) := by
  simp [PhotoHeap.Swap, List.getElem?_eq_getElem hi, List.getElem?_eq_getElem hj,
    List.getD_eq_getElem?_getD]

theorem getD_swap (d : PhotoHeap) (i j k : Nat) (hi : i < d.length) (hj : j < d.length) :
    ((d.set i (d.getD j Photo.zero)).set j (d.getD i Photo.zero)).getD k Photo.zero
      = if k = j then d.getD i Photo.zero else if k = i then d.getD j Photo.zero
        else d.getD k Photo.zero := by
  simp only [List.getD_eq_getElem?_getD, List.getElem?_set, List.length_set]
  by_cases h1 : j = k
  · subst h1; simp [hj]
  · have h1' : ¬ k = j := fun h => h1 h.symm
    by_cases h2 : i = k
    · subst h2; simp [h1, h1', hi]
    · have h2' : ¬ k = i := fun h => h2 h.symm
      simp [h1, h2, h1', h2']

theorem perm_swap (d : PhotoHeap) (i j : Nat) (hi : i < d.length) (hj : j < d.length) :
    ((d.set i (d.getD j Photo.zero)).set j (d.getD i Photo.zero)).Perm d := by
  rw [List.perm_iff_count]
  intro a
  have hj' : j < (d.set i (d.getD j Photo.zero)).length := by simpa using hj
  rw [List.count_set _ _ _ _ hj', List.count_set _ _ _ _ hi]
  simp only [List.getElem_set, List.getD_eq_getElem?_getD, List.getElem?_eq_getElem hi,
    List.getElem?_eq_getElem hj, Option.getD_some]
  have c1 := List.count_pos_iff.mpr (List.getElem_mem hi)
  have c2 := List.count_pos_iff.mpr (List.getElem_mem hj)
  by_cases hij : i = j
  · subst hij
    simp only [if_true, beq_iff_eq]
    split_ifs with h <;> [(subst h; omega); omega]
  · simp only [hij, if_false, beq_iff_eq]
    by_cases h1 : d[i] = a <;> by_cases h2 : d[j] = a <;> simp [h1, h2] <;>
      first | omega | (subst h1; omega)

theorem swap_eq (d : PhotoHeap) (i j : Nat) (hi : i < d.length) (hj : j < d.length) :
    PhotoHeap.Swap d i j = some (swp d i j) := swap_some d i j hi hj

theorem length_swp (d : PhotoHeap) (i j : Nat) : (swp d i j).length = d.length := by
  simp [swp]

theorem keyAt_swp (d : PhotoHeap) (i j k : Nat) (hi : i < d.length) (hj : j < d.length) :
    keyAt (swp d i j) k = if k = j then keyAt d i else if k = i then keyAt d j else keyAt d k := by
  unfold keyAt swp
  rw [getD_swap d i j k hi hj]
  split_ifs <;> rfl

theorem less_eq (d : PhotoHeap) (i j : Nat) (hi : i < d.length) (hj : j < d.length) :
    PhotoHeap.Less d i j = some (decide (keyAt d i < keyAt d j)) := by
  simp [PhotoHeap.Less, keyAt, List.getElem?_eq_getElem hi, List.getElem?_eq_getElem hj,
    List.getD_eq_getElem?_getD]

theorem upInv_swp (d : PhotoHeap) (j : Nat) (hj : j < d.length) (hne : (j - 1) / 2 ≠ j)
    (hlt : keyAt d j < keyAt d ((j - 1) / 2)) (inv : upInv d j) :
    upInv (swp d ((j - 1) / 2) j) ((j - 1) / 2) := by
  obtain ⟨a, b⟩ := inv
  generalize hi : (j - 1) / 2 = i at *
  have hij : i < j := by omega
  have hil : i < d.length := by omega
  refine ⟨?_, ?_⟩
  · intro k hk0 hkl hki
    rw [length_swp] at hkl
    rw [keyAt_swp d i j _ hil hj, keyAt_swp d i j _ hil hj]
    by_cases hkj : k = j
    · subst hkj
      have : ¬ ((k - 1) / 2 = k) := by omega
      simp only [hi, if_true, this, if_false]
      omega
    · have hp1 : ¬ ((k - 1) / 2 = j) ∨ (k - 1) / 2 = j := by omega
      simp only [hkj, hki, if_false]
      have ak := a k hk0 hkl hkj
      by_cases hpj : (k - 1) / 2 = j
      · have bk := b k hk0 hkl hpj (by omega)
        simp only [hpj, if_true]; exact bk
      · by_cases hpi : (k - 1) / 2 = i
        · rw [hpi] at ak
          simp only [hpj, hpi, if_true, if_false]; omega
        · simp only [hpj, hpi, if_false]; exact ak
  · intro k hk0 hkl hpk hi0
    rw [length_swp] at hkl
    rw [keyAt_swp d i j _ hil hj, keyAt_swp d i j _ hil hj]
    have ai := a i hi0 hil (by omega)
    have h1 : ¬ ((i - 1) / 2 = j) := by omega
    have h2 : ¬ ((i - 1) / 2 = i) := by omega
    have hki : ¬ (k = i) := by omega
    simp only [h1, h2, hki, if_false]
    by_cases hkj : k = j
    · simp only [hkj, if_true]; exact ai
    · have ak := a k hk0 hkl hkj
      rw [hpk] at ak
      simp only [hkj, if_false]; omega

theorem upLoop_spec (fuel : Nat) : ∀ (d : PhotoHeap) (j : Nat), j < fuel → j < d.length →
    upInv d j →
    ∃ d1, ContainerHeap.upLoop fuel d j = some d1 ∧ d1.Perm d ∧ heapOrdered d1 := by
  induction fuel with
  | zero => intro d j h; omega
  | succ fuel ih =>
    intro d j hf hj inv
    unfold ContainerHeap.upLoop
    by_cases hij : (j - 1) / 2 = j
    · simp only [hij, if_true]
      refine ⟨d, rfl, List.Perm.refl _, ?_⟩
      intro k hk0 hkl
      exact inv.1 k hk0 hkl (by omega)
    · have hil : (j - 1) / 2 < d.length := by omega
      simp only [hij, if_false, less_eq d j _ hj hil]
      by_cases hlt : keyAt d j < keyAt d ((j - 1) / 2)
      · simp only [hlt, decide_True, swap_eq d _ j hil hj]
        obtain ⟨d1, e, p, o⟩ := ih (swp d ((j - 1) / 2) j) ((j - 1) / 2) (by omega)
          (by rw [length_swp]; exact hil) (upInv_swp d j hj hij hlt inv)
        exact ⟨d1, e, p.trans (perm_swap d _ j hil hj), o⟩
      · simp only [hlt, decide_False]
        refine ⟨d, rfl, List.Perm.refl _, ?_⟩
        intro k hk0 hkl
        by_cases hkj : k = j
        · subst hkj; omega
        · exact inv.1 k hk0 hkl hkj

theorem getD_swp_of_ge (d : PhotoHeap) (i j n k : Nat) (hi : i < d.length) (hj : j < d.length)
    (hin : i < n) (hjn : j < n) (hk : n ≤ k) :
    (swp d i j).getD k Photo.zero = d.getD k Photo.zero := by
  unfold swp
  rw [getD_swap d i j k hi hj]
  have h1 : ¬ k = j := by omega
  have h2 : ¬ k = i := by omega
  simp [h1, h2]

theorem downInv_swp (d : PhotoHeap) (i j n : Nat) (hn : n ≤ d.length) (hjn : j < n)
    (hch : j = 2 * i + 1 ∨ j = 2 * i + 1 + 1)
    (hmin : ∀ k, k < n → (k = 2 * i + 1 ∨ k = 2 * i + 1 + 1) → keyAt d j ≤ keyAt d k)
    (hlt : keyAt d j < keyAt d i) (inv : downInv d i n) :
    downInv (swp d i j) j n := by
  obtain ⟨a, b⟩ := inv
  have hil : i < d.length := by omega
  have hjl : j < d.length := by omega
  refine ⟨?_, ?_⟩
  · intro k hk0 hkn hpk
    rw [keyAt_swp d i j _ hil hjl, keyAt_swp d i j _ hil hjl]
    by_cases hkj : k = j
    · have e : (k - 1) / 2 = i := by omega
      have h1 : ¬ (i = j) := by omega
      simp only [hkj, e, h1, if_true, if_false]
      omega
    · by_cases hki : k = i
      · have bj := b j (by omega) hjn (by omega) (by omega)
        have h1 : ¬ ((k - 1) / 2 = j) := by omega
        have h2 : ¬ ((k - 1) / 2 = i) := by omega
        subst hki
        simp only [hkj, h1, h2, if_true, if_false]
        exact bj
      · simp only [hkj, hki, hpk, if_false]
        by_cases hpi : (k - 1) / 2 = i
        · simp only [hpi, if_true]
          exact hmin k hkn (by omega)
        · simp only [hpi, if_false]
          exact a k hk0 hkn hpi
  · intro k hk0 hkn hpk _
    rw [keyAt_swp d i j _ hil hjl, keyAt_swp d i j _ hil hjl]
    have e : (j - 1) / 2 = i := by omega
    have h1 : ¬ (i = j) := by omega
    have h2 : ¬ (k = j) := by omega
    have h3 : ¬ (k = i) := by omega
    have ak := a k hk0 hkn (by omega)
    rw [hpk] at ak
    simp only [e, h1, h2, h3, if_true, if_false]
    exact ak

theorem downLoop_spec (fuel : Nat) : ∀ (d : PhotoHeap) (i n : Nat), n ≤ d.length →
    n - i < fuel → downInv d i n →
    ∃ d1 i1, ContainerHeap.downLoop fuel d i n = some (d1, i1) ∧ d1.Perm d ∧
      orderedBelow d1 n ∧ ∀ k, n ≤ k → d1.getD k Photo.zero = d.getD k Photo.zero := by
  induction fuel with
  | zero => intro d i n _ h; omega
  | succ fuel ih =>
    intro d i n hn hf inv
    unfold ContainerHeap.downLoop
    by_cases hj1 : 2 * i + 1 ≥ n
    · simp only [hj1, if_true]
      refine ⟨d, i, rfl, List.Perm.refl _, ?_, fun _ _ => rfl⟩
      intro k hk0 hkn
      exact inv.1 k hk0 hkn (by omega)
    · simp only [hj1, if_false]
      have hj1l : 2 * i + 1 < d.length := by omega
      have hil : i < d.length := by omega
      -- the smaller child
      have hc : ∃ j, j < n ∧ (j = 2 * i + 1 ∨ j = 2 * i + 1 + 1) ∧
          (∀ k, k < n → (k = 2 * i + 1 ∨ k = 2 * i + 1 + 1) → keyAt d j ≤ keyAt d k) ∧
          ∃ c, (if 2 * i + 1 + 1 < n then PhotoHeap.Less d (2 * i + 1 + 1) (2 * i + 1)
              else some false) = some c ∧ (if c = true then 2 * i + 1 + 1 else 2 * i + 1) = j := by
        by_cases hj2 : 2 * i + 1 + 1 < n
        · simp only [hj2, if_true, less_eq d _ _ (by omega : 2 * i + 1 + 1 < d.length) hj1l]
          by_cases hl : keyAt d (2 * i + 1 + 1) < keyAt d (2 * i + 1)
          · refine ⟨2 * i + 1 + 1, hj2, Or.inr rfl, ?_, true, by simp [hl], by simp⟩
            intro k _ hk
            rcases hk with hk | hk <;> subst hk <;> omega
          · refine ⟨2 * i + 1, by omega, Or.inl rfl, ?_, false, by simp [hl], by simp⟩
            intro k _ hk
            rcases hk with hk | hk <;> subst hk <;> omega
        · simp only [hj2, if_false]
          refine ⟨2 * i + 1, by omega, Or.inl rfl, ?_, false, rfl, by simp⟩
          intro k hkn hk
          rcases hk with hk | hk
          · subst hk; omega
          · omega
      obtain ⟨j, hjn, hch, hmin, c, hce, hcj⟩ := hc
      have hjl : j < d.length := by omega
      simp only [hce, hcj, less_eq d j i hjl hil]
      by_cases hlt : keyAt d j < keyAt d i
      · simp only [hlt, decide_True, swap_eq d i j hil hjl]
        obtain ⟨d1, i1, e, p, o, u⟩ := ih (swp d i j) j n (by rw [length_swp]; exact hn)
          (by omega) (downInv_swp d i j n hn hjn hch hmin hlt inv)
        refine ⟨d1, i1, e, p.trans (perm_swap d i j hil hjl), o, ?_⟩
        intro k hk
        rw [u k hk, getD_swp_of_ge d i j n k hil hjl (by omega) hjn hk]
      · simp only [hlt, decide_False]
        refine ⟨d, i, rfl, List.Perm.refl _, ?_, fun _ _ => rfl⟩
        intro k hk0 hkn
        by_cases hpi : (k - 1) / 2 = i
        · have := hmin k hkn (by omega)
          rw [hpi]; omega
        · exact inv.1 k hk0 hkn hpi

theorem keyAt_append_left (d : PhotoHeap) (x : Photo) (k : Nat) (hk : k < d.length) :
    keyAt (d ++ [x]) k = keyAt d k := by
  unfold keyAt
  rw [List.getD_append _ _ _ _ hk]

theorem keyAt_take (d : PhotoHeap) (n k : Nat) (hk : k < n) :
    keyAt (d.take n) k = keyAt d k := by
  unfold keyAt
  simp [List.getD_eq_getElem?_getD, List.getElem?_take, hk]

theorem keyAt_of_mem (d : PhotoHeap) (y : Photo) (hy : y ∈ d) :
    ∃ k, k < d.length ∧ keyAt d k = y.Timestamp.Unix := by
  obtain ⟨k, hk, e⟩ := List.getElem_of_mem hy
  refine ⟨k, hk, ?_⟩
  simp [keyAt, List.getD_eq_getElem?_getD, List.getElem?_eq_getElem hk, e]

theorem root_min (d : PhotoHeap) (o : heapOrdered d) :
    ∀ k, k < d.length → keyAt d 0 ≤ keyAt d k := by
  intro k
  induction k using Nat.strong_induction_on with
  | _ k ih =>
    intro hk
    by_cases h0 : k = 0
    · subst h0; exact le_refl _
    · have h1 := o k (by omega) hk
      have h2 := ih ((k - 1) / 2) (by omega) (by omega)
      omega

theorem heapOrdered_nil : heapOrdered [] := by
  intro k _ hk
  simp at hk

theorem containerPush_spec (d : PhotoHeap) (x : Photo) (o : heapOrdered d) :
    ∃ d1, ContainerHeap.Push d x = some d1 ∧ d1.Perm (x :: d) ∧ heapOrdered d1 := by
  have hlen : (d ++ [x]).length - 1 = d.length := by simp
  simp only [ContainerHeap.Push, ContainerHeap.up, PhotoHeap.Push, PhotoHeap.Len, hlen]
  have inv : upInv (d ++ [x]) d.length := by
    refine ⟨?_, ?_⟩
    · intro k hk0 hkl hkj
      have hkl' : k < d.length := by simp at hkl; omega
      rw [keyAt_append_left d x _ (by omega), keyAt_append_left d x _ hkl']
      exact o k hk0 hkl'
    · intro k hk0 hkl hpk _
      simp at hkl; omega
  obtain ⟨d1, e, p, o1⟩ := upLoop_spec (d.length + 1) (d ++ [x]) d.length (by omega)
    (by simp) inv
  exact ⟨d1, e, p.trans (List.perm_append_singleton x d), o1⟩

theorem containerPop_spec (d : PhotoHeap) (hne : d ≠ []) (o : heapOrdered d) :
    ∃ r d1, ContainerHeap.Pop d = some (r, d1) ∧ d.Perm (r :: d1) ∧ heapOrdered d1 ∧
      r = d.getD 0 Photo.zero ∧ ∀ y ∈ d, r.Timestamp.Unix ≤ y.Timestamp.Unix := by
  have hpos : 0 < d.length := List.length_pos.mpr hne
  unfold ContainerHeap.Pop ContainerHeap.down PhotoHeap.Len
  generalize hn : d.length - 1 = n
  have hnl : n < d.length := by omega
  simp only [swap_eq d 0 n hpos hnl]
  have inv : downInv (swp d 0 n) 0 n := by
    refine ⟨?_, ?_⟩
    · intro k hk0 hkn hpk
      rw [keyAt_swp d 0 n _ hpos hnl, keyAt_swp d 0 n _ hpos hnl]
      have h1 : ¬ (k = n) := by omega
      have h2 : ¬ (k = 0) := by omega
      have h3 : ¬ ((k - 1) / 2 = n) := by omega
      simp only [h1, h2, h3, hpk, if_false]
      exact o k hk0 (by omega)
    · intro k _ _ _ h; omega
  obtain ⟨d2, i1, e, p, o2, u⟩ := downLoop_spec (n + 1) (swp d 0 n) 0 n
    (by rw [length_swp]; omega) (by omega) inv
  have hl2 : d2.length = n + 1 := by rw [p.length_eq, length_swp]; omega
  have hlast : d2.getD n Photo.zero = d.getD 0 Photo.zero := by
    rw [u n (le_refl _)]
    unfold swp
    rw [getD_swap d 0 n n hpos hnl]
    simp
  have hget : d2[n]? = some (d.getD 0 Photo.zero) := by
    rw [← hlast, List.getD_eq_getElem?_getD, List.getElem?_eq_getElem (by omega)]
    simp
  simp only [e, PhotoHeap.Pop, hl2, Nat.add_sub_cancel, hget]
  refine ⟨d.getD 0 Photo.zero, d2.take n, by simp, ?_, ?_, rfl, ?_⟩
  · have hd2 : d2 = d2.take n ++ [d.getD 0 Photo.zero] := by
      conv_lhs => rw [← List.take_append_drop n d2]
      congr 1
      rw [List.drop_eq_getElem_cons (by omega : n < d2.length), List.drop_of_length_le (by omega)]
      rw [List.getElem?_eq_getElem (by omega : n < d2.length)] at hget
      simpa using hget
    have p2 : d.Perm d2 := (p.trans (perm_swap d 0 n hpos hnl)).symm
    refine p2.trans ?_
    conv_lhs => rw [hd2]
    exact List.perm_append_singleton _ _
  · intro k hk0 hkl
    have hkn : k < n := by
      simp only [List.length_take] at hkl; omega
    rw [keyAt_take d2 n _ (by omega), keyAt_take d2 n _ hkn]
    exact o2 k hk0 hkn
  · intro y hy
    obtain ⟨k, hk, ek⟩ := keyAt_of_mem d y hy
    have := root_min d o k hk
    rw [← ek]
    exact this

/-! ## `Heap.Push` and `Heap.Pop` on heap-ordered slices -/

theorem new_eq : Heap.New = some ⟨[]⟩ := rfl

theorem heapPush_spec (h : Heap) (x : Photo) (o : heapOrdered h.photoHeap) :
    ∃ h1, Heap.Push h x = some h1 ∧ h1.photoHeap.Perm (x :: h.photoHeap) ∧
      heapOrdered h1.photoHeap := by
  obtain ⟨d1, e, p, o1⟩ := containerPush_spec h.photoHeap x o
  exact ⟨⟨d1⟩, by simp [Heap.Push, e], p, o1⟩

theorem heapPop_spec (h : Heap) (hne : h.photoHeap ≠ []) (o : heapOrdered h.photoHeap) :
    ∃ r h1, Heap.Pop h = some ((r, none), h1) ∧ h.photoHeap.Perm (r :: h1.photoHeap) ∧
      heapOrdered h1.photoHeap ∧ ∀ y ∈ h.photoHeap, r.Timestamp.Unix ≤ y.Timestamp.Unix := by
  obtain ⟨r, d1, e, p, o1, _, m⟩ := containerPop_spec h.photoHeap hne o
  have hl : ¬ (PhotoHeap.Len h.photoHeap = 0) := by
    simpa [PhotoHeap.Len] using hne
  exact ⟨r, ⟨d1⟩, by simp [Heap.Pop, hl, e], p, o1, m⟩

theorem heapPop_empty (h : Heap) (he : h.photoHeap = []) :
    Heap.Pop h = some ((Photo.zero, some HeapError.ErrEmptyHeap), h) := by
  simp [Heap.Pop, PhotoHeap.Len, he]

theorem runOp_spec (h : Heap) (op : Op) (o : heapOrdered h.photoHeap) :
    ∃ h1, runOp h op = some h1 ∧ heapOrdered h1.photoHeap := by
  cases op with
  | push p =>
    obtain ⟨h1, e, _, o1⟩ := heapPush_spec h p o
    exact ⟨h1, e, o1⟩
  | pop =>
    by_cases he : h.photoHeap = []
    · exact ⟨h, by simp [runOp, heapPop_empty h he], o⟩
    · obtain ⟨r, h1, e, _, o1, _⟩ := heapPop_spec h he o
      exact ⟨h1, by simp [runOp, e], o1⟩

theorem runOps_spec (ops : List Op) : ∀ (h : Heap), heapOrdered h.photoHeap →
    ∃ h1, runOps h ops = some h1 ∧ heapOrdered h1.photoHeap := by
  induction ops with
  | nil => intro h o; exact ⟨h, rfl, o⟩
  | cons op ops ih =>
    intro h o
    obtain ⟨h1, e, o1⟩ := runOp_spec h op o
    obtain ⟨h2, e2, o2⟩ := ih h1 o1
    exact ⟨h2, by simp [runOps, e, e2], o2⟩

theorem reachable_ordered (h : Heap) (hr : Reachable h) : heapOrdered h.photoHeap := by
  obtain ⟨h0, ops, e0, e⟩ := hr
  rw [new_eq] at e0
  cases e0
  obtain ⟨h1, e1, o1⟩ := runOps_spec ops ⟨[]⟩ heapOrdered_nil
  rw [e1] at e
  cases e
  exact o1

theorem pushAll_spec (ps : List Photo) : ∀ (h : Heap), heapOrdered h.photoHeap →
    ∃ h1, pushAll h ps = some h1 ∧ heapOrdered h1.photoHeap ∧
      h1.photoHeap.Perm (ps ++ h.photoHeap) := by
  induction ps with
  | nil => intro h o; exact ⟨h, rfl, o, List.Perm.refl _⟩
  | cons p ps ih =>
    intro h o
    obtain ⟨h1, e, p1, o1⟩ := heapPush_spec h p o
    obtain ⟨h2, e2, o2, p2⟩ := ih h1 o1
    refine ⟨h2, by simp [pushAll, e, e2], o2, p2.trans ?_⟩
    refine (List.Perm.append_left ps p1).trans ?_
    simp

theorem drain_spec (n : Nat) : ∀ (h : Heap), heapOrdered h.photoHeap →
    h.photoHeap.length = n →
    ∃ outs : List Photo, popN n h = some (outs.map (fun r => (r, none)), ⟨[]⟩) ∧
      outs.Perm h.photoHeap ∧
      outs.Pairwise (fun a b => a.Timestamp.Unix ≤ b.Timestamp.Unix) := by
  induction n with
  | zero =>
    intro h _ hl
    have he : h.photoHeap = [] := List.length_eq_zero.mp hl
    cases h
    simp only at he
    subst he
    exact ⟨[], rfl, List.Perm.refl _, List.Pairwise.nil⟩
  | succ n ih =>
    intro h o hl
    have hne : h.photoHeap ≠ [] := by
      intro he; rw [he] at hl; simp at hl
    obtain ⟨r, h1, e, p, o1, m⟩ := heapPop_spec h hne o
    have hl1 : h1.photoHeap.length = n := by
      have := p.length_eq
      simp only [List.length_cons] at this
      omega
    obtain ⟨outs, e1, p1, s1⟩ := ih h1 o1 hl1
    refine ⟨r :: outs, by simp [popN, e, e1], (List.Perm.cons r p1).trans p.symm, ?_⟩
    refine List.Pairwise.cons ?_ s1
    intro y hy
    exact m y (p.symm.subset (List.mem_cons_of_mem r (p1.subset hy)))

/-! ## `time` -/

theorem sub_self_eq (t : Time) : t.Sub t = 0 := by
  simp [Time.Sub, maxDuration, minDuration]

theorem zero_le_oneDay : (0 : Duration) ≤ oneDay := by decide

theorem sub_le_oneDay_iff (t u : Time) : t.Sub u ≤ oneDay ↔ t.nanos - u.nanos ≤ oneDay := by
  unfold Time.Sub Time.nanos oneDay Hour maxDuration minDuration
  dsimp only [Duration]
  split_ifs <;> constructor <;> intro h <;> omega

/-! ## The loops of `Group` -/

theorem visitStep_idem (ts : Time) (q : String) (o : Option Location) :
    visitStep ts q (visitStep ts q o) = visitStep ts q o := by
  cases o with
  | none => simp [visitStep, sub_self_eq, zero_le_oneDay]
  | some v =>
    by_cases hc : ts.Sub v.endTime ≤ oneDay
    · simp [visitStep, hc, sub_self_eq, zero_le_oneDay]
    · simp [visitStep, hc]

theorem groupKey_apply (photo : Photo) (locations : Locations) (k q : String) :
    groupKey photo locations k q
      = if q = k then visitStep photo.Timestamp q (locations q) else locations q := by
  unfold groupKey
  by_cases hq : q = k
  · subst hq
    cases hl : locations q with
    | none => simp [visitStep]
    | some v =>
      by_cases hc : photo.Timestamp.Sub v.endTime ≤ oneDay
      · simp [visitStep, hc]
      · simp [visitStep, hc, hl]
  · cases hl : locations k with
    | none => simp [hq, Function.update_noteq hq]
    | some v =>
      by_cases hc : photo.Timestamp.Sub v.endTime ≤ oneDay
      · simp [hq, hc, Function.update_noteq hq]
      · simp [hq, hc]

theorem foldl_groupKey_apply (photo : Photo) (q : String) (ks : List String) :
    ∀ locations : Locations, ks.foldl (groupKey photo) locations q
      = if q ∈ ks then visitStep photo.Timestamp q (locations q) else locations q := by
  induction ks with
  | nil => intro locations; simp
  | cons k ks ih =>
    intro locations
    rw [List.foldl_cons, ih, groupKey_apply]
    by_cases hq : q = k
    · subst hq
      by_cases hm : q ∈ ks
      · simp [hm, visitStep_idem]
      · simp [hm]
    · have hk : ¬ (k = q) := fun e => hq e.symm
      by_cases hm : q ∈ ks
      · simp [hm, hq]
      · simp [hm, hq]

theorem groupPhoto_apply (photo : Photo) (locations : Locations) (q : String) :
    groupPhoto photo locations q
      = if q ∈ photo.Addresses then visitStep photo.Timestamp q (locations q)
        else locations q :=
  foldl_groupKey_apply photo q photo.Addresses locations

theorem groupPhotos_apply (q : String) (outs : List Photo) :
    ∀ locations : Locations, groupPhotos outs locations q
      = ((outs.filter (fun r => decide (q ∈ r.Addresses))).map (fun r => r.Timestamp)).foldl
          (fun o t => visitStep t q o) (locations q) := by
  induction outs with
  | nil => intro locations; rfl
  | cons r outs ih =>
    intro locations
    unfold groupPhotos at ih ⊢
    rw [List.foldl_cons, ih, groupPhoto_apply]
    by_cases hm : q ∈ r.Addresses
    · simp [hm]
    · simp [hm]

theorem foldl_visitStep_some (q : String) (ts : List Time) :
    ∀ v : Location, ts.foldl (fun o t => visitStep t q o) (some v)
      = some ⟨v.startTime, extendEnd v.endTime ts, v.location⟩ := by
  induction ts with
  | nil => intro v; rfl
  | cons t ts ih =>
    intro v
    rw [List.foldl_cons]
    by_cases hc : t.Sub v.endTime ≤ oneDay
    · have e : visitStep t q (some v) = some ⟨v.startTime, t, v.location⟩ := by
        simp [visitStep, hc]
      rw [e, ih]
      simp only [extendEnd, List.foldl_cons, hc, if_true]
    · have e : visitStep t q (some v) = some v := by
        simp [visitStep, hc]
      rw [e, ih]
      simp only [extendEnd, List.foldl_cons, hc, if_false]

theorem foldl_visitStep_none (q : String) (t : Time) (ts : List Time) :
    (t :: ts).foldl (fun o t => visitStep t q o) none = some ⟨t, extendEnd t ts, q⟩ := by
  rw [List.foldl_cons]
  have e : visitStep t q none = some ⟨t, t, q⟩ := rfl
  rw [e, foldl_visitStep_some]

theorem groupLoop_of_popN (n : Nat) : ∀ (h : Heap) (locations : Locations) (outs : List Photo),
    popN n h = some (outs.map (fun r => (r, none)), ⟨[]⟩) →
    GroupLoop (n + 1) h locations = some (groupPhotos outs locations, ⟨[]⟩) := by
  induction n with
  | zero =>
    intro h locations outs e
    simp only [popN, Option.some.injEq, Prod.mk.injEq] at e
    obtain ⟨e1, e2⟩ := e
    have : outs = [] := by
      cases outs with
      | nil => rfl
      | cons a l => simp at e1
    subst this
    subst e2
    rfl
  | succ n ih =>
    intro h locations outs e
    unfold popN at e
    cases hp : Heap.Pop h with
    | none => simp [hp] at e
    | some x =>
      obtain ⟨⟨r, err⟩, h1⟩ := x
      simp only [hp] at e
      cases hq : popN n h1 with
      | none => simp [hq] at e
      | some y =>
        obtain ⟨rs, h2⟩ := y
        simp only [hq, Option.some.injEq, Prod.mk.injEq] at e
        obtain ⟨e1, e2⟩ := e
        cases outs with
        | nil => simp at e1
        | cons a l =>
          simp only [List.map_cons, List.cons.injEq, Prod.mk.injEq] at e1
          obtain ⟨⟨ea, eerr⟩, el⟩ := e1
          subst ea eerr el e2
          have := ih h1 (groupPhoto r locations) l hq
          unfold GroupLoop
          simp only [hp]
          rw [this]
          rfl

theorem group_spec (h : Heap) (o : heapOrdered h.photoHeap) :
    ∃ outs : List Photo,
      popN h.photoHeap.length h = some (outs.map (fun r => (r, none)), ⟨[]⟩) ∧
      Group h = some (groupPhotos outs noLocations, ⟨[]⟩) ∧
      outs.Perm h.photoHeap ∧
      outs.Pairwise (fun a b => a.Timestamp.Unix ≤ b.Timestamp.Unix) := by
  obtain ⟨outs, e, p, s⟩ := drain_spec h.photoHeap.length h o rfl
  exact ⟨outs, e, groupLoop_of_popN _ h _ outs e, p, s⟩

/-! ## Claims about the ordered aggregate -/

/-- The ordering the heap does give, in the key `Less` compares: for every list of
photos pushed in any order onto a new heap, the
pushes succeed, the next N calls of `Pop` succeed and return records whose whole-second
Unix times `Timestamp.Unix()` (the key `Less` compares) never decrease, and the
(N+1)-th `Pop` returns the zero photo with `ErrEmptyHeap`. -/
theorem heap_ordering_unix (ps : List Photo) : HeapOrdering Time.Unix ps := by
  obtain ⟨h, e, o, p⟩ := pushAll_spec ps ⟨[]⟩ heapOrdered_nil
  have hl : h.photoHeap.length = ps.length := by
    simpa using p.length_eq
  obtain ⟨outs, e1, _, s1⟩ := drain_spec ps.length h o hl
  refine ⟨⟨[]⟩, h, outs.map (fun r => (r, none)), ⟨[]⟩, new_eq, e, e1, ?_, ?_,
    heapPop_empty _ rfl⟩
  · intro x hx
    obtain ⟨r, _, rfl⟩ := List.mem_map.mp hx
    rfl
  · rw [List.pairwise_map]
    exact s1

/-- C1 (the code at the failing input): the 10:10:10.9 photo and then the 10:10:10.1
photo are pushed onto a new heap.  `Less` compares `Timestamp.Unix()`, which is the same
for both, so the slice stays [10.9, 10.1]; the next two calls of `Pop` succeed and
return the 10.9 photo first and the 10.1 photo second, a decreasing pair of timestamps:
the heap ordering of the claim does not hold for these pushes. -/
theorem heap_ordering_full_precision_fails :
    pushAll ⟨[]⟩ [photoLate, photoEarly] = some ⟨[photoLate, photoEarly]⟩ ∧
    popN 2 ⟨[photoLate, photoEarly]⟩
      = some ([(photoLate, none), (photoEarly, none)], ⟨[]⟩) ∧
    photoEarly.Timestamp.nanos < photoLate.Timestamp.nanos ∧
    ¬ HeapOrdering Time.nanos [photoLate, photoEarly] := by
  refine ⟨by decide, by decide, by decide, ?_⟩
  rintro ⟨h0, h, outs, hN, e0, e1, e2, _, s, _⟩
  rw [new_eq] at e0
  cases e0
  have c1 : pushAll ⟨[]⟩ [photoLate, photoEarly] = some ⟨[photoLate, photoEarly]⟩ := by decide
  rw [c1] at e1
  cases e1
  have c2 : popN 2 ⟨[photoLate, photoEarly]⟩
      = some ([(photoLate, none), (photoEarly, none)], ⟨[]⟩) := by decide
  simp only [List.length_cons, List.length_nil] at e2
  rw [c2] at e2
  cases e2
  simp [Time.nanos, photoLate, photoEarly] at s

/-- What `Pop` does guarantee, in the key `Less` compares: for every non-empty heap reachable from `New()` by any interleaving of
`Push` and `Pop`, `Pop` succeeds and returns a record whose whole-second Unix time
`Timestamp.Unix()` is less than or equal to that of every record in the heap. -/
theorem extract_min_unix (h : Heap) (hr : Reachable h) (hne : h.photoHeap ≠ []) :
    PopReturnsMin Time.Unix h := by
  obtain ⟨r, h1, e, _, _, m⟩ := heapPop_spec h hne (reachable_ordered h hr)
  exact ⟨r, h1, e, m⟩

/-- An instance of `extract_min_unix`: the heap left by pushing two photos, popping once
and pushing a third. -/
theorem extract_min_unix_witness :
    Reachable ⟨[photoEarly, photoLate]⟩ ∧
      (Heap.mk [photoEarly, photoLate]).photoHeap ≠ [] ∧
      PopReturnsMin Time.Unix ⟨[photoEarly, photoLate]⟩ :=
  have hr : Reachable ⟨[photoEarly, photoLate]⟩ :=
    ⟨⟨[]⟩, [Op.push Photo.zero, Op.push photoEarly, Op.pop, Op.push photoLate], rfl,
      by decide⟩
  ⟨hr, by simp, extract_min_unix _ hr (by simp)⟩

/-- C2 (the code at the failing input): the heap holding the 10:10:10.9 photo above the
10:10:10.1 photo is reachable (push the 10.9 photo, then the 10.1 photo) and non-empty,
and `Pop` returns the 10.9 photo and leaves the 10.1 photo, although the heap contains a
record with a smaller timestamp: `Pop` does not return a minimum of the heap. -/
theorem extract_min_full_precision_fails :
    Reachable ⟨[photoLate, photoEarly]⟩ ∧
      (Heap.mk [photoLate, photoEarly]).photoHeap ≠ [] ∧
      Heap.Pop ⟨[photoLate, photoEarly]⟩ = some ((photoLate, none), ⟨[photoEarly]⟩) ∧
      photoEarly.Timestamp.nanos < photoLate.Timestamp.nanos ∧
      ¬ PopReturnsMin Time.nanos ⟨[photoLate, photoEarly]⟩ := by
  refine ⟨⟨⟨[]⟩, [Op.push photoLate, Op.push photoEarly], rfl, by decide⟩, by simp,
    by decide, by decide, ?_⟩
  rintro ⟨r, h1, e, m⟩
  have c : Heap.Pop ⟨[photoLate, photoEarly]⟩ = some ((photoLate, none), ⟨[photoEarly]⟩) := by
    decide
  rw [c] at e
  cases e
  have := m photoEarly (by simp)
  simp [Time.nanos, photoLate, photoEarly] at this

/-- C3: `Pop` on the empty heap does not panic: it returns the zero `Photo` together
with `ErrEmptyHeap` and leaves the heap empty; for every heap, `Pop` returns
`ErrEmptyHeap` if and only if the heap contains no records; and after any sequence of
`Push` and `Pop` calls on a new heap, `Pop` returns (it does not panic), with
`ErrEmptyHeap` exactly when the heap is empty. -/
theorem pop_empty_heap :
    Heap.Pop ⟨[]⟩ = some ((Photo.zero, some HeapError.ErrEmptyHeap), ⟨[]⟩) ∧
    (∀ h : Heap, (∃ r h1, Heap.Pop h = some ((r, some HeapError.ErrEmptyHeap), h1)) ↔
        h.photoHeap = []) ∧
    ∀ ops : List Op, ∃ h r err h1, runOps ⟨[]⟩ ops = some h ∧
      Heap.Pop h = some ((r, err), h1) ∧
      (err = some HeapError.ErrEmptyHeap ↔ h.photoHeap = []) := by
  refine ⟨rfl, fun h => ⟨?_, fun he => ⟨Photo.zero, h, heapPop_empty h he⟩⟩, ?_⟩
  · rintro ⟨r, h1, e⟩
    by_contra hne
    have hl : ¬ (PhotoHeap.Len h.photoHeap = 0) := by
      simpa [PhotoHeap.Len] using hne
    simp only [Heap.Pop, hl, if_false] at e
    cases hc : ContainerHeap.Pop h.photoHeap with
    | none => simp [hc] at e
    | some x => simp [hc] at e
  · intro ops
    obtain ⟨h, e, o⟩ := runOps_spec ops ⟨[]⟩ heapOrdered_nil
    by_cases he : h.photoHeap = []
    · exact ⟨h, Photo.zero, some HeapError.ErrEmptyHeap, h, e, heapPop_empty h he, by simp [he]⟩
    · obtain ⟨r, h1, ep, _⟩ := heapPop_spec h he o
      exact ⟨h, r, none, h1, e, ep, by simp [he]⟩

/-- C4: for every reachable heap and every record `r`, `Push r` does not fail and makes
the multiset of records the old multiset plus one copy of `r`; and `Pop` on a non-empty
heap succeeds, returns a record `v` of the heap and leaves the old multiset minus one
copy of `v`. -/
theorem push_pop_multiset (h : Heap) (r : Photo) (hr : Reachable h) :
    (∃ h1, Heap.Push h r = some h1 ∧
      (h1.photoHeap : Multiset Photo) = r ::ₘ (h.photoHeap : Multiset Photo)) ∧
    (h.photoHeap ≠ [] → ∃ v h1, Heap.Pop h = some ((v, none), h1) ∧ v ∈ h.photoHeap ∧
      (h1.photoHeap : Multiset Photo) = (h.photoHeap : Multiset Photo).erase v) := by
  have o := reachable_ordered h hr
  refine ⟨?_, fun hne => ?_⟩
  · obtain ⟨h1, e, p, _⟩ := heapPush_spec h r o
    exact ⟨h1, e, by rw [Multiset.cons_coe]; exact Multiset.coe_eq_coe.mpr p⟩
  · obtain ⟨v, h1, e, p, _, _⟩ := heapPop_spec h hne o
    refine ⟨v, h1, e, p.symm.subset (List.mem_cons_self v _), ?_⟩
    have : (h.photoHeap : Multiset Photo) = v ::ₘ (h1.photoHeap : Multiset Photo) := by
      rw [Multiset.cons_coe]; exact Multiset.coe_eq_coe.mpr p
    rw [this, Multiset.erase_cons_head]

/-- Witness for C4: the reachable heap holding two photos, and a third photo to push. -/
theorem push_pop_multiset_witness :
    Reachable ⟨[photoLate, photoEarly]⟩ ∧
    (∃ h1, Heap.Push ⟨[photoLate, photoEarly]⟩ Photo.zero = some h1 ∧
      (h1.photoHeap : Multiset Photo)
        = Photo.zero ::ₘ ((Heap.mk [photoLate, photoEarly]).photoHeap : Multiset Photo)) ∧
    ((Heap.mk [photoLate, photoEarly]).photoHeap ≠ [] →
      ∃ v h1, Heap.Pop ⟨[photoLate, photoEarly]⟩ = some ((v, none), h1) ∧
        v ∈ (Heap.mk [photoLate, photoEarly]).photoHeap ∧
        (h1.photoHeap : Multiset Photo)
          = ((Heap.mk [photoLate, photoEarly]).photoHeap : Multiset Photo).erase v) :=
  have hr : Reachable ⟨[photoLate, photoEarly]⟩ :=
    ⟨⟨[]⟩, [Op.push photoLate, Op.push photoEarly], rfl, by decide⟩
  ⟨hr, push_pop_multiset _ Photo.zero hr⟩

/-! ## Claims about the visit grouper -/

theorem visit_of_place (outs : List Photo) (q : String) :
    groupPhotos outs noLocations q
      = match (outs.filter (fun r => decide (q ∈ r.Addresses))).map (fun r => r.Timestamp) with
        | [] => none
        | t :: ts => some ⟨t, extendEnd t ts, q⟩ := by
  rw [groupPhotos_apply]
  cases hP : (outs.filter (fun r => decide (q ∈ r.Addresses))).map (fun r => r.Timestamp) with
  | nil => rfl
  | cons t ts => exact foldl_visitStep_none q t ts

theorem filter_place_cons (outs : List Photo) (p : String) (r : Photo) (hr : r ∈ outs)
    (hp : p ∈ r.Addresses) :
    ∃ r0 rest, outs.filter (fun r => decide (p ∈ r.Addresses)) = r0 :: rest := by
  have hm : r ∈ outs.filter (fun r => decide (p ∈ r.Addresses)) :=
    List.mem_filter.mpr ⟨hr, by simpa using hp⟩
  cases hP : outs.filter (fun r => decide (p ∈ r.Addresses)) with
  | nil => rw [hP] at hm; simp at hm
  | cons r0 rest => exact ⟨r0, rest, rfl⟩

/-- What `Group` does guarantee about the start of a visit: for every reachable heap and every place name `p` that occurs in some
record's place set, `Group` returns a visit for `p` whose start is the timestamp of a
record containing `p` whose whole-second Unix time is the smallest among the records
containing `p`; and the first time `p` is seen the visit is created with
start = end = that record's timestamp. -/
theorem visit_start_unix (h : Heap) (p : String) (hr : Reachable h)
    (hp : ∃ r ∈ h.photoHeap, p ∈ r.Addresses) :
    StartIsSmallest Time.Unix h p ∧
      ∀ (photo : Photo) (locations : Locations), locations p = none →
        groupKey photo locations p p = some ⟨photo.Timestamp, photo.Timestamp, p⟩ := by
  have o := reachable_ordered h hr
  refine ⟨?_, ?_⟩
  · obtain ⟨outs, _, eg, perm, s⟩ := group_spec h o
    obtain ⟨r, hr, hrp⟩ := hp
    obtain ⟨r0, rest, hP⟩ := filter_place_cons outs p r (perm.symm.subset hr) hrp
    have hv := visit_of_place outs p
    rw [hP] at hv
    simp only [List.map_cons] at hv
    have hr0 : r0 ∈ outs.filter (fun r => decide (p ∈ r.Addresses)) := by
      rw [hP]; exact List.mem_cons_self _ _
    have hr0' := List.mem_filter.mp hr0
    have sP : (r0 :: rest).Pairwise (fun a b => a.Timestamp.Unix ≤ b.Timestamp.Unix) := by
      rw [← hP]; exact s.filter _
    refine ⟨_, _, _, eg, hv, ⟨r0, perm.subset hr0'.1, by simpa using hr0'.2, rfl⟩, ?_⟩
    intro x hx hxp
    have hxP : x ∈ r0 :: rest := by
      rw [← hP]; exact List.mem_filter.mpr ⟨perm.symm.subset hx, by simpa using hxp⟩
    rcases List.mem_cons.mp hxP with e | e
    · subst e; exact le_refl _
    · exact (List.pairwise_cons.mp sP).1 x e
  · intro photo locations hn
    rw [groupKey_apply, if_pos rfl, hn]
    rfl

/-- An instance of `visit_start_unix`: the heap holding the two London photos. -/
theorem visit_start_unix_witness :
    Reachable ⟨[photoEarly, photoLate]⟩ ∧
    (∃ r ∈ (Heap.mk [photoEarly, photoLate]).photoHeap, "London" ∈ r.Addresses) ∧
    (StartIsSmallest Time.Unix ⟨[photoEarly, photoLate]⟩ "London" ∧
      ∀ (photo : Photo) (locations : Locations), locations "London" = none →
        groupKey photo locations "London" "London"
          = some ⟨photo.Timestamp, photo.Timestamp, "London"⟩) :=
  have hr : Reachable ⟨[photoEarly, photoLate]⟩ :=
    ⟨⟨[]⟩, [Op.push photoEarly, Op.push photoLate], rfl, by decide⟩
  have hp : ∃ r ∈ (Heap.mk [photoEarly, photoLate]).photoHeap, "London" ∈ r.Addresses :=
    ⟨photoEarly, by simp, by decide⟩
  ⟨hr, hp, visit_start_unix _ _ hr hp⟩

/-- C5 (the code at the failing input): on the reachable heap holding the 10:10:10.9
photo above the 10:10:10.1 photo (push the 10.9 photo, then the 10.1 photo), `Group`
returns for London the visit that starts at 10:10:10.9 and ends at 10:10:10.1; its start
is not the smallest timestamp among the London records. -/
theorem visit_start_full_precision_fails :
    Reachable ⟨[photoLate, photoEarly]⟩ ∧
    (∃ r ∈ (Heap.mk [photoLate, photoEarly]).photoHeap, "London" ∈ r.Addresses) ∧
    (∃ m, Group ⟨[photoLate, photoEarly]⟩ = some (m, ⟨[]⟩) ∧
      m "London" = some ⟨photoLate.Timestamp, photoEarly.Timestamp, "London"⟩) ∧
    photoEarly.Timestamp.nanos < photoLate.Timestamp.nanos ∧
    ¬ StartIsSmallest Time.nanos ⟨[photoLate, photoEarly]⟩ "London" := by
  refine ⟨⟨⟨[]⟩, [Op.push photoLate, Op.push photoEarly], rfl, by decide⟩,
    ⟨photoEarly, by simp, by decide⟩,
    ⟨groupPhotos [photoLate, photoEarly] noLocations,
      by apply groupLoop_of_popN; decide, by decide⟩, by decide, ?_⟩
  rintro ⟨m, h1, v, eg, ev, _, hmin⟩
  have c : Group ⟨[photoLate, photoEarly]⟩
      = some (groupPhotos [photoLate, photoEarly] noLocations, ⟨[]⟩) := by
    apply groupLoop_of_popN
    decide
  rw [c] at eg
  cases eg
  rw [visit_of_place] at ev
  have hf : ([photoLate, photoEarly].filter (fun r => decide ("London" ∈ r.Addresses))).map
      (fun r => r.Timestamp) = [photoLate.Timestamp, photoEarly.Timestamp] := by decide
  rw [hf] at ev
  simp only [Option.some.injEq] at ev
  subst ev
  have := hmin photoEarly (by simp) (by decide)
  simp [Time.nanos, photoLate, photoEarly] at this

/-- C8: for every reachable heap, `Group` returns a map whose key set is exactly the
union of the place sets of the records in the heap (an entry for a name if and only if
the name occurs in some record), and the visit stored under key `p` has place `p`. -/
theorem one_visit_per_place (h : Heap) (hr : Reachable h) : OneVisitPerPlace h := by
  have o := reachable_ordered h hr
  obtain ⟨outs, _, eg, perm, _⟩ := group_spec h o
  refine ⟨_, _, eg, ?_, ?_⟩
  · intro p
    rw [visit_of_place]
    constructor
    · intro hs
      cases hP : outs.filter (fun r => decide (p ∈ r.Addresses)) with
      | nil => rw [hP] at hs; simp at hs
      | cons r0 rest =>
        have hr0 : r0 ∈ outs.filter (fun r => decide (p ∈ r.Addresses)) := by
          rw [hP]; exact List.mem_cons_self _ _
        have hr0' := List.mem_filter.mp hr0
        exact ⟨r0, perm.subset hr0'.1, by simpa using hr0'.2⟩
    · rintro ⟨r, hr, hrp⟩
      obtain ⟨r0, rest, hP⟩ := filter_place_cons outs p r (perm.symm.subset hr) hrp
      rw [hP]
      simp
  · intro p v hv
    rw [visit_of_place] at hv
    cases hP : (outs.filter (fun r => decide (p ∈ r.Addresses))).map (fun r => r.Timestamp) with
    | nil => rw [hP] at hv; simp at hv
    | cons t ts =>
      rw [hP] at hv
      simp only [Option.some.injEq] at hv
      rw [← hv]

/-- Witness for C8: the heap of the test "grouping by separate locations", pushed
later photo first. -/
theorem one_visit_per_place_witness :
    Reachable ⟨[fixtureMorning, fixtureNoon]⟩ ∧
      OneVisitPerPlace ⟨[fixtureMorning, fixtureNoon]⟩ :=
  have hr : Reachable ⟨[fixtureMorning, fixtureNoon]⟩ :=
    ⟨⟨[]⟩, [Op.push fixtureNoon, Op.push fixtureMorning], rfl, by decide⟩
  ⟨hr, one_visit_per_place _ hr⟩

theorem extendEnd_cons (e t : Time) (ts : List Time) :
    extendEnd e (t :: ts) = extendEnd (if t.Sub e ≤ oneDay then t else e) ts := rfl

theorem extendEnd_mem (ts : List Time) : ∀ e : Time, extendEnd e ts ∈ e :: ts := by
  induction ts with
  | nil => intro e; simp [extendEnd]
  | cons t ts ih =>
    intro e
    rw [extendEnd_cons]
    have := ih (if t.Sub e ≤ oneDay then t else e)
    split_ifs at this ⊢ with hc
    · exact List.mem_cons_of_mem _ this
    · rcases List.mem_cons.mp this with h | h
      · rw [h]; exact List.mem_cons_self _ _
      · exact List.mem_cons_of_mem _ (List.mem_cons_of_mem _ h)

theorem extendEnd_stuck (ts : List Time) (e : Time)
    (hs : ∀ x ∈ ts, ¬ x.Sub e ≤ oneDay) : extendEnd e ts = e := by
  induction ts with
  | nil => rfl
  | cons t ts ih =>
    rw [extendEnd_cons, if_neg (hs t (List.mem_cons_self _ _))]
    exact ih (fun x hx => hs x (List.mem_cons_of_mem _ hx))

theorem extendEnd_ge (ts : List Time) : ∀ e : Time,
    (e.nanos :: ts.map Time.nanos).Pairwise (fun a b => a ≤ b) →
    gapsWithinDay (e.nanos :: ts.map Time.nanos) →
    ∀ x ∈ e :: ts, x.nanos ≤ (extendEnd e ts).nanos := by
  induction ts with
  | nil =>
    intro e _ _ x hx
    simp only [List.mem_singleton] at hx
    subst hx
    exact le_refl _
  | cons t ts ih =>
    intro e hs hg x hx
    simp only [List.map_cons] at hs hg
    have hgap : t.nanos - e.nanos ≤ oneDay := by
      unfold gapsWithinDay at hg
      exact (List.chain'_cons.mp hg).1
    have hg' : gapsWithinDay (t.nanos :: ts.map Time.nanos) := by
      unfold gapsWithinDay at hg ⊢
      exact (List.chain'_cons.mp hg).2
    have hs' := (List.pairwise_cons.mp hs).2
    have het : e.nanos ≤ t.nanos := (List.pairwise_cons.mp hs).1 _ (List.mem_cons_self _ _)
    rw [extendEnd_cons, if_pos ((sub_le_oneDay_iff t e).mpr hgap)]
    have ih' := ih t hs' hg'
    rcases List.mem_cons.mp hx with h | h
    · subst h
      exact le_trans het (ih' t (List.mem_cons_self _ _))
    · exact ih' x h

theorem extendEnd_run (ts : List Time) : ∀ e : Time,
    (e.nanos :: ts.map Time.nanos).Pairwise (fun a b => a ≤ b) →
    (extendEnd e ts).nanos = initialRunEnd e.nanos (ts.map Time.nanos) := by
  induction ts with
  | nil => intro e _; rfl
  | cons t ts ih =>
    intro e hs
    simp only [List.map_cons] at hs
    have hs' := (List.pairwise_cons.mp hs).2
    rw [extendEnd_cons]
    simp only [List.map_cons, initialRunEnd]
    by_cases hc : t.nanos - e.nanos ≤ oneDay
    · rw [if_pos ((sub_le_oneDay_iff t e).mpr hc), if_pos hc]
      exact ih t hs'
    · rw [if_neg (fun h => hc ((sub_le_oneDay_iff t e).mp h)), if_neg hc]
      rw [extendEnd_stuck]
      intro x hx h
      have h1 := (sub_le_oneDay_iff x e).mp h
      have h2 : t.nanos ≤ x.nanos :=
        (List.pairwise_cons.mp hs').1 _ (List.mem_map_of_mem _ hx)
      omega

theorem nanos_of_whole (t : Time) (h : t.nsec = 0) : t.nanos = t.Unix * 1000000000 := by
  simp [Time.nanos, Time.Unix, h]

/-- The records of place `p` in extraction order, when their timestamps are whole
seconds: their instants are the ascending instants of the place. -/
theorem instants_of_outs (h : Heap) (p : String) (outs : List Photo)
    (perm : outs.Perm h.photoHeap)
    (s : outs.Pairwise (fun a b => a.Timestamp.Unix ≤ b.Timestamp.Unix))
    (hw : wholeSeconds h p) :
    ((outs.filter (fun r => decide (p ∈ r.Addresses))).map (fun r => r.Timestamp)).map Time.nanos
      = placeInstants h p := by
  have hsorted : (((outs.filter (fun r => decide (p ∈ r.Addresses))).map
      (fun r => r.Timestamp)).map Time.nanos).Sorted (fun a b => a ≤ b) := by
    rw [List.map_map]
    unfold List.Sorted
    rw [List.pairwise_map]
    refine List.Pairwise.imp_of_mem ?_ (s.filter _)
    intro a b ha hb hab
    have ha' := List.mem_filter.mp ha
    have hb' := List.mem_filter.mp hb
    have wa := hw a (perm.subset ha'.1) (by simpa using ha'.2)
    have wb := hw b (perm.subset hb'.1) (by simpa using hb'.2)
    simp only [Function.comp_apply, nanos_of_whole _ wa, nanos_of_whole _ wb]
    omega
  have hperm : (((outs.filter (fun r => decide (p ∈ r.Addresses))).map
      (fun r => r.Timestamp)).map Time.nanos).Perm (placeInstants h p) := by
    unfold placeInstants recordsOf
    rw [List.map_map]
    refine List.Perm.trans ?_ (List.perm_insertionSort _ _).symm
    exact (perm.filter _).map _
  exact List.eq_of_perm_of_sorted hperm hsorted (List.sorted_insertionSort _ _)

/-- What `Group` does guarantee about the end of a visit when no record of the place has
a sub-second part: for every reachable heap and every place `p` that occurs in it, if the
records containing `p` have whole-second timestamps and, taken in ascending timestamp
order, have every consecutive gap less than or equal to 24 hours (exactly 24h included),
then `Group` returns a visit for `p` whose end is the largest timestamp among those
records. -/
theorem visit_end_whole_seconds (h : Heap) (p : String) (hr : Reachable h)
    (hp : ∃ r ∈ h.photoHeap, p ∈ r.Addresses) (hw : wholeSeconds h p)
    (hg : gapsWithinDay (placeInstants h p)) : EndIsLargest h p := by
  have o := reachable_ordered h hr
  obtain ⟨outs, _, eg, perm, s⟩ := group_spec h o
  obtain ⟨r, hr, hrp⟩ := hp
  obtain ⟨r0, rest, hP⟩ := filter_place_cons outs p r (perm.symm.subset hr) hrp
  have hv := visit_of_place outs p
  have hN := instants_of_outs h p outs perm s hw
  rw [hP] at hv hN
  simp only [List.map_cons] at hv hN
  have hsorted : (r0.Timestamp.nanos :: (rest.map (fun r => r.Timestamp)).map Time.nanos).Pairwise
      (fun a b => a ≤ b) := by
    rw [hN]; exact List.sorted_insertionSort _ _
  rw [← hN] at hg
  have hge := extendEnd_ge (rest.map (fun r => r.Timestamp)) r0.Timestamp hsorted hg
  have hmem := extendEnd_mem (rest.map (fun r => r.Timestamp)) r0.Timestamp
  have hmem' : extendEnd r0.Timestamp (rest.map (fun r => r.Timestamp))
      ∈ (r0 :: rest).map (fun r => r.Timestamp) := by simpa using hmem
  obtain ⟨x, hx, ex⟩ := List.mem_map.mp hmem'
  rw [← hP] at hx
  have hx' := List.mem_filter.mp hx
  refine ⟨_, _, _, eg, hv, ⟨x, perm.subset hx'.1, by simpa using hx'.2, ex.symm⟩, ?_⟩
  intro y hy hyp
  have hyP : y ∈ outs.filter (fun r => decide (p ∈ r.Addresses)) :=
    List.mem_filter.mpr ⟨perm.symm.subset hy, by simpa using hyp⟩
  rw [hP] at hyP
  apply hge
  have : y.Timestamp ∈ (r0 :: rest).map (fun r => r.Timestamp) := List.mem_map_of_mem _ hyP
  simpa using this

/-- An instance of `visit_end_whole_seconds`: the heap of the test "grouping by same location" (London at 10:10:10
and at 12:10:10), pushed later photo first. -/
theorem visit_end_whole_seconds_witness :
    Reachable ⟨[fixtureMorning, fixtureNoon]⟩ ∧
    (∃ r ∈ (Heap.mk [fixtureMorning, fixtureNoon]).photoHeap, "London" ∈ r.Addresses) ∧
    wholeSeconds ⟨[fixtureMorning, fixtureNoon]⟩ "London" ∧
    gapsWithinDay (placeInstants ⟨[fixtureMorning, fixtureNoon]⟩ "London") ∧
    EndIsLargest ⟨[fixtureMorning, fixtureNoon]⟩ "London" :=
  have hr : Reachable ⟨[fixtureMorning, fixtureNoon]⟩ :=
    ⟨⟨[]⟩, [Op.push fixtureNoon, Op.push fixtureMorning], rfl, by decide⟩
  have hp : ∃ r ∈ (Heap.mk [fixtureMorning, fixtureNoon]).photoHeap, "London" ∈ r.Addresses :=
    ⟨fixtureMorning, by simp, by decide⟩
  have hw : wholeSeconds ⟨[fixtureMorning, fixtureNoon]⟩ "London" := by
    intro r hr _
    simp only [List.mem_cons, List.mem_singleton, List.not_mem_nil, or_false] at hr
    rcases hr with e | e <;> subst e <;> rfl
  have hg : gapsWithinDay (placeInstants ⟨[fixtureMorning, fixtureNoon]⟩ "London") := by
    have e : placeInstants ⟨[fixtureMorning, fixtureNoon]⟩ "London"
        = [1648462210000000000, 1648469410000000000] := by decide
    rw [e]
    simp [gapsWithinDay, oneDay, Hour]
  ⟨hr, hp, hw, hg, visit_end_whole_seconds _ _ hr hp hw hg⟩

/-- C6 (the code at the failing input): on the reachable heap holding the 10:10:10.9
photo above the 10:10:10.1 photo (push the 10.9 photo, then the 10.1 photo) the only gap
between the London records is 0.8 s, and `Group` returns for London the visit that
starts at 10:10:10.9 and ends at 10:10:10.1; its end is not the largest timestamp among
the London records. -/
theorem visit_end_full_precision_fails :
    Reachable ⟨[photoLate, photoEarly]⟩ ∧
    (∃ r ∈ (Heap.mk [photoLate, photoEarly]).photoHeap, "London" ∈ r.Addresses) ∧
    (∃ m, Group ⟨[photoLate, photoEarly]⟩ = some (m, ⟨[]⟩) ∧
      m "London" = some ⟨photoLate.Timestamp, photoEarly.Timestamp, "London"⟩) ∧
    photoEarly.Timestamp.nanos < photoLate.Timestamp.nanos ∧
    gapsWithinDay (placeInstants ⟨[photoLate, photoEarly]⟩ "London") ∧
    ¬ EndIsLargest ⟨[photoLate, photoEarly]⟩ "London" := by
  refine ⟨⟨⟨[]⟩, [Op.push photoLate, Op.push photoEarly], rfl, by decide⟩,
    ⟨photoEarly, by simp, by decide⟩,
    ⟨groupPhotos [photoLate, photoEarly] noLocations,
      by apply groupLoop_of_popN; decide, by decide⟩, by decide, ?_, ?_⟩
  · have e : placeInstants ⟨[photoLate, photoEarly]⟩ "London"
        = [1648462210100000000, 1648462210900000000] := by decide
    rw [e]
    simp [gapsWithinDay, oneDay, Hour]
  rintro ⟨m, h1, v, eg, ev, _, hmax⟩
  have c : Group ⟨[photoLate, photoEarly]⟩
      = some (groupPhotos [photoLate, photoEarly] noLocations, ⟨[]⟩) := by
    apply groupLoop_of_popN
    decide
  rw [c] at eg
  cases eg
  rw [visit_of_place] at ev
  have hf : ([photoLate, photoEarly].filter (fun r => decide ("London" ∈ r.Addresses))).map
      (fun r => r.Timestamp) = [photoLate.Timestamp, photoEarly.Timestamp] := by decide
  rw [hf] at ev
  simp only [Option.some.injEq] at ev
  subst ev
  have he : extendEnd photoLate.Timestamp [photoEarly.Timestamp] = photoEarly.Timestamp := by
    decide
  have := hmax photoLate (by simp) (by decide)
  simp only [he] at this
  simp [Time.nanos, photoLate, photoEarly] at this

theorem groupPhotos_append (l1 l2 : List Photo) (locations : Locations) :
    groupPhotos (l1 ++ l2) locations = groupPhotos l2 (groupPhotos l1 locations) := by
  simp [groupPhotos, List.foldl_append]

/-- What `Group` does guarantee after a gap when no record of the place has a sub-second
part: for every reachable heap and every place `p` that occurs in it, if the
records containing `p` have whole-second timestamps then, once a record containing `p`
is extracted whose timestamp is more than 24 hours after the current end of the visit,
that record and every later-extracted record leave the visit of `p` unmodified (the map
keeps its single entry for `p`); and the final end is the timestamp of the last record
of the maximal initial run of the records of `p`, in ascending order, whose consecutive
gaps are all at most 24h. -/
theorem extend_only_whole_seconds (h : Heap) (p : String) (hr : Reachable h)
    (hp : ∃ r ∈ h.photoHeap, p ∈ r.Addresses) (hw : wholeSeconds h p) : ExtendOnly h p := by
  have o := reachable_ordered h hr
  obtain ⟨outs, epop, eg, perm, s⟩ := group_spec h o
  refine ⟨outs, epop, eg, ?_, ?_⟩
  · intro pre r post v hsplit hrp hpre hgap post1 post2 hpost
    rw [groupPhotos_append, groupPhotos_apply, hpre, foldl_visitStep_some, extendEnd_stuck]
    intro x hx hxle
    obtain ⟨y, hy, rfl⟩ := List.mem_map.mp hx
    have hy' := List.mem_filter.mp hy
    have hyp : p ∈ y.Addresses := by simpa using hy'.2
    have hr_outs : r ∈ outs := by rw [hsplit]; simp
    rcases List.mem_cons.mp hy'.1 with e | e
    · subst e; exact hgap.not_le hxle
    · have hy_outs : y ∈ outs := by rw [hsplit, hpost]; simp [e]
      have hle : r.Timestamp.Unix ≤ y.Timestamp.Unix := by
        rw [hsplit] at s
        have s2 := (List.pairwise_append.mp s).2.1
        exact (List.pairwise_cons.mp s2).1 y (by rw [hpost]; simp [e])
      have wr := hw r (perm.subset hr_outs) hrp
      have wy := hw y (perm.subset hy_outs) hyp
      have h1 := (sub_le_oneDay_iff y.Timestamp v.endTime).mp hxle
      have h2 : ¬ (r.Timestamp.nanos - v.endTime.nanos ≤ oneDay) :=
        fun hh => hgap.not_le ((sub_le_oneDay_iff r.Timestamp v.endTime).mpr hh)
      rw [nanos_of_whole _ wy] at h1
      rw [nanos_of_whole _ wr] at h2
      omega
  · obtain ⟨r, hr, hrp⟩ := hp
    obtain ⟨r0, rest, hP⟩ := filter_place_cons outs p r (perm.symm.subset hr) hrp
    have hv := visit_of_place outs p
    have hN := instants_of_outs h p outs perm s hw
    rw [hP] at hv hN
    simp only [List.map_cons] at hv hN
    have hsorted : (r0.Timestamp.nanos ::
        (rest.map (fun r => r.Timestamp)).map Time.nanos).Pairwise (fun a b => a ≤ b) := by
      rw [hN]; exact List.sorted_insertionSort _ _
    exact ⟨_, hv, _, _, hN.symm, extendEnd_run _ _ hsorted⟩

/-- An instance of `extend_only_whole_seconds`: London at 10:10:10 and 12:10:10 on 2022-03-28 and, after a gap of
almost three days, at 10:10:10 and 12:10:10 on 2022-03-31. -/
theorem extend_only_whole_seconds_witness :
    Reachable ⟨[fixtureMorning, fixtureNoon, afterGapOne, afterGapTwo]⟩ ∧
    (∃ r ∈ (Heap.mk [fixtureMorning, fixtureNoon, afterGapOne, afterGapTwo]).photoHeap,
      "London" ∈ r.Addresses) ∧
    wholeSeconds ⟨[fixtureMorning, fixtureNoon, afterGapOne, afterGapTwo]⟩ "London" ∧
    ExtendOnly ⟨[fixtureMorning, fixtureNoon, afterGapOne, afterGapTwo]⟩ "London" :=
  have hr : Reachable ⟨[fixtureMorning, fixtureNoon, afterGapOne, afterGapTwo]⟩ :=
    ⟨⟨[]⟩, [Op.push afterGapTwo, Op.push fixtureNoon, Op.push afterGapOne,
      Op.push fixtureMorning], rfl, by decide⟩
  have hp : ∃ r ∈ (Heap.mk [fixtureMorning, fixtureNoon, afterGapOne, afterGapTwo]).photoHeap,
      "London" ∈ r.Addresses := ⟨fixtureMorning, by simp, by decide⟩
  have hw : wholeSeconds ⟨[fixtureMorning, fixtureNoon, afterGapOne, afterGapTwo]⟩ "London" := by
    intro r hr _
    simp only [List.mem_cons, List.mem_singleton, List.not_mem_nil, or_false] at hr
    rcases hr with e | e | e | e <;> subst e <;> rfl
  ⟨hr, hp, hw, extend_only_whole_seconds _ _ hr hp hw⟩

/-- C7 (the code at the failing input): London at 10:10:10.5, then a day later at
10:10:10.3 and at 10:10:10.9, pushed in this order.  The heap extracts the 10.5 record,
then the 10.9 record, then the 10.3 record (the last two are in one second, which is all
`Less` compares).  The 10.9 record is 24 h 0.4 s after the end of the visit and leaves
the visit as it is, but the 10.3 record, extracted later, is 23 h 59 min 59.8 s after it
and extends the visit: `Group` returns the visit from 10:10:10.5 to 10:10:10.3 of the
next day. -/
theorem extend_only_full_precision_fails :
    Reachable ⟨[gapFirst, gapThird, gapSecond]⟩ ∧
    (∃ r ∈ (Heap.mk [gapFirst, gapThird, gapSecond]).photoHeap, "London" ∈ r.Addresses) ∧
    popN 3 ⟨[gapFirst, gapThird, gapSecond]⟩
      = some ([(gapFirst, none), (gapSecond, none), (gapThird, none)], ⟨[]⟩) ∧
    groupPhotos [gapFirst] noLocations "London"
      = some ⟨gapFirst.Timestamp, gapFirst.Timestamp, "London"⟩ ∧
    gapSecond.Timestamp.Sub gapFirst.Timestamp > oneDay ∧
    groupPhotos [gapFirst, gapSecond] noLocations "London"
      = some ⟨gapFirst.Timestamp, gapFirst.Timestamp, "London"⟩ ∧
    (∃ m, Group ⟨[gapFirst, gapThird, gapSecond]⟩ = some (m, ⟨[]⟩) ∧
      m "London" = some ⟨gapFirst.Timestamp, gapThird.Timestamp, "London"⟩) ∧
    ¬ ExtendOnly ⟨[gapFirst, gapThird, gapSecond]⟩ "London" := by
  refine ⟨⟨⟨[]⟩, [Op.push gapFirst, Op.push gapThird, Op.push gapSecond], rfl, by decide⟩,
    ⟨gapFirst, by simp, by decide⟩, by decide, by decide, by decide, by decide,
    ⟨groupPhotos [gapFirst, gapSecond, gapThird] noLocations,
      by apply groupLoop_of_popN; decide, by decide⟩, ?_⟩
  rintro ⟨outs, epop, _, hkeep, _⟩
  have c : popN 3 ⟨[gapFirst, gapThird, gapSecond]⟩
      = some ([gapFirst, gapSecond, gapThird].map (fun r => (r, none)), ⟨[]⟩) := by decide
  simp only [List.length_cons, List.length_nil] at epop
  rw [c] at epop
  simp only [Option.some.injEq, Prod.mk.injEq, and_true] at epop
  have inj : Function.Injective (fun r : Photo => (r, (none : Option HeapError))) :=
    fun a b e => (Prod.mk.inj e).1
  have houts : outs = [gapFirst, gapSecond, gapThird] :=
    (List.map_injective_iff.mpr inj epop).symm
  have hk := hkeep [gapFirst] gapSecond [gapThird] ⟨gapFirst.Timestamp, gapFirst.Timestamp, "London"⟩
    (by rw [houts]; rfl) (by decide) (by decide) (by decide) [gapThird] [] rfl
  have hc : groupPhotos ([gapFirst] ++ gapSecond :: [gapThird]) noLocations "London"
      = some ⟨gapFirst.Timestamp, gapThird.Timestamp, "London"⟩ := by decide
  rw [hc] at hk
  revert hk
  decide

/-! ## Claims about the title generator -/

theorem sub_eq_duration (l : Location) (h1 : minDuration ≤ l.duration)
    (h2 : l.duration ≤ maxDuration) : l.endTime.Sub l.startTime = l.duration := by
  unfold Location.duration Time.nanos at *
  unfold Time.Sub
  unfold maxDuration minDuration at *
  dsimp only [Duration] at *
  split_ifs <;> omega

theorem suggestions_eq_map (l : Location) (phrases : List phrase) :
    l.suggestions phrases = phrases.map (fun p => p.generate l) := by
  unfold Location.suggestions
  have key : ∀ (ps : List phrase) (acc : List String),
      ps.foldl (fun tripNames p => tripNames ++ [p.generate l]) acc
        = acc ++ ps.map (fun p => p.generate l) := by
    intro ps
    induction ps with
    | nil => intro acc; simp
    | cons p ps ih => intro acc; simp [ih]
  simpa using key phrases []

theorem str_append_assoc (a b c : String) : a ++ b ++ c = a ++ (b ++ c) := by
  apply String.ext
  simp [String.data_append]

theorem titles_day (l : Location) :
    l.suggestions (dayPhrases ++ anyPhrases) = dayTitles l := by
  simp [suggestions_eq_map, dayPhrases, anyPhrases, phrase.generate, dayTitles, str_append_assoc]
  refine ⟨rfl, rfl, rfl, rfl⟩

theorem titles_weekend (l : Location) :
    l.suggestions (weekendPhrases ++ anyPhrases) = weekendTitles l := by
  simp [suggestions_eq_map, weekendPhrases, anyPhrases, phrase.generate, weekendTitles,
    str_append_assoc]
  refine ⟨rfl, rfl, rfl, rfl⟩

theorem titles_week (l : Location) :
    l.suggestions (weekPhrases ++ anyPhrases) = weekTitles l := by
  simp [suggestions_eq_map, weekPhrases, anyPhrases, phrase.generate, weekTitles,
    str_append_assoc]
  refine ⟨rfl, rfl, rfl⟩

theorem titles_holiday (l : Location) :
    l.suggestions (holidayPhrases ++ anyPhrases) = holidayTitles l := by
  simp [suggestions_eq_map, holidayPhrases, anyPhrases, phrase.generate, holidayTitles,
    str_append_assoc]
  refine ⟨rfl, rfl, rfl⟩

/-- The classification made by `GenerateTitles`, in terms of `Time.Sub`. -/
theorem generateTitles_cases (l : Location) :
    l.GenerateTitles =
      if l.endTime.Sub l.startTime < oneDay then dayTitles l
      else if l.endTime.Sub l.startTime > oneDay ∧ l.endTime.Sub l.startTime ≤ fourDays then
        (if l.startTime.Weekday ≥ Friday ∧ l.endTime.Weekday ≤ Monday then weekendTitles l
         else weekTitles l)
      else holidayTitles l := by
  unfold Location.GenerateTitles
  simp only
  split_ifs
  · exact titles_day l
  · exact titles_weekend l
  · exact titles_week l
  · exact titles_holiday l

theorem week_ne_holiday (l : Location) : weekTitles l ≠ holidayTitles l := by
  intro h
  have h1 := (List.cons.inj h).1
  have h2 := congrArg String.data h1
  simp [String.data_append] at h2

/-- The extent of the holiday class: `GenerateTitles` returns the holiday titles exactly
when `Time.Sub` gives more than 96 hours or exactly 24 hours. -/
theorem holiday_iff (l : Location) :
    l.GenerateTitles = holidayTitles l ↔
      (l.endTime.Sub l.startTime > fourDays ∨ l.endTime.Sub l.startTime = oneDay) := by
  rw [generateTitles_cases]
  have hd : (oneDay : Int) < fourDays := by decide
  have n1 : dayTitles l ≠ holidayTitles l := fun h => by
    have := congrArg List.length h
    simp [dayTitles, holidayTitles] at this
  have n2 : weekendTitles l ≠ holidayTitles l := fun h => by
    have := congrArg List.length h
    simp [weekendTitles, holidayTitles] at this
  have n3 := week_ne_holiday l
  generalize l.endTime.Sub l.startTime = d at *
  split_ifs with c1 c2 c3
  · simp only [n1, false_iff]; dsimp only [Duration] at *; omega
  · simp only [n2, false_iff]; dsimp only [Duration] at *; omega
  · simp only [n3, false_iff]; dsimp only [Duration] at *; omega
  · simp only [true_iff]; dsimp only [Duration] at *; omega

/-- C9 (the code at the failing input): a visit of London lasting exactly 24 hours,
which is not more than 96 hours, gets the holiday titles from `GenerateTitles`. -/
theorem holiday_titles_at_exactly_one_day :
    exactDayVisit.duration = oneDay ∧ ¬ (exactDayVisit.duration > fourDays) ∧
      exactDayVisit.GenerateTitles
        = ["Holiday to London", "London in March", "Visiting London in March"] := by
  decide

/-- C10: for every visit whose duration `d` satisfies 24h < d ≤ 96h, `GenerateTitles`
returns the four weekend titles when the start weekday is Friday or later and the end
weekday is Monday or earlier (Sunday = 0, ..., Saturday = 6), and the three week titles
otherwise; in particular a visit that starts on a Thursday (weekday 4) gets the week
titles whatever its end weekday. -/
theorem weekend_or_week (l : Location) (h1 : oneDay < l.duration)
    (h2 : l.duration ≤ fourDays) :
    (Friday ≤ l.startTime.Weekday ∧ l.endTime.Weekday ≤ Monday →
      l.GenerateTitles = weekendTitles l) ∧
    (¬ (Friday ≤ l.startTime.Weekday ∧ l.endTime.Weekday ≤ Monday) →
      l.GenerateTitles = weekTitles l) ∧
    (l.startTime.Weekday = 4 → l.GenerateTitles = weekTitles l) := by
  have hs : l.endTime.Sub l.startTime = l.duration := by
    apply sub_eq_duration
    · have : minDuration ≤ oneDay := by decide
      exact le_trans this (le_of_lt h1)
    · have : fourDays ≤ maxDuration := by decide
      exact le_trans h2 this
  have c1 : ¬ (l.endTime.Sub l.startTime < oneDay) := by rw [hs]; exact not_lt.mpr (le_of_lt h1)
  have c2 : l.endTime.Sub l.startTime > oneDay ∧ l.endTime.Sub l.startTime ≤ fourDays := by
    rw [hs]; exact ⟨h1, h2⟩
  rw [generateTitles_cases, if_neg c1, if_pos c2]
  refine ⟨fun hw => by rw [if_pos hw], fun hw => by rw [if_neg hw], fun ht => ?_⟩
  rw [if_neg]
  rintro ⟨hf, _⟩
  rw [ht] at hf
  revert hf
  decide

/-- Witness for C10: the Thursday-to-Monday visit of 74 hours. -/
theorem weekend_or_week_witness :
    oneDay < thursdayToMonday.duration ∧ thursdayToMonday.duration ≤ fourDays ∧
    ((Friday ≤ thursdayToMonday.startTime.Weekday ∧ thursdayToMonday.endTime.Weekday ≤ Monday →
      thursdayToMonday.GenerateTitles = weekendTitles thursdayToMonday) ∧
    (¬ (Friday ≤ thursdayToMonday.startTime.Weekday ∧
        thursdayToMonday.endTime.Weekday ≤ Monday) →
      thursdayToMonday.GenerateTitles = weekTitles thursdayToMonday) ∧
    (thursdayToMonday.startTime.Weekday = 4 →
      thursdayToMonday.GenerateTitles = weekTitles thursdayToMonday)) :=
  ⟨by decide, by decide, weekend_or_week thursdayToMonday (by decide) (by decide)⟩

theorem month_range (t : Time) : 1 ≤ t.Month ∧ t.Month ≤ 12 := by
  unfold Time.Month
  simp only
  generalize t.civilDay + 719468 = z
  have h0 : 0 ≤ z % 146097 := Int.emod_nonneg _ (by decide)
  have h1 : z % 146097 < 146097 := Int.emod_lt_of_pos _ (by decide)
  generalize z % 146097 = doe at h0 h1
  split_ifs <;> omega

theorem monthName_english (t : Time) : monthName t.Month ∈ englishMonths := by
  obtain ⟨h1, h2⟩ := month_range t
  generalize t.Month = m at h1 h2
  have : m = 1 ∨ m = 2 ∨ m = 3 ∨ m = 4 ∨ m = 5 ∨ m = 6 ∨ m = 7 ∨ m = 8 ∨ m = 9 ∨ m = 10 ∨
      m = 11 ∨ m = 12 := by omega
  rcases this with h | h | h | h | h | h | h | h | h | h | h | h <;> subst h <;> decide

theorem sub_lt_oneDay_iff (l : Location) :
    l.endTime.Sub l.startTime < oneDay ↔ l.duration < oneDay := by
  unfold Location.duration Time.Sub Time.nanos oneDay Hour maxDuration minDuration
  dsimp only [Duration]
  split_ifs <;> constructor <;> intro h <;> omega

/-- C11: for every visit with `end - start` strictly less than 24 hours, `GenerateTitles`
returns exactly the four strings "A day out in P", "A trip to P", "P in M",
"Visiting P in M" in that order, where P is the place of the visit and M is the English
name of the month of its start. -/
theorem day_titles (l : Location) (h : l.duration < oneDay) :
    l.GenerateTitles
      = ["A day out in " ++ l.location, "A trip to " ++ l.location,
         l.location ++ " in " ++ monthName l.startTime.Month,
         "Visiting " ++ l.location ++ " in " ++ monthName l.startTime.Month] ∧
    monthName l.startTime.Month ∈ englishMonths := by
  refine ⟨?_, monthName_english _⟩
  rw [generateTitles_cases, if_pos ((sub_lt_oneDay_iff l).mpr h)]
  rfl

/-- Witness for C11: the visit of the test "generates day phrases" (four hours in
London in March). -/
theorem day_titles_witness :
    dayVisit.duration < oneDay ∧
    (dayVisit.GenerateTitles
      = ["A day out in " ++ dayVisit.location, "A trip to " ++ dayVisit.location,
         dayVisit.location ++ " in " ++ monthName dayVisit.startTime.Month,
         "Visiting " ++ dayVisit.location ++ " in " ++ monthName dayVisit.startTime.Month] ∧
    monthName dayVisit.startTime.Month ∈ englishMonths) :=
  ⟨by decide, day_titles dayVisit (by decide)⟩

/-- C12: for every visit, whatever its class, the output of `GenerateTitles` is the
titles of one of the four class-specific phrase lists, in declaration order, followed
by exactly "P in M" and "Visiting P in M" as its last two elements, where M is the month
of the start of the visit; the output has 3 or 4 elements; and for the visit of the test
"generates holiday phrases", which starts in March and ends in April, M is March. -/
theorem any_phrases_last (l : Location) :
    (∃ cls ∈ [dayPhrases, weekendPhrases, weekPhrases, holidayPhrases],
      l.GenerateTitles
        = cls.map (fun p => p.generate l)
          ++ [l.location ++ " in " ++ monthName l.startTime.Month,
              "Visiting " ++ l.location ++ " in " ++ monthName l.startTime.Month]) ∧
    (l.GenerateTitles.length = 3 ∨ l.GenerateTitles.length = 4) ∧
    holidayVisit.GenerateTitles
      = ["Holiday to London", "London in March", "Visiting London in March"] := by
  have hany : anyPhrases.map (fun p => p.generate l)
      = [l.location ++ " in " ++ monthName l.startTime.Month,
         "Visiting " ++ l.location ++ " in " ++ monthName l.startTime.Month] := by
    simp [anyPhrases, phrase.generate, str_append_assoc]
    exact ⟨rfl, rfl⟩
  have hgen : ∃ cls ∈ [dayPhrases, weekendPhrases, weekPhrases, holidayPhrases],
      l.GenerateTitles = l.suggestions (cls ++ anyPhrases) := by
    unfold Location.GenerateTitles
    simp only
    split_ifs
    · exact ⟨dayPhrases, by simp, rfl⟩
    · exact ⟨weekendPhrases, by simp, rfl⟩
    · exact ⟨weekPhrases, by simp, rfl⟩
    · exact ⟨holidayPhrases, by simp, rfl⟩
  obtain ⟨cls, hc, e⟩ := hgen
  rw [suggestions_eq_map, List.map_append, hany] at e
  refine ⟨⟨cls, hc, e⟩, ?_, by decide⟩
  rw [e]
  simp only [List.mem_cons, List.mem_singleton, List.not_mem_nil, or_false] at hc
  rcases hc with h | h | h | h <;> subst h <;>
    simp [dayPhrases, weekendPhrases, weekPhrases, holidayPhrases]

/-! ## Claims about the place resolver and the worker loop -/

theorem acceptedTypes_iff (tags : List String) :
    acceptedTypes tags = true ↔ ∃ t ∈ tags, t ∈ acceptedLocationTypes := by
  unfold acceptedTypes
  simp only [List.any_eq_true, beq_iff_eq]
  constructor
  · rintro ⟨a, ha, t, ht, e⟩
    exact ⟨t, ht, e ▸ ha⟩
  · rintro ⟨t, ht, ha⟩
    exact ⟨t, ha, t, ht, rfl⟩

theorem addAddress_mem (name : String) (acc : List String) (a : AddressComponent) :
    name ∈ addAddress acc a ↔
      name ∈ acc ∨ (a.LongName = name ∧ acceptedTypes a.Types = true) := by
  unfold addAddress
  by_cases hacc : acceptedTypes a.Types = true
  · by_cases hmem : a.LongName ∈ acc
    · rw [if_pos hacc, if_pos hmem]
      constructor
      · exact fun h => Or.inl h
      · rintro (h | ⟨h, _⟩)
        · exact h
        · exact h ▸ hmem
    · rw [if_pos hacc, if_neg hmem, List.mem_append, List.mem_singleton]
      constructor
      · rintro (h | h)
        · exact Or.inl h
        · exact Or.inr ⟨h.symm, hacc⟩
      · rintro (h | ⟨h, _⟩)
        · exact Or.inl h
        · exact Or.inr h.symm
  · rw [if_neg hacc]
    constructor
    · exact fun h => Or.inl h
    · rintro (h | ⟨_, h⟩)
      · exact h
      · exact absurd h hacc

theorem foldl_addAddress_mem (name : String) (comps : List AddressComponent) :
    ∀ acc : List String, name ∈ comps.foldl addAddress acc ↔
      name ∈ acc ∨ ∃ a ∈ comps, a.LongName = name ∧ acceptedTypes a.Types = true := by
  induction comps with
  | nil => intro acc; simp
  | cons a comps ih =>
    intro acc
    rw [List.foldl_cons, ih, addAddress_mem]
    constructor
    · rintro ((h | h) | ⟨b, hb, h⟩)
      · exact Or.inl h
      · exact Or.inr ⟨a, List.mem_cons_self _ _, h⟩
      · exact Or.inr ⟨b, List.mem_cons_of_mem _ hb, h⟩
    · rintro (h | ⟨b, hb, h⟩)
      · exact Or.inl (Or.inl h)
      · rcases List.mem_cons.mp hb with e | e
        · subst e; exact Or.inl (Or.inr h)
        · exact Or.inr ⟨b, e, h⟩

theorem foldl_addAddress_nodup (comps : List AddressComponent) :
    ∀ acc : List String, acc.Nodup → (comps.foldl addAddress acc).Nodup := by
  induction comps with
  | nil => intro acc h; exact h
  | cons a comps ih =>
    intro acc h
    rw [List.foldl_cons]
    apply ih
    unfold addAddress
    split_ifs with h1 h2
    · exact h
    · exact List.Nodup.append h (List.nodup_singleton _) (by simpa using h2)
    · exact h

theorem foldl_results_mem (name : String) (results : List GeocodingResult) :
    ∀ acc : List String,
      name ∈ results.foldl
          (fun addresses result => result.AddressComponents.foldl addAddress addresses) acc ↔
        name ∈ acc ∨ ∃ r ∈ results, ∃ a ∈ r.AddressComponents,
          a.LongName = name ∧ acceptedTypes a.Types = true := by
  induction results with
  | nil => intro acc; simp
  | cons r results ih =>
    intro acc
    rw [List.foldl_cons, ih, foldl_addAddress_mem]
    constructor
    · rintro ((h | h) | ⟨r1, hr1, h⟩)
      · exact Or.inl h
      · exact Or.inr ⟨r, List.mem_cons_self _ _, h⟩
      · exact Or.inr ⟨r1, List.mem_cons_of_mem _ hr1, h⟩
    · rintro (h | ⟨r1, hr1, h⟩)
      · exact Or.inl (Or.inl h)
      · rcases List.mem_cons.mp hr1 with e | e
        · subst e; exact Or.inl (Or.inr h)
        · exact Or.inr ⟨r1, e, h⟩

theorem foldl_results_nodup (results : List GeocodingResult) :
    ∀ acc : List String, acc.Nodup →
      (results.foldl
        (fun addresses result => result.AddressComponents.foldl addAddress addresses)
        acc).Nodup := by
  induction results with
  | nil => intro acc h; exact h
  | cons r results ih =>
    intro acc h
    rw [List.foldl_cons]
    exact ih _ (foldl_addAddress_nodup _ _ h)

theorem collectAddresses_mem (name : String) (results : List GeocodingResult) :
    name ∈ collectAddresses results ↔
      ∃ r ∈ results, ∃ a ∈ r.AddressComponents,
        a.LongName = name ∧ acceptedTypes a.Types = true := by
  unfold collectAddresses
  rw [foldl_results_mem]
  simp

theorem collectAddresses_nodup (results : List GeocodingResult) :
    (collectAddresses results).Nodup :=
  foldl_results_nodup results [] List.nodup_nil

theorem getGeocoding_ok (c : Consumer) (ctx : Context) (h : Heap) (photo : Photo)
    (results : List GeocodingResult) (o : heapOrdered h.photoHeap)
    (hc : c.client ctx (geocodingRequest photo) = Except.ok results) (hne : results ≠ []) :
    ∃ h1, c.getGeocoding ctx h photo = some (none, h1) ∧
      h1.photoHeap.Perm ({ photo with Addresses := collectAddresses results } :: h.photoHeap) ∧
      heapOrdered h1.photoHeap := by
  obtain ⟨h1, e, p, o1⟩ :=
    heapPush_spec h { photo with Addresses := collectAddresses results } o
  have hl : results.length > 0 := List.length_pos.mpr hne
  exact ⟨h1, by simp [Consumer.getGeocoding, hc, hl, e], p, o1⟩

theorem getGeocoding_empty (c : Consumer) (ctx : Context) (h : Heap) (photo : Photo)
    (hc : c.client ctx (geocodingRequest photo) = Except.ok []) :
    c.getGeocoding ctx h photo = some (none, h) := by
  simp [Consumer.getGeocoding, hc]

theorem getGeocoding_error (c : Consumer) (ctx : Context) (h : Heap) (photo : Photo)
    (err : String) (hc : c.client ctx (geocodingRequest photo) = Except.error err) :
    c.getGeocoding ctx h photo = some (some ("getting location: " ++ err), h) := by
  simp [Consumer.getGeocoding, hc]

/-- C13: for every successful non-empty resolver response (on a reachable heap),
`getGeocoding` returns nil and pushes exactly one record, and a name is in the place set
of that record if and only if some address component with that long name has at least
one type tag in the accepted set; `acceptedTypes` is true exactly when the tags and the
accepted set intersect, so it is false for an empty tag list and for a component tagged
only `postal_code`. -/
theorem type_filter (c : Consumer) (ctx : Context) (h : Heap) (photo : Photo)
    (results : List GeocodingResult) (hr : Reachable h)
    (hc : c.client ctx (geocodingRequest photo) = Except.ok results) (hne : results ≠ []) :
    (∃ h1 pushed, c.getGeocoding ctx h photo = some (none, h1) ∧
      (h1.photoHeap : Multiset Photo) = pushed ::ₘ (h.photoHeap : Multiset Photo) ∧
      ∀ name, name ∈ pushed.Addresses ↔
        ∃ r ∈ results, ∃ a ∈ r.AddressComponents, a.LongName = name ∧
          ∃ t ∈ a.Types, t ∈ acceptedLocationTypes) ∧
    (∀ tags, acceptedTypes tags = true ↔ ∃ t ∈ tags, t ∈ acceptedLocationTypes) ∧
    acceptedTypes [] = false ∧ acceptedTypes ["postal_code"] = false := by
  refine ⟨?_, acceptedTypes_iff, by decide, by decide⟩
  obtain ⟨h1, e, p, _⟩ := getGeocoding_ok c ctx h photo results (reachable_ordered h hr) hc hne
  refine ⟨h1, _, e, by rw [Multiset.cons_coe]; exact Multiset.coe_eq_coe.mpr p, ?_⟩
  intro name
  simp only [collectAddresses_mem, acceptedTypes_iff]

/-- Witness for C13: the response of the test "ignores unaccepted address types" on the
new heap. -/
theorem type_filter_witness :
    Reachable ⟨[]⟩ ∧
    (mockClient responseWithPostcode).client ⟨false⟩ (geocodingRequest rawPhoto)
      = Except.ok responseWithPostcode ∧
    responseWithPostcode ≠ [] ∧
    ((∃ h1 pushed, (mockClient responseWithPostcode).getGeocoding ⟨false⟩ ⟨[]⟩ rawPhoto
        = some (none, h1) ∧
      (h1.photoHeap : Multiset Photo) = pushed ::ₘ ((Heap.mk []).photoHeap : Multiset Photo) ∧
      ∀ name, name ∈ pushed.Addresses ↔
        ∃ r ∈ responseWithPostcode, ∃ a ∈ r.AddressComponents, a.LongName = name ∧
          ∃ t ∈ a.Types, t ∈ acceptedLocationTypes) ∧
    (∀ tags, acceptedTypes tags = true ↔ ∃ t ∈ tags, t ∈ acceptedLocationTypes) ∧
    acceptedTypes [] = false ∧ acceptedTypes ["postal_code"] = false) :=
  have hr : Reachable ⟨[]⟩ := ⟨⟨[]⟩, [], rfl, rfl⟩
  ⟨hr, rfl, by decide,
    type_filter (mockClient responseWithPostcode) ⟨false⟩ ⟨[]⟩ rawPhoto responseWithPostcode
      hr rfl (by decide)⟩

/-- C14: for every resolver response, each accepted name appears exactly once in the
resulting place set (the key list has no duplicates and holds exactly the accepted
names); two responses with the same address components up to repetition, within one
result or across results, give the same place set; and the names London, London,
Greater London (locality, locality, administrative_area_level_2) give the place set
London, Greater London.  The place set is the one `getGeocoding` gives the record it
pushes for a non-empty response. -/
theorem dedup_place_set (results : List GeocodingResult) :
    (collectAddresses results).Nodup ∧
    (∀ name, name ∈ collectAddresses results ↔
      ∃ r ∈ results, ∃ a ∈ r.AddressComponents, a.LongName = name ∧
        ∃ t ∈ a.Types, t ∈ acceptedLocationTypes) ∧
    (∀ repeated : List GeocodingResult,
      (∀ a, (∃ r ∈ repeated, a ∈ r.AddressComponents) ↔ (∃ r ∈ results, a ∈ r.AddressComponents)) →
      (collectAddresses repeated).Perm (collectAddresses results)) ∧
    collectAddresses
        [⟨[⟨"London", "London", ["locality"]⟩, ⟨"London", "London", ["locality"]⟩,
           ⟨"Greater London", "Greater London", ["administrative_area_level_2"]⟩]⟩]
      = ["London", "Greater London"] ∧
    (∀ (c : Consumer) (ctx : Context) (h : Heap) (photo : Photo),
      c.client ctx (geocodingRequest photo) = Except.ok results → results ≠ [] →
      c.getGeocoding ctx h photo
        = (Heap.Push h { photo with Addresses := collectAddresses results }).map
            (fun h1 => (none, h1))) := by
  refine ⟨collectAddresses_nodup results, ?_, ?_, by decide, ?_⟩
  · intro name
    simp only [collectAddresses_mem, acceptedTypes_iff]
  · intro repeated hsame
    rw [List.perm_ext_iff_of_nodup (collectAddresses_nodup _) (collectAddresses_nodup _)]
    intro name
    rw [collectAddresses_mem, collectAddresses_mem]
    constructor
    · rintro ⟨r, hr, a, ha, h⟩
      obtain ⟨r1, hr1, ha1⟩ := (hsame a).mp ⟨r, hr, ha⟩
      exact ⟨r1, hr1, a, ha1, h⟩
    · rintro ⟨r, hr, a, ha, h⟩
      obtain ⟨r1, hr1, ha1⟩ := (hsame a).mpr ⟨r, hr, ha⟩
      exact ⟨r1, hr1, a, ha1, h⟩
  · intro c ctx h photo hc hne
    have hl : results.length > 0 := List.length_pos.mpr hne
    simp only [Consumer.getGeocoding, hc, hl, if_true]
    cases Heap.Push h { photo with Addresses := collectAddresses results } <;> rfl

theorem collectAddresses_of_noUsable (results : List GeocodingResult)
    (hn : NoUsableCandidate results) : collectAddresses results = [] := by
  apply List.eq_nil_iff_forall_not_mem.mpr
  intro name hm
  obtain ⟨r, hr, a, ha, _, hacc⟩ := (collectAddresses_mem name results).mp hm
  rw [hn r hr a ha] at hacc
  exact Bool.false_ne_true hacc

/-- C15 (amended): for every successful resolver response that contains no address
component with an accepted type tag, on a reachable heap: when the response is empty
`getGeocoding` does not insert the record (the heap after the call equals the heap
before it); when the response is non-empty it inserts the record with an empty place
set, and such a record adds nothing to the map of `Group`. -/
theorem zero_usable_candidates (c : Consumer) (ctx : Context) (h : Heap) (photo : Photo)
    (results : List GeocodingResult) (hr : Reachable h)
    (hc : c.client ctx (geocodingRequest photo) = Except.ok results)
    (hn : NoUsableCandidate results) :
    (results = [] → DropsRecord c ctx h photo) ∧
    (results ≠ [] → ∃ h1, c.getGeocoding ctx h photo = some (none, h1) ∧
      (h1.photoHeap : Multiset Photo)
        = { photo with Addresses := [] } ::ₘ (h.photoHeap : Multiset Photo) ∧
      ∀ locations, groupPhoto { photo with Addresses := [] } locations = locations) := by
  refine ⟨fun he => ?_, fun hne => ?_⟩
  · subst he
    exact getGeocoding_empty c ctx h photo hc
  · obtain ⟨h1, e, p, _⟩ :=
      getGeocoding_ok c ctx h photo results (reachable_ordered h hr) hc hne
    rw [collectAddresses_of_noUsable results hn] at p
    exact ⟨h1, e, by rw [Multiset.cons_coe]; exact Multiset.coe_eq_coe.mpr p, fun _ => rfl⟩

/-- Witness for C15: the response whose only component is a postal code, on the new
heap. -/
theorem zero_usable_candidates_witness :
    Reachable ⟨[]⟩ ∧
    (mockClient responsePostcodeOnly).client ⟨false⟩ (geocodingRequest rawPhoto)
      = Except.ok responsePostcodeOnly ∧
    NoUsableCandidate responsePostcodeOnly ∧
    ((responsePostcodeOnly = [] →
      DropsRecord (mockClient responsePostcodeOnly) ⟨false⟩ ⟨[]⟩ rawPhoto) ∧
    (responsePostcodeOnly ≠ [] →
      ∃ h1, (mockClient responsePostcodeOnly).getGeocoding ⟨false⟩ ⟨[]⟩ rawPhoto
          = some (none, h1) ∧
        (h1.photoHeap : Multiset Photo)
          = { rawPhoto with Addresses := [] } ::ₘ ((Heap.mk []).photoHeap : Multiset Photo) ∧
        ∀ locations, groupPhoto { rawPhoto with Addresses := [] } locations = locations)) :=
  have hr : Reachable ⟨[]⟩ := ⟨⟨[]⟩, [], rfl, rfl⟩
  have hn : NoUsableCandidate responsePostcodeOnly := by
    intro r hr a ha
    simp only [responsePostcodeOnly, List.mem_singleton] at hr
    subst hr
    simp only [List.mem_singleton] at ha
    subst ha
    decide
  ⟨hr, rfl, hn,
    zero_usable_candidates (mockClient responsePostcodeOnly) ⟨false⟩ ⟨[]⟩ rawPhoto
      responsePostcodeOnly hr rfl hn⟩

/-- C15 as stated fails: the response whose only component is tagged `postal_code` is
successful and has no accepted component, yet on the new heap `getGeocoding` pushes the
record, so the heap after the call is not the heap before it. -/
theorem zero_usable_candidates_nonempty_fails :
    Reachable ⟨[]⟩ ∧
    (mockClient responsePostcodeOnly).client ⟨false⟩ (geocodingRequest rawPhoto)
      = Except.ok responsePostcodeOnly ∧
    NoUsableCandidate responsePostcodeOnly ∧
    ¬ DropsRecord (mockClient responsePostcodeOnly) ⟨false⟩ ⟨[]⟩ rawPhoto := by
  refine ⟨⟨⟨[]⟩, [], rfl, rfl⟩, rfl, ?_, by unfold DropsRecord; decide⟩
  intro r hr a ha
  simp only [responsePostcodeOnly, List.mem_singleton] at hr
  subst hr
  simp only [List.mem_singleton] at ha
  subst ha
  decide

theorem context_eq (ctx : Context) (b : Bool) (hd : ctx.done = b) : ctx = ⟨b⟩ := by
  cases ctx with
  | mk d => simp only at hd; rw [hd]

theorem pushedFor_error (c : Consumer) (ctx : Context) (photo : Photo) (err : String)
    (hc : c.client ctx (geocodingRequest photo) = Except.error err) :
    c.pushedFor ctx photo = none := by
  simp [Consumer.pushedFor, hc]

theorem getGeocoding_total (c : Consumer) (ctx : Context) (h : Heap) (photo : Photo)
    (o : heapOrdered h.photoHeap) :
    ∃ e h1, c.getGeocoding ctx h photo = some (e, h1) ∧ heapOrdered h1.photoHeap ∧
      h1.photoHeap.Perm ((c.pushedFor ctx photo).toList ++ h.photoHeap) := by
  cases hc : c.client ctx (geocodingRequest photo) with
  | error err =>
    refine ⟨_, h, getGeocoding_error c ctx h photo err hc, o, ?_⟩
    simp [Consumer.pushedFor, hc]
  | ok results =>
    by_cases hne : results = []
    · subst hne
      refine ⟨none, h, getGeocoding_empty c ctx h photo hc, o, ?_⟩
      simp [Consumer.pushedFor, hc]
    · obtain ⟨h1, e, p, o1⟩ := getGeocoding_ok c ctx h photo results o hc hne
      have hl : results.length > 0 := List.length_pos.mpr hne
      refine ⟨none, h1, e, o1, ?_⟩
      simpa [Consumer.pushedFor, hc, hl] using p

theorem run_receives (c : Consumer) (h h1 : Heap) (photo : Photo) (queue : List Photo)
    (closed : Bool) (it : Iteration) (rest : List Iteration) (e : Option String)
    (hsel : it.atSelect.done = false ∨ it.prefer = SelectCase.photos)
    (hg : c.getGeocoding it.atCall h photo = some (e, h1)) :
    c.Run h ⟨photo :: queue, closed⟩ (it :: rest)
      = match c.Run h1 ⟨queue, closed⟩ rest with
        | none => none
        | some s =>
          if it.atPush.done && decide (h1 ≠ h) then
            some { s with pushedAfterSignal := photo :: s.pushedAfterSignal }
          else some s := by
  rw [Consumer.Run]
  rcases hsel with hd | hp
  · simp [hd, hg]
  · cases hd : it.atSelect.done <;> simp [hp, hg]

theorem run_takes_ctxDone (c : Consumer) (h : Heap) (photos : PhotoChan) (it : Iteration)
    (rest : List Iteration) (hd : it.atSelect.done = true)
    (hp : it.prefer = SelectCase.ctxDone) :
    c.Run h photos (it :: rest) = some ⟨h, photos, true, []⟩ := by
  rw [Consumer.Run]
  cases hq : (!photos.queue.isEmpty || photos.closed) <;> simp [hd, hp, hq]

theorem run_queue (c : Consumer) (ctx : Context) (closed : Bool) :
    ∀ (queue : List Photo) (h : Heap) (sched : List Iteration), heapOrdered h.photoHeap →
      sched.length = queue.length →
      (∀ it ∈ sched,
        (it.atSelect.done = false ∨ it.prefer = SelectCase.photos) ∧ it.atCall = ctx) →
      ∃ s, c.Run h ⟨queue, closed⟩ sched = some s ∧ s.photos = ⟨[], closed⟩ ∧
        s.returned = false ∧ heapOrdered s.photoHeap.photoHeap ∧
        s.photoHeap.photoHeap.Perm (queue.filterMap (c.pushedFor ctx) ++ h.photoHeap) := by
  intro queue
  induction queue with
  | nil =>
    intro h sched o hl _
    have hs : sched = [] := List.length_eq_zero.mp hl
    subst hs
    exact ⟨_, rfl, rfl, rfl, o, by simp⟩
  | cons photo queue ih =>
    intro h sched o hl hall
    cases sched with
    | nil => simp at hl
    | cons it rest =>
      obtain ⟨hsel, hctx⟩ := hall it (List.mem_cons_self _ _)
      obtain ⟨e, h1, hg, o1, p1⟩ := getGeocoding_total c ctx h photo o
      obtain ⟨s, hs, hq, hr, os, ps⟩ := ih h1 rest o1 (by simpa using hl)
        (fun x hx => hall x (List.mem_cons_of_mem _ hx))
      have hperm : s.photoHeap.photoHeap.Perm
          ((photo :: queue).filterMap (c.pushedFor ctx) ++ h.photoHeap) := by
        refine ps.trans ?_
        cases hp : c.pushedFor ctx photo with
        | none =>
          rw [hp] at p1
          rw [List.filterMap_cons_none hp]
          exact List.Perm.append_left _ (by simpa using p1)
        | some r =>
          rw [hp] at p1
          rw [List.filterMap_cons_some hp]
          refine (List.Perm.append_left _ p1).trans ?_
          simp only [Option.toList, List.singleton_append, List.cons_append]
          exact List.perm_middle
      rw [← hctx] at hg
      rw [run_receives c h h1 photo queue closed it rest e hsel hg, hs]
      by_cases hlog : (it.atPush.done && decide (h1 ≠ h)) = true
      · simp only [if_pos hlog]
        exact ⟨_, rfl, hq, hr, os, hperm⟩
      · simp only [if_neg hlog]
        exact ⟨_, rfl, hq, hr, os, hperm⟩

/-- C16: whenever the geocoding client returns an error, `getGeocoding` returns a
non-nil error and pushes nothing, so the heap is unchanged (and `Pop` on a heap that
was empty yields the zero `Photo` and `ErrEmptyHeap`); the loop of `Run`, when its
`select` receives that photo, drops the error and is in the state of a worker that
starts on the rest of the channel; and a worker that receives every item of a channel
in which that photo stands anywhere works through the whole channel without returning:
it ends waiting at the `select` on the emptied channel, and the heap then holds, besides
what it held before, the record of every other item for which the client gave a
non-empty response, and nothing for the photo whose lookup failed. -/
theorem resolver_failure (c : Consumer) (ctx : Context) (h : Heap) (photo : Photo)
    (err : String) (hc : c.client ctx (geocodingRequest photo) = Except.error err) :
    (∃ e, c.getGeocoding ctx h photo = some (some e, h)) ∧
    (h.photoHeap = [] → Heap.Pop h = some ((Photo.zero, some HeapError.ErrEmptyHeap), h)) ∧
    (∀ (queue : List Photo) (closed : Bool) (it : Iteration) (rest : List Iteration),
      it.atCall = ctx → (it.atSelect.done = false ∨ it.prefer = SelectCase.photos) →
      c.Run h ⟨photo :: queue, closed⟩ (it :: rest) = c.Run h ⟨queue, closed⟩ rest) ∧
    (∀ (before after : List Photo) (closed : Bool) (sched : List Iteration),
      Reachable h → sched.length = (before ++ photo :: after).length →
      (∀ it ∈ sched,
        (it.atSelect.done = false ∨ it.prefer = SelectCase.photos) ∧ it.atCall = ctx) →
      ∃ s, c.Run h ⟨before ++ photo :: after, closed⟩ sched = some s ∧
        s.photos = ⟨[], closed⟩ ∧ s.returned = false ∧
        (s.photoHeap.photoHeap : Multiset Photo)
          = (((before ++ after).filterMap (c.pushedFor ctx) : List Photo) : Multiset Photo)
            + (h.photoHeap : Multiset Photo)) := by
  have e := getGeocoding_error c ctx h photo err hc
  refine ⟨⟨_, e⟩, heapPop_empty h, ?_, ?_⟩
  · intro queue closed it rest hctx hsel
    rw [← hctx] at e
    rw [run_receives c h h photo queue closed it rest _ hsel e]
    cases c.Run h ⟨queue, closed⟩ rest <;> simp
  · intro before after closed sched hr hl hall
    obtain ⟨s, hs, hq, hret, _, p⟩ :=
      run_queue c ctx closed (before ++ photo :: after) h sched (reachable_ordered h hr) hl hall
    refine ⟨s, hs, hq, hret, ?_⟩
    rw [List.filterMap_append, List.filterMap_cons_none (pushedFor_error c ctx photo err hc),
      ← List.filterMap_append] at p
    rw [Multiset.coe_add]
    exact Multiset.coe_eq_coe.mpr p

/-- Witness for C16: a client that fails for the first photo of the channel (as the mock
of the test "nothing added to the heap on error" does) and answers for the second: the
worker drops the first photo and inserts the record of the second. -/
theorem resolver_failure_witness :
    (failingAt rawPhoto.Latitude rawPhoto.Longitude responseWithPostcode).client ⟨false⟩
      (geocodingRequest rawPhoto) = Except.error "client error" ∧
    (failingAt rawPhoto.Latitude rawPhoto.Longitude responseWithPostcode).Run ⟨[]⟩
        ⟨[rawPhoto, rawPhotoNext], false⟩
        [⟨⟨false⟩, SelectCase.photos, ⟨false⟩, ⟨false⟩⟩,
         ⟨⟨false⟩, SelectCase.photos, ⟨false⟩, ⟨false⟩⟩]
      = some ⟨⟨[{ rawPhotoNext with Addresses := ["London"] }]⟩, ⟨[], false⟩, false, []⟩ ∧
    ((∃ e, (failingAt rawPhoto.Latitude rawPhoto.Longitude responseWithPostcode).getGeocoding
        ⟨false⟩ ⟨[]⟩ rawPhoto = some (some e, ⟨[]⟩)) ∧
    ((Heap.mk []).photoHeap = [] →
      Heap.Pop ⟨[]⟩ = some ((Photo.zero, some HeapError.ErrEmptyHeap), ⟨[]⟩)) ∧
    (∀ (queue : List Photo) (closed : Bool) (it : Iteration) (rest : List Iteration),
      it.atCall = ⟨false⟩ → (it.atSelect.done = false ∨ it.prefer = SelectCase.photos) →
      (failingAt rawPhoto.Latitude rawPhoto.Longitude responseWithPostcode).Run ⟨[]⟩
          ⟨rawPhoto :: queue, closed⟩ (it :: rest)
        = (failingAt rawPhoto.Latitude rawPhoto.Longitude responseWithPostcode).Run ⟨[]⟩
          ⟨queue, closed⟩ rest) ∧
    (∀ (before after : List Photo) (closed : Bool) (sched : List Iteration),
      Reachable ⟨[]⟩ → sched.length = (before ++ rawPhoto :: after).length →
      (∀ it ∈ sched,
        (it.atSelect.done = false ∨ it.prefer = SelectCase.photos) ∧ it.atCall = ⟨false⟩) →
      ∃ s, (failingAt rawPhoto.Latitude rawPhoto.Longitude responseWithPostcode).Run ⟨[]⟩
          ⟨before ++ rawPhoto :: after, closed⟩ sched = some s ∧
        s.photos = ⟨[], closed⟩ ∧ s.returned = false ∧
        (s.photoHeap.photoHeap : Multiset Photo)
          = (((before ++ after).filterMap
              ((failingAt rawPhoto.Latitude rawPhoto.Longitude responseWithPostcode).pushedFor
                ⟨false⟩) : List Photo) : Multiset Photo)
            + ((Heap.mk []).photoHeap : Multiset Photo))) :=
  ⟨rfl, by decide,
    resolver_failure (failingAt rawPhoto.Latitude rawPhoto.Longitude responseWithPostcode)
      ⟨false⟩ ⟨[]⟩ rawPhoto "client error" rfl⟩

theorem run_cancelled_calls (c : Consumer)
    (hon : ∀ req, ∃ e, c.client ⟨true⟩ req = Except.error e) :
    ∀ (sched : List Iteration) (h : Heap) (photos : PhotoChan),
      (∀ it ∈ sched, it.atCall.done = true) →
      ∃ s, c.Run h photos sched = some s ∧ s.photoHeap = h ∧ s.pushedAfterSignal = [] := by
  intro sched
  induction sched with
  | nil => intro h photos _; exact ⟨_, rfl, rfl, rfl⟩
  | cons it rest ih =>
    intro h photos hall
    have hctx : it.atCall = ⟨true⟩ := context_eq _ _ (hall it (List.mem_cons_self _ _))
    obtain ⟨queue, closed⟩ := photos
    cases queue with
    | nil =>
      rw [Consumer.Run]
      cases closed <;> cases it.atSelect.done <;> cases it.prefer <;> simp
    | cons photo queue =>
      by_cases hsel : it.atSelect.done = false ∨ it.prefer = SelectCase.photos
      · obtain ⟨e, he⟩ := hon (geocodingRequest photo)
        have hg := getGeocoding_error c ⟨true⟩ h photo e he
        rw [← hctx] at hg
        obtain ⟨s, hs, hh, hlog⟩ := ih h ⟨queue, closed⟩
          (fun x hx => hall x (List.mem_cons_of_mem _ hx))
        rw [run_receives c h h photo queue closed it rest _ hsel hg, hs]
        exact ⟨s, by simp, hh, hlog⟩
      · have hd : it.atSelect.done = true := by
          cases hx : it.atSelect.done
          · exact absurd (Or.inl hx) hsel
          · rfl
        have hp : it.prefer = SelectCase.ctxDone := by
          cases hx : it.prefer
          · rfl
          · exact absurd (Or.inr hx) hsel
        exact ⟨_, run_takes_ctxDone c h _ it rest hd hp, rfl, rfl⟩

theorem staysCancelled_cons (it : Iteration) (rest : List Iteration)
    (hs : StaysCancelled (it :: rest)) :
    StaysCancelled rest ∧ (it.atPush.done = true → ∀ x ∈ rest, x.atCall.done = true) := by
  unfold StaysCancelled observations at hs
  rw [List.flatMap_cons, List.pairwise_append] at hs
  obtain ⟨_, hrest, hcross⟩ := hs
  refine ⟨hrest, fun hd x hx => ?_⟩
  refine hcross it.atPush.done (by simp) x.atCall.done ?_ hd
  rw [List.mem_flatMap]
  exact ⟨x, hx, by simp⟩

theorem run_in_flight (c : Consumer)
    (hon : ∀ req, ∃ e, c.client ⟨true⟩ req = Except.error e) :
    ∀ (sched : List Iteration) (h : Heap) (photos : PhotoChan), heapOrdered h.photoHeap →
      StaysCancelled sched →
      ∃ s, c.Run h photos sched = some s ∧ s.pushedAfterSignal.length ≤ 1 := by
  intro sched
  induction sched with
  | nil => intro h photos _ _; exact ⟨_, rfl, by simp⟩
  | cons it rest ih =>
    intro h photos o hst
    obtain ⟨hst1, hlater⟩ := staysCancelled_cons it rest hst
    obtain ⟨queue, closed⟩ := photos
    cases queue with
    | nil =>
      rw [Consumer.Run]
      cases closed <;> cases it.atSelect.done <;> cases it.prefer <;> simp
    | cons photo queue =>
      by_cases hsel : it.atSelect.done = false ∨ it.prefer = SelectCase.photos
      · obtain ⟨e, h1, hg, o1, _⟩ := getGeocoding_total c it.atCall h photo o
        rw [run_receives c h h1 photo queue closed it rest e hsel hg]
        by_cases hlog : (it.atPush.done && decide (h1 ≠ h)) = true
        · have hd : it.atPush.done = true := by
            cases hx : it.atPush.done
            · rw [hx] at hlog; simp at hlog
            · rfl
          obtain ⟨s, hs, _, hnil⟩ :=
            run_cancelled_calls c hon rest h1 ⟨queue, closed⟩ (hlater hd)
          rw [hs]
          simp only [if_pos hlog]
          exact ⟨_, rfl, by simp [hnil]⟩
        · obtain ⟨s, hs, hle⟩ := ih h1 ⟨queue, closed⟩ o1 hst1
          rw [hs]
          simp only [if_neg hlog]
          exact ⟨_, rfl, hle⟩
      · have hd : it.atSelect.done = true := by
          cases hx : it.atSelect.done
          · exact absurd (Or.inl hx) hsel
          · rfl
        have hp : it.prefer = SelectCase.ctxDone := by
          cases hx : it.prefer
          · rfl
          · exact absurd (Or.inr hx) hsel
        exact ⟨_, run_takes_ctxDone c h _ it rest hd hp, by simp⟩

/-- C20 (amended): once the cancellation signal has been raised, a worker whose `select`
takes the cancellation case returns without inserting anything, whatever the client;
and for a client that fails every call made with a cancelled context, for every
scheduling of the choice between the cancellation case and a pending stream item: an
iteration whose call of the client is made after the signal changes neither the heap
nor the log, the worker is where it would be had it started on the rest of the channel;
a worker all of whose calls of the client are made after the signal inserts nothing and
leaves the heap as it was; and over a whole run, from before the signal to after it, a
worker pushes at most one record at a moment when the signal has been raised. -/
theorem cancellation (c : Consumer)
    (hon : ∀ req, ∃ e, c.client ⟨true⟩ req = Except.error e) :
    (∀ (d : Consumer) (h : Heap) (photos : PhotoChan) (it : Iteration) (rest : List Iteration),
      it.atSelect.done = true → it.prefer = SelectCase.ctxDone →
      d.Run h photos (it :: rest) = some ⟨h, photos, true, []⟩) ∧
    (∀ (h : Heap) (photo : Photo) (queue : List Photo) (closed : Bool) (it : Iteration)
        (rest : List Iteration),
      it.atCall.done = true → (it.atSelect.done = false ∨ it.prefer = SelectCase.photos) →
      c.Run h ⟨photo :: queue, closed⟩ (it :: rest) = c.Run h ⟨queue, closed⟩ rest) ∧
    (∀ (h : Heap) (photos : PhotoChan) (sched : List Iteration),
      (∀ it ∈ sched, it.atCall.done = true) →
      ∃ s, c.Run h photos sched = some s ∧ s.photoHeap = h ∧ s.pushedAfterSignal = []) ∧
    (∀ (h : Heap) (photos : PhotoChan) (sched : List Iteration),
      Reachable h → StaysCancelled sched →
      ∃ s, c.Run h photos sched = some s ∧ s.pushedAfterSignal.length ≤ 1) := by
  refine ⟨fun d h photos it rest => run_takes_ctxDone d h photos it rest, ?_, ?_, ?_⟩
  · intro h photo queue closed it rest hd hsel
    obtain ⟨e, he⟩ := hon (geocodingRequest photo)
    have hg := getGeocoding_error c ⟨true⟩ h photo e he
    rw [← context_eq it.atCall true hd] at hg
    rw [run_receives c h h photo queue closed it rest _ hsel hg]
    cases c.Run h ⟨queue, closed⟩ rest <;> simp
  · intro h photos sched hall
    induction sched generalizing photos with
    | nil => exact ⟨_, rfl, rfl, rfl⟩
    | cons it rest ih =>
      have hctx : it.atCall = ⟨true⟩ := context_eq _ _ (hall it (List.mem_cons_self _ _))
      obtain ⟨queue, closed⟩ := photos
      cases queue with
      | nil =>
        rw [Consumer.Run]
        cases closed <;> cases it.atSelect.done <;> cases it.prefer <;> simp
      | cons photo queue =>
        by_cases hsel : it.atSelect.done = false ∨ it.prefer = SelectCase.photos
        · obtain ⟨e, he⟩ := hon (geocodingRequest photo)
          have hg := getGeocoding_error c ⟨true⟩ h photo e he
          rw [← hctx] at hg
          obtain ⟨s, hs, hh, hlog⟩ := ih ⟨queue, closed⟩
            (fun x hx => hall x (List.mem_cons_of_mem _ hx))
          rw [run_receives c h h photo queue closed it rest _ hsel hg, hs]
          exact ⟨s, by simp, hh, hlog⟩
        · have hd : it.atSelect.done = true := by
            cases hx : it.atSelect.done
            · exact absurd (Or.inl hx) hsel
            · rfl
          have hp : it.prefer = SelectCase.ctxDone := by
            cases hx : it.prefer
            · rfl
            · exact absurd (Or.inr hx) hsel
          exact ⟨_, run_takes_ctxDone c h _ it rest hd hp, rfl, rfl⟩
  · intro h photos sched hr hst
    exact run_in_flight c hon sched h photos (reachable_ordered h hr) hst

/-- Witness for C20: a client that returns "context canceled" once the context is
done; with the signal raised and a photo waiting, the `select` takes the photo and the
worker inserts nothing. -/
theorem cancellation_witness :
    (∀ req, ∃ e,
      (cancellableClient responseWithPostcode).client ⟨true⟩ req = Except.error e) ∧
    (cancellableClient responseWithPostcode).Run ⟨[]⟩ ⟨[rawPhoto], false⟩
        [⟨⟨true⟩, SelectCase.photos, ⟨true⟩, ⟨true⟩⟩]
      = some ⟨⟨[]⟩, ⟨[], false⟩, false, []⟩ ∧
    ((∀ (d : Consumer) (h : Heap) (photos : PhotoChan) (it : Iteration)
        (rest : List Iteration),
      it.atSelect.done = true → it.prefer = SelectCase.ctxDone →
      d.Run h photos (it :: rest) = some ⟨h, photos, true, []⟩) ∧
    (∀ (h : Heap) (photo : Photo) (queue : List Photo) (closed : Bool) (it : Iteration)
        (rest : List Iteration),
      it.atCall.done = true → (it.atSelect.done = false ∨ it.prefer = SelectCase.photos) →
      (cancellableClient responseWithPostcode).Run h ⟨photo :: queue, closed⟩ (it :: rest)
        = (cancellableClient responseWithPostcode).Run h ⟨queue, closed⟩ rest) ∧
    (∀ (h : Heap) (photos : PhotoChan) (sched : List Iteration),
      (∀ it ∈ sched, it.atCall.done = true) →
      ∃ s, (cancellableClient responseWithPostcode).Run h photos sched = some s ∧
        s.photoHeap = h ∧ s.pushedAfterSignal = []) ∧
    (∀ (h : Heap) (photos : PhotoChan) (sched : List Iteration),
      Reachable h → StaysCancelled sched →
      ∃ s, (cancellableClient responseWithPostcode).Run h photos sched = some s ∧
        s.pushedAfterSignal.length ≤ 1)) :=
  have hon : ∀ req, ∃ e,
      (cancellableClient responseWithPostcode).client ⟨true⟩ req = Except.error e :=
    fun _ => ⟨"context canceled", rfl⟩
  ⟨hon, by decide, cancellation (cancellableClient responseWithPostcode) hon⟩

/-- C20 as stated fails, in two ways.  With the signal already raised and a photo waiting
in the channel the `select` may take the stream item, and with a client that answers
whatever the context (like the mock of the tests) the worker then inserts the record.
And with a client that does fail on a cancelled context, a signal raised after the
client was called and before `photoHeap.Push` changes nothing: the client's answer is
used and the record is inserted after the signal. -/
theorem cancellation_any_scheduling_fails :
    StaysCancelled [⟨⟨true⟩, SelectCase.photos, ⟨true⟩, ⟨true⟩⟩] ∧
    (mockClient responseWithPostcode).Run ⟨[]⟩ ⟨[rawPhoto], false⟩
        [⟨⟨true⟩, SelectCase.photos, ⟨true⟩, ⟨true⟩⟩]
      = some ⟨⟨[{ rawPhoto with Addresses := ["London"] }]⟩, ⟨[], false⟩, false, [rawPhoto]⟩ ∧
    ¬ NoInsertAfterCancel (mockClient responseWithPostcode) ∧
    StaysCancelled [⟨⟨false⟩, SelectCase.photos, ⟨false⟩, ⟨true⟩⟩] ∧
    (cancellableClient responseWithPostcode).Run ⟨[]⟩ ⟨[rawPhoto], false⟩
        [⟨⟨false⟩, SelectCase.photos, ⟨false⟩, ⟨true⟩⟩]
      = some ⟨⟨[{ rawPhoto with Addresses := ["London"] }]⟩, ⟨[], false⟩, false, [rawPhoto]⟩ ∧
    ¬ NoInsertAfterCancel (cancellableClient responseWithPostcode) := by
  have hr : Reachable ⟨[]⟩ := ⟨⟨[]⟩, [], rfl, rfl⟩
  have s1 : StaysCancelled [⟨⟨true⟩, SelectCase.photos, ⟨true⟩, ⟨true⟩⟩] := by
    unfold StaysCancelled; decide
  have s2 : StaysCancelled [⟨⟨false⟩, SelectCase.photos, ⟨false⟩, ⟨true⟩⟩] := by
    unfold StaysCancelled; decide
  have c1 : (mockClient responseWithPostcode).Run ⟨[]⟩ ⟨[rawPhoto], false⟩
      [⟨⟨true⟩, SelectCase.photos, ⟨true⟩, ⟨true⟩⟩]
      = some ⟨⟨[{ rawPhoto with Addresses := ["London"] }]⟩, ⟨[], false⟩, false,
          [rawPhoto]⟩ := by
    decide
  have c2 : (cancellableClient responseWithPostcode).Run ⟨[]⟩ ⟨[rawPhoto], false⟩
      [⟨⟨false⟩, SelectCase.photos, ⟨false⟩, ⟨true⟩⟩]
      = some ⟨⟨[{ rawPhoto with Addresses := ["London"] }]⟩, ⟨[], false⟩, false,
          [rawPhoto]⟩ := by
    decide
  refine ⟨s1, c1, ?_, s2, c2, ?_⟩
  · intro hno
    obtain ⟨s, hs, hlog⟩ := hno ⟨[]⟩ ⟨[rawPhoto], false⟩ _ hr s1
    rw [c1] at hs
    cases hs
    exact absurd hlog (by decide)
  · intro hno
    obtain ⟨s, hs, hlog⟩ := hno ⟨[]⟩ ⟨[rawPhoto], false⟩ _ hr s2
    rw [c2] at hs
    cases hs
    exact absurd hlog (by decide)

/-! ## Claims about the record source -/

theorem readCSVLoop_cons (P : Parsers) (i : Nat) (r : CsvRead) (rest : List CsvRead) :
    ReadCSVLoop P neverDone i (r :: rest)
      = match recordOfRow P r with
        | none => ReadCSVLoop P neverDone (i + 1) rest
        | some p => p :: ReadCSVLoop P neverDone (i + 1) rest := by
  rw [ReadCSVLoop]
  unfold recordOfRow
  simp only [neverDone, Bool.false_eq_true, if_false]
  rcases hrow : r.row with _ | ⟨f0, _ | ⟨f1, _ | ⟨f2, _ | ⟨f3, l⟩⟩⟩⟩
  · simp
  · simp
  · simp
  · simp only [List.length_cons, List.length_nil, List.getD_cons_zero, List.getD_cons_succ]
    cases P.ParseAny f0 <;> cases P.ParseFloat f1 <;> cases P.ParseFloat f2 <;> simp
  · simp

theorem readCSVLoop_neverDone (P : Parsers) (reads : List CsvRead) :
    ∀ i, ReadCSVLoop P neverDone i reads = reads.filterMap (recordOfRow P) := by
  induction reads with
  | nil => intro i; rfl
  | cons r rest ih =>
    intro i
    rw [readCSVLoop_cons, List.filterMap_cons, ih]
    cases recordOfRow P r <;> rfl

/-- C17: for every sequence of input rows, with no cancellation, the records `ReadCSV`
emits are exactly, in input order, the records of the rows that have 3 fields all of
which parse (timestamp, latitude and longitude from fields 1, 2 and 3, empty place set);
a row with another field count or with an unparseable field emits nothing and the rows
after it are emitted as they would be without it. -/
theorem input_filtering (P : Parsers) (reads : List CsvRead) :
    ReadCSV P neverDone reads = reads.filterMap (recordOfRow P) ∧
    (∀ (before after : List CsvRead) (r : CsvRead),
      (r.row.length ≠ 3 ∨ P.ParseAny (r.row.getD 0 "") = none ∨
        P.ParseFloat (r.row.getD 1 "") = none ∨ P.ParseFloat (r.row.getD 2 "") = none) →
      ReadCSV P neverDone (before ++ r :: after)
        = ReadCSV P neverDone before ++ ReadCSV P neverDone after) ∧
    ReadCSV testParsers neverDone
        [⟨["2020-03-30 14:12:19", "40.728808"], false⟩,
         ⟨["not_a_time", "40.728808", "-73.996106"], true⟩,
         ⟨["2020-03-30 14:12:19", "not_a_float", "-73.996106"], true⟩,
         ⟨["2020-03-30 14:12:19", "40.728808", "-73.996106"], true⟩]
      = [⟨⟨1585577539, 0, 0⟩, ⟨9⟩, ⟨10⟩, []⟩] := by
  refine ⟨readCSVLoop_neverDone P reads 0, ?_, by decide⟩
  intro before after r hbad
  unfold ReadCSV
  rw [readCSVLoop_neverDone, readCSVLoop_neverDone, readCSVLoop_neverDone,
    List.filterMap_append, List.filterMap_cons]
  have hnone : recordOfRow P r = none := by
    unfold recordOfRow
    by_cases hl : r.row.length = 3
    · rw [if_pos hl]
      rcases hbad with h | h | h | h
      · exact absurd hl h
      · rw [h]
      · rw [h]; cases P.ParseAny (r.row.getD 0 "") <;> rfl
      · rw [h]
        cases P.ParseAny (r.row.getD 0 "") <;> cases P.ParseFloat (r.row.getD 1 "") <;> rfl
    · rw [if_neg hl]
  rw [hnone]

/-! ## Claims about concurrent callers of the heap -/

theorem set_decomp {α : Type} (gs : List α) : ∀ (g : Nat) (gr : α), gs[g]? = some gr →
    ∃ l1 l2, gs = l1 ++ gr :: l2 ∧ ∀ x, gs.set g x = l1 ++ x :: l2 := by
  induction gs with
  | nil => intro g gr h; simp at h
  | cons a gs ih =>
    intro g gr h
    cases g with
    | zero =>
      simp only [List.getElem?_cons_zero, Option.some.injEq] at h
      subst h
      exact ⟨[], gs, rfl, fun x => rfl⟩
    | succ g =>
      simp only [List.getElem?_cons_succ] at h
      obtain ⟨l1, l2, e, hs⟩ := ih g gr h
      refine ⟨a :: l1, l2, by rw [e]; rfl, fun x => ?_⟩
      rw [List.set_cons_succ, hs x]
      rfl

theorem mem_of_getElem?_some {α : Type} (gs : List α) (g : Nat) (gr : α)
    (h : gs[g]? = some gr) : gr ∈ gs := by
  obtain ⟨l1, l2, e, _⟩ := set_decomp gs g gr h
  rw [e]
  simp

theorem pendingPhotos_split (l1 l2 : List Goroutine) (gr : Goroutine) :
    pendingPhotos (l1 ++ gr :: l2)
      = pendingPhotos l1 ++ (gr.calls.filterMap Op.photo ++ pendingPhotos l2) := by
  simp [pendingPhotos, List.flatMap_append, List.flatMap_cons]

theorem startPool_inv (ws : List (List Photo)) : PoolInv ws.flatten (startPool ws) := by
  refine ⟨rfl, ?_, heapOrdered_nil, ?_, ?_⟩
  · intro g gr hg found hin
    simp only [startPool, List.getElem?_map, Option.map_eq_some'] at hg
    obtain ⟨w, _, e⟩ := hg
    subst e
    simp at hin
  · intro gr hgr op hop
    simp only [startPool, List.mem_map] at hgr
    obtain ⟨w, _, e⟩ := hgr
    subst e
    simp only [List.mem_map] at hop
    obtain ⟨p, _, e⟩ := hop
    exact ⟨p, e.symm⟩
  · have : pendingPhotos (startPool ws).goroutines = ws.flatten := by
      simp only [startPool, pendingPhotos]
      induction ws with
      | nil => rfl
      | cons w ws ih =>
        simp only [List.map_cons, List.flatMap_cons, List.flatten_cons, ih]
        congr 1
        induction w with
        | nil => rfl
        | cons p w ihw => simp [Op.photo, ihw]
    rw [this]
    exact List.Perm.refl _

theorem step_inv (all : List Photo) (s : Pool) (e : Event) (inv : PoolInv all s) :
    ∃ s1, s.step e = some s1 ∧ PoolInv all s1 := by
  cases e with
  | enter g =>
    cases hg : s.goroutines[g]? with
    | none => exact ⟨s, by simp [Pool.step, hg], inv⟩
    | some gr =>
      cases hin : gr.inside with
      | some found => exact ⟨s, by simp [Pool.step, hg, hin], inv⟩
      | none =>
        cases hc : gr.calls with
        | nil => exact ⟨s, by simp [Pool.step, hg, hin, hc], inv⟩
        | cons op rest =>
          have hmem : gr ∈ s.goroutines := mem_of_getElem?_some _ _ _ hg
          obtain ⟨p, hp⟩ := inv.pushes gr hmem op (by rw [hc]; exact List.mem_cons_self _ _)
          subst hp
          by_cases hcan : s.mu.canAcquire LockKind.Lock = true
          · refine ⟨_, by simp [Pool.step, hg, hin, hc, Heap.lockOf, hcan]; rfl, ?_⟩
            have hw : s.mu.writer = none := by
              simp only [RWMutex.canAcquire, Bool.and_eq_true, Option.isNone_iff_eq_none]
                at hcan
              exact hcan.1
            obtain ⟨l1, l2, e1, hset⟩ := set_decomp s.goroutines g gr hg
            refine ⟨inv.noReaders, ?_, inv.ordered, ?_, ?_⟩
            · intro g1 gr1 hg1 found hf
              simp only [List.getElem?_set] at hg1
              by_cases hgg : g = g1
              · subst hgg
                simp only [if_true] at hg1
                split_ifs at hg1
                · simp only [Option.some.injEq] at hg1
                  subst hg1
                  simp only [Option.some.injEq] at hf
                  exact ⟨rfl, hf.symm⟩
              · simp only [hgg, if_false] at hg1
                have := (inv.holder g1 gr1 hg1 found hf).1
                rw [hw] at this
                simp at this
            · intro gr1 hgr1 op hop
              simp only [hset, List.mem_append, List.mem_cons] at hgr1
              have hgs : ∀ x, x ∈ l1 ∨ x = gr ∨ x ∈ l2 → x ∈ s.goroutines := by
                intro x hx; rw [e1]; simpa using hx
              rcases hgr1 with h | h | h
              · exact inv.pushes gr1 (hgs _ (Or.inl h)) op hop
              · subst h
                exact inv.pushes gr hmem op (by rw [hc]; exact hop)
              · exact inv.pushes gr1 (hgs _ (Or.inr (Or.inr h))) op hop
            · have hr := inv.records
              rw [e1, pendingPhotos_split, hc] at hr
              simp only [hset, pendingPhotos_split]
              exact hr
          · exact ⟨s, by simp [Pool.step, hg, hin, hc, Heap.lockOf, hcan], inv⟩
  | leave g =>
    cases hg : s.goroutines[g]? with
    | none => exact ⟨s, by simp [Pool.step, hg], inv⟩
    | some gr =>
      cases hin : gr.inside with
      | none => exact ⟨s, by simp [Pool.step, hg, hin], inv⟩
      | some found =>
        cases hc : gr.calls with
        | nil => exact ⟨s, by simp [Pool.step, hg, hin, hc], inv⟩
        | cons op rest =>
          have hmem : gr ∈ s.goroutines := mem_of_getElem?_some _ _ _ hg
          obtain ⟨p, hp⟩ := inv.pushes gr hmem op (by rw [hc]; exact List.mem_cons_self _ _)
          subst hp
          obtain ⟨hw, hfound⟩ := inv.holder g gr hg found hin
          subst hfound
          obtain ⟨h1, e1, p1, o1⟩ := heapPush_spec s.heap p inv.ordered
          obtain ⟨l1, l2, e2, hset⟩ := set_decomp s.goroutines g gr hg
          refine ⟨_, by simp [Pool.step, hg, hin, hc, Heap.lockOf, runOp, e1]; rfl, ?_⟩
          refine ⟨inv.noReaders, ?_, o1, ?_, ?_⟩
          · intro g1 gr1 hg1 found1 hf
            simp only [List.getElem?_set] at hg1
            by_cases hgg : g = g1
            · subst hgg
              simp only [if_true] at hg1
              split_ifs at hg1
              · simp only [Option.some.injEq] at hg1
                subst hg1
                simp at hf
            · simp only [hgg, if_false] at hg1
              have := (inv.holder g1 gr1 hg1 found1 hf).1
              rw [hw] at this
              simp only [Option.some.injEq] at this
              exact absurd this hgg
          · intro gr1 hgr1 op hop
            simp only [hset, List.mem_append, List.mem_cons] at hgr1
            have hgs : ∀ x, x ∈ l1 ∨ x = gr ∨ x ∈ l2 → x ∈ s.goroutines := by
              intro x hx; rw [e2]; simpa using hx
            rcases hgr1 with h | h | h
            · exact inv.pushes gr1 (hgs _ (Or.inl h)) op hop
            · subst h
              exact inv.pushes gr hmem op (by rw [hc]; exact List.mem_cons_of_mem _ hop)
            · exact inv.pushes gr1 (hgs _ (Or.inr (Or.inr h))) op hop
          · have hr := inv.records
            rw [e2, pendingPhotos_split, hc] at hr
            simp only [List.filterMap_cons, Op.photo] at hr
            simp only [hset, pendingPhotos_split]
            refine List.Perm.trans ?_ hr
            refine (List.Perm.append_right _ p1).trans ?_
            rw [← List.append_assoc s.heap.photoHeap, List.cons_append,
              ← List.append_assoc s.heap.photoHeap]
            exact List.perm_middle.symm

theorem run_inv (all : List Photo) (sched : List Event) :
    ∀ s : Pool, PoolInv all s → ∃ s1, Pool.run s sched = some s1 ∧ PoolInv all s1 := by
  induction sched with
  | nil => intro s inv; exact ⟨s, rfl, inv⟩
  | cons e es ih =>
    intro s inv
    obtain ⟨s1, e1, inv1⟩ := step_inv all s e inv
    obtain ⟨s2, e2, inv2⟩ := ih s1 inv1
    exact ⟨s2, by simp [Pool.run, e1, e2], inv2⟩

theorem pendingPhotos_done (s : Pool) (hd : poolDone s) : pendingPhotos s.goroutines = [] := by
  unfold pendingPhotos
  rw [List.flatMap_eq_nil_iff]
  intro gr hgr
  rw [(hd gr hgr).1]
  rfl

theorem length_flatten_const (K : Nat) (ws : List (List Photo))
    (hK : ∀ w ∈ ws, w.length = K) : ws.flatten.length = ws.length * K := by
  induction ws with
  | nil => simp
  | cons w ws ih =>
    simp only [List.flatten_cons, List.length_append, List.length_cons]
    rw [ih (fun x hx => hK x (List.mem_cons_of_mem _ hx)), hK w (List.mem_cons_self _ _)]
    ring

/-- C18 (the code at the failing input): `Pop` takes the read lock and `Push` the write
lock.  A call holding the write lock keeps every other call out, and a `Pop` in progress
keeps a `Push` out, but it lets another `Pop` in: with two goroutines calling `Pop` on
one heap, both are inside the critical section at the same time, while of two
goroutines calling `Push` the second waits. -/
theorem two_pops_overlap :
    Heap.lockOf Op.pop = LockKind.RLock ∧
    (∀ p, Heap.lockOf (Op.push p) = LockKind.Lock) ∧
    (∀ (mu : RWMutex) (g : Nat) (k : LockKind),
      (mu.acquire g LockKind.Lock).canAcquire k = false) ∧
    (∀ (mu : RWMutex) (g : Nat),
      (mu.acquire g LockKind.RLock).canAcquire LockKind.Lock = false) ∧
    (∀ (mu : RWMutex) (g : Nat), mu.canAcquire LockKind.RLock = true →
      (mu.acquire g LockKind.RLock).canAcquire LockKind.RLock = true) ∧
    (Pool.run twoPoppers [Event.enter 0, Event.enter 1]).map insiders = some [true, true] ∧
    (Pool.run (startPool [[photoEarly], [photoLate]]) [Event.enter 0, Event.enter 1]).map
      insiders = some [true, false] := by
  refine ⟨rfl, fun _ => rfl, ?_, ?_, ?_, by decide, by decide⟩
  · intro mu g k
    cases k <;> simp [RWMutex.acquire, RWMutex.canAcquire]
  · intro mu g
    simp [RWMutex.acquire, RWMutex.canAcquire]
  · intro mu g h
    simpa [RWMutex.acquire, RWMutex.canAcquire] using h

/-- C19: M workers that each push K records onto one new heap, every `Push` taking the
write lock of the mutex: for every schedule of the workers the run does not panic, and
when all workers have made their calls exactly M×K calls of `Pop` succeed, they return
the records given to the workers with no record lost or duplicated, and the next `Pop`
returns `ErrEmptyHeap`. -/
theorem concurrent_pushes (M K : Nat) (ws : List (List Photo)) (hM : ws.length = M)
    (hK : ∀ w ∈ ws, w.length = K) (sched : List Event) :
    ∃ s, Pool.run (startPool ws) sched = some s ∧
      (poolDone s →
        ∃ (outs : List Photo) (hEnd : Heap),
          popN (M * K) s.heap = some (outs.map (fun r => (r, none)), hEnd) ∧
          outs.Perm ws.flatten ∧
          Heap.Pop hEnd = some ((Photo.zero, some HeapError.ErrEmptyHeap), hEnd)) := by
  obtain ⟨s, e, inv⟩ := run_inv ws.flatten sched (startPool ws) (startPool_inv ws)
  refine ⟨s, e, fun hd => ?_⟩
  have hrec := inv.records
  rw [pendingPhotos_done s hd, List.append_nil] at hrec
  have hlen : s.heap.photoHeap.length = M * K := by
    rw [hrec.length_eq, length_flatten_const K ws hK, hM]
  obtain ⟨outs, e1, p1, _⟩ := drain_spec (M * K) s.heap inv.ordered hlen
  exact ⟨outs, ⟨[]⟩, e1, p1.trans hrec, heapPop_empty _ rfl⟩

/-- Witness for C19: two workers with two records each, the second worker trying to
enter while the first is inside; the schedule completes all four pushes. -/
theorem concurrent_pushes_witness :
    [[photoEarly, photoLate], [fixtureMorning, fixtureNoon]].length = 2 ∧
    (∀ w ∈ [[photoEarly, photoLate], [fixtureMorning, fixtureNoon]], w.length = 2) ∧
    (∃ s, Pool.run (startPool [[photoEarly, photoLate], [fixtureMorning, fixtureNoon]])
        [Event.enter 0, Event.enter 1, Event.leave 0, Event.enter 1, Event.leave 1,
         Event.enter 1, Event.enter 0, Event.leave 1, Event.enter 0, Event.leave 0] = some s ∧
      (poolDone s →
        ∃ (outs : List Photo) (hEnd : Heap),
          popN (2 * 2) s.heap = some (outs.map (fun r => (r, none)), hEnd) ∧
          outs.Perm [[photoEarly, photoLate], [fixtureMorning, fixtureNoon]].flatten ∧
          Heap.Pop hEnd = some ((Photo.zero, some HeapError.ErrEmptyHeap), hEnd))) ∧
    (∃ s, Pool.run (startPool [[photoEarly, photoLate], [fixtureMorning, fixtureNoon]])
        [Event.enter 0, Event.enter 1, Event.leave 0, Event.enter 1, Event.leave 1,
         Event.enter 1, Event.enter 0, Event.leave 1, Event.enter 0, Event.leave 0] = some s ∧
      poolDone s) :=
  ⟨rfl, by decide,
    concurrent_pushes 2 2 [[photoEarly, photoLate], [fixtureMorning, fixtureNoon]] rfl
      (by decide) _,
    ⟨_, rfl, by unfold poolDone; decide⟩⟩

/-! ## The heap invariant, the drain of `Group` and the frame of `getGeocoding` -/

theorem minHeapAt_unix_iff (d : PhotoHeap) : MinHeapAt Time.Unix d ↔ heapOrdered d :=
  Iff.rfl

theorem push_later_then_earlier (later earlier : Photo)
    (hlt : earlier.Timestamp.Unix < later.Timestamp.Unix) :
    pushAll ⟨[]⟩ [later, earlier] = some ⟨[earlier, later]⟩ := by
  have h1 : Heap.Push ⟨[]⟩ later = some ⟨[later]⟩ := by
    simp [Heap.Push, ContainerHeap.Push, ContainerHeap.up, ContainerHeap.upLoop,
      PhotoHeap.Push, PhotoHeap.Len]
  have h2 : Heap.Push ⟨[later]⟩ earlier = some ⟨[earlier, later]⟩ := by
    simp [Heap.Push, ContainerHeap.Push, ContainerHeap.up, ContainerHeap.upLoop,
      PhotoHeap.Push, PhotoHeap.Len, PhotoHeap.Less, PhotoHeap.Swap, hlt]
  simp [pushAll, h1, h2]

/-- The invariant the heap does keep, in the key `Less` compares: every heap state reachable from `New()` by any sequence of `Push` and
`Pop` satisfies the binary min-heap property on the underlying array for the key
`Timestamp.Unix()`: for every index i > 0 the whole-second Unix time at i is not smaller
than the one at its parent (i - 1) / 2, so the element at index 0 has a minimal Unix
time; in particular pushing a record and then a record of an earlier Unix second onto an
empty heap leaves the array as [earlier, later], as in the test "pushed unsorted". -/
theorem heap_invariant_unix (h : Heap) (hr : Reachable h) :
    MinHeapAt Time.Unix h.photoHeap ∧ RootIsMin Time.Unix h.photoHeap ∧
    (∀ later earlier : Photo, earlier.Timestamp.Unix < later.Timestamp.Unix →
      pushAll ⟨[]⟩ [later, earlier] = some ⟨[earlier, later]⟩) ∧
    pushAll ⟨[]⟩ [unsortedLater, unsortedEarlier] = some ⟨[unsortedEarlier, unsortedLater]⟩ := by
  have o := reachable_ordered h hr
  refine ⟨o, ?_, push_later_then_earlier, by decide⟩
  intro y hy
  obtain ⟨k, hk, ek⟩ := keyAt_of_mem h.photoHeap y hy
  have := root_min h.photoHeap o k hk
  rw [ek] at this
  exact this

/-- An instance of `heap_invariant_unix`: the heap left by pushing the later fixture and then the earlier
one. -/
theorem heap_invariant_unix_witness :
    Reachable ⟨[unsortedEarlier, unsortedLater]⟩ ∧
    (MinHeapAt Time.Unix (Heap.mk [unsortedEarlier, unsortedLater]).photoHeap ∧
    RootIsMin Time.Unix (Heap.mk [unsortedEarlier, unsortedLater]).photoHeap ∧
    (∀ later earlier : Photo, earlier.Timestamp.Unix < later.Timestamp.Unix →
      pushAll ⟨[]⟩ [later, earlier] = some ⟨[earlier, later]⟩) ∧
    pushAll ⟨[]⟩ [unsortedLater, unsortedEarlier]
      = some ⟨[unsortedEarlier, unsortedLater]⟩) :=
  have hr : Reachable ⟨[unsortedEarlier, unsortedLater]⟩ :=
    ⟨⟨[]⟩, [Op.push unsortedLater, Op.push unsortedEarlier], rfl, by decide⟩
  ⟨hr, heap_invariant_unix _ hr⟩

/-- C21 (the code at the failing input): pushing the 10:10:10.9 photo and then the
earlier 10:10:10.1 photo onto the empty heap leaves the array as [later, earlier]; that
reachable heap has, at index 1, a timestamp smaller than the one at its parent, and its
element at index 0 is not a minimum. -/
theorem heap_invariant_full_precision_fails :
    photoEarly.Timestamp.nanos < photoLate.Timestamp.nanos ∧
    pushAll ⟨[]⟩ [photoLate, photoEarly] = some ⟨[photoLate, photoEarly]⟩ ∧
    Reachable ⟨[photoLate, photoEarly]⟩ ∧
    ¬ MinHeapAt Time.nanos (Heap.mk [photoLate, photoEarly]).photoHeap ∧
    ¬ RootIsMin Time.nanos (Heap.mk [photoLate, photoEarly]).photoHeap := by
  refine ⟨by decide, by decide,
    ⟨⟨[]⟩, [Op.push photoLate, Op.push photoEarly], rfl, by decide⟩, ?_, ?_⟩
  · intro hm
    have := hm 1 (by decide) (by decide)
    revert this
    decide
  · intro hm
    have := hm photoEarly (by simp)
    revert this
    decide

theorem groupLoop_exact (n : Nat) : ∀ (h : Heap), heapOrdered h.photoHeap →
    h.photoHeap.length = n →
    ∃ outs : List Photo,
      popN (n + 1) h
        = some (outs.map (fun r => (r, none))
            ++ [(Photo.zero, some HeapError.ErrEmptyHeap)], ⟨[]⟩) ∧
      outs.length = n ∧ outs.Perm h.photoHeap ∧
      ∀ (fuel : Nat) (locations : Locations),
        GroupLoop fuel h locations
          = if fuel ≤ n then none else some (groupPhotos outs locations, ⟨[]⟩) := by
  induction n with
  | zero =>
    intro h _ hl
    have he : h.photoHeap = [] := List.length_eq_zero.mp hl
    cases h
    simp only at he
    subst he
    refine ⟨[], rfl, rfl, List.Perm.refl _, ?_⟩
    intro fuel locations
    cases fuel with
    | zero => rfl
    | succ f => rfl
  | succ n ih =>
    intro h o hl
    have hne : h.photoHeap ≠ [] := by
      intro he; rw [he] at hl; simp at hl
    obtain ⟨r, h1, e, p, o1, _⟩ := heapPop_spec h hne o
    have hl1 : h1.photoHeap.length = n := by
      have := p.length_eq
      simp only [List.length_cons] at this
      omega
    obtain ⟨outs, e1, hlen, p1, hg⟩ := ih h1 o1 hl1
    refine ⟨r :: outs, ?_, by simp [hlen], (List.Perm.cons r p1).trans p.symm, ?_⟩
    · rw [popN]
      simp only [e, e1]
      rfl
    · intro fuel locations
      cases fuel with
      | zero => rfl
      | succ f =>
        rw [GroupLoop]
        simp only [e, hg f (groupPhoto r locations), Nat.add_le_add_iff_right]
        rfl

/-- C22: for every reachable heap holding N records, `Group` returns: the loop makes
exactly N + 1 calls of `Pop` (it does not finish within N iterations and finishes
within any larger number), of which the first N succeed and the last returns
`ErrEmptyHeap`; and it leaves the heap empty, so that a `Pop` after `Group` returns
`ErrEmptyHeap`. -/
theorem group_drains (h : Heap) (hr : Reachable h) :
    ∃ (outs : List Photo) (m : Locations),
      outs.length = h.photoHeap.length ∧
      popN (h.photoHeap.length + 1) h
        = some (outs.map (fun r => (r, none))
            ++ [(Photo.zero, some HeapError.ErrEmptyHeap)], ⟨[]⟩) ∧
      Group h = some (m, ⟨[]⟩) ∧
      (∀ (fuel : Nat) (locations : Locations),
        fuel ≤ h.photoHeap.length → GroupLoop fuel h locations = none) ∧
      (∀ (fuel : Nat) (locations : Locations),
        h.photoHeap.length < fuel →
        GroupLoop fuel h locations = some (groupPhotos outs locations, ⟨[]⟩)) ∧
      Heap.Pop ⟨[]⟩ = some ((Photo.zero, some HeapError.ErrEmptyHeap), ⟨[]⟩) := by
  obtain ⟨outs, e, hlen, _, hg⟩ :=
    groupLoop_exact h.photoHeap.length h (reachable_ordered h hr) rfl
  refine ⟨outs, groupPhotos outs noLocations, hlen, e, ?_, ?_, ?_, rfl⟩
  · unfold Group PhotoHeap.Len
    rw [hg]
    simp
    rfl
  · intro fuel locations hf
    rw [hg, if_pos hf]
  · intro fuel locations hf
    rw [hg, if_neg (by omega)]

/-- Witness for C22: the heap of the test "grouping by same location". -/
theorem group_drains_witness :
    Reachable ⟨[fixtureMorning, fixtureNoon]⟩ ∧
    ∃ (outs : List Photo) (m : Locations),
      outs.length = (Heap.mk [fixtureMorning, fixtureNoon]).photoHeap.length ∧
      popN ((Heap.mk [fixtureMorning, fixtureNoon]).photoHeap.length + 1)
          ⟨[fixtureMorning, fixtureNoon]⟩
        = some (outs.map (fun r => (r, none))
            ++ [(Photo.zero, some HeapError.ErrEmptyHeap)], ⟨[]⟩) ∧
      Group ⟨[fixtureMorning, fixtureNoon]⟩ = some (m, ⟨[]⟩) ∧
      (∀ (fuel : Nat) (locations : Locations),
        fuel ≤ (Heap.mk [fixtureMorning, fixtureNoon]).photoHeap.length →
        GroupLoop fuel ⟨[fixtureMorning, fixtureNoon]⟩ locations = none) ∧
      (∀ (fuel : Nat) (locations : Locations),
        (Heap.mk [fixtureMorning, fixtureNoon]).photoHeap.length < fuel →
        GroupLoop fuel ⟨[fixtureMorning, fixtureNoon]⟩ locations
          = some (groupPhotos outs locations, ⟨[]⟩)) ∧
      Heap.Pop ⟨[]⟩ = some ((Photo.zero, some HeapError.ErrEmptyHeap), ⟨[]⟩) :=
  have hr : Reachable ⟨[fixtureMorning, fixtureNoon]⟩ :=
    ⟨⟨[]⟩, [Op.push fixtureNoon, Op.push fixtureMorning], rfl, by decide⟩
  ⟨hr, group_drains _ hr⟩

/-- C23: for every input record and every successful non-empty resolver response, on a
reachable heap, `getGeocoding` returns nil and pushes exactly one record, whose
timestamp, latitude and longitude are those of the input record and whose place set is
the resolved set; the other records of the heap are the same as before.  For the
response of the test "adds photo to the heap" the resolved set is London, Greater
London, England, United Kingdom. -/
theorem enriched_record (c : Consumer) (ctx : Context) (h : Heap) (photo : Photo)
    (results : List GeocodingResult) (hr : Reachable h)
    (hc : c.client ctx (geocodingRequest photo) = Except.ok results) (hne : results ≠ []) :
    (∃ h1, c.getGeocoding ctx h photo = some (none, h1) ∧
      h1.photoHeap.length = h.photoHeap.length + 1 ∧
      (h1.photoHeap : Multiset Photo)
        = (⟨photo.Timestamp, photo.Latitude, photo.Longitude, collectAddresses results⟩ : Photo)
          ::ₘ (h.photoHeap : Multiset Photo)) ∧
    collectAddresses responseLondon
      = ["London", "Greater London", "England", "United Kingdom"] := by
  refine ⟨?_, by decide⟩
  obtain ⟨h1, e, p, _⟩ := getGeocoding_ok c ctx h photo results (reachable_ordered h hr) hc hne
  refine ⟨h1, e, by simpa using p.length_eq, ?_⟩
  rw [Multiset.cons_coe]
  exact Multiset.coe_eq_coe.mpr p

/-- Witness for C23: the photo and the response of the test "adds photo to the heap",
on the new heap. -/
theorem enriched_record_witness :
    Reachable ⟨[]⟩ ∧
    (mockClient responseLondon).client ⟨false⟩ (geocodingRequest rawPhoto)
      = Except.ok responseLondon ∧
    responseLondon ≠ [] ∧
    ((∃ h1, (mockClient responseLondon).getGeocoding ⟨false⟩ ⟨[]⟩ rawPhoto = some (none, h1) ∧
      h1.photoHeap.length = (Heap.mk []).photoHeap.length + 1 ∧
      (h1.photoHeap : Multiset Photo)
        = (⟨rawPhoto.Timestamp, rawPhoto.Latitude, rawPhoto.Longitude,
            collectAddresses responseLondon⟩ : Photo)
          ::ₘ ((Heap.mk []).photoHeap : Multiset Photo)) ∧
    collectAddresses responseLondon
      = ["London", "Greater London", "England", "United Kingdom"]) :=
  have hr : Reachable ⟨[]⟩ := ⟨⟨[]⟩, [], rfl, rfl⟩
  ⟨hr, rfl, by decide,
    enriched_record (mockClient responseLondon) ⟨false⟩ ⟨[]⟩ rawPhoto responseLondon
      hr rfl (by decide)⟩

/-! ## Well-formed visits and the order of arrival -/

/-- What `Group` does guarantee about the interval of a visit: for every reachable heap and every visit `Group` returns, both the
start and the end are timestamps of records whose place set contains the place of the
visit, and the start is less than or equal to the end in whole-second Unix time (the
end is never a second or more before the start). -/
theorem visits_well_formed_unix (h : Heap) (hr : Reachable h) :
    WellFormedVisits Time.Unix h := by
  obtain ⟨outs, _, eg, perm, s⟩ := group_spec h (reachable_ordered h hr)
  refine ⟨_, _, eg, ?_⟩
  intro p v hv
  rw [visit_of_place] at hv
  cases hP : outs.filter (fun r => decide (p ∈ r.Addresses)) with
  | nil => rw [hP] at hv; simp at hv
  | cons r0 rest =>
    rw [hP] at hv
    simp only [List.map_cons, Option.some.injEq] at hv
    subst hv
    have hmemP : ∀ x ∈ r0 :: rest, x ∈ h.photoHeap ∧ p ∈ x.Addresses := by
      intro x hx
      rw [← hP] at hx
      have hx' := List.mem_filter.mp hx
      exact ⟨perm.subset hx'.1, by simpa using hx'.2⟩
    have sP : (r0 :: rest).Pairwise (fun a b => a.Timestamp.Unix ≤ b.Timestamp.Unix) := by
      rw [← hP]; exact s.filter _
    have hend := extendEnd_mem (rest.map (fun r => r.Timestamp)) r0.Timestamp
    have hend' : extendEnd r0.Timestamp (rest.map (fun r => r.Timestamp))
        ∈ (r0 :: rest).map (fun r => r.Timestamp) := by simpa using hend
    obtain ⟨x, hx, ex⟩ := List.mem_map.mp hend'
    have hr0 := hmemP r0 (List.mem_cons_self _ _)
    refine ⟨?_, ⟨r0, hr0.1, hr0.2, rfl⟩, ⟨x, (hmemP x hx).1, (hmemP x hx).2, ex.symm⟩⟩
    simp only
    rw [← ex]
    rcases List.mem_cons.mp hx with e | e
    · subst e; exact le_refl _
    · exact (List.pairwise_cons.mp sP).1 x e

/-- An instance of `visits_well_formed_unix`: the heap of the test "grouping by separate locations". -/
theorem visits_well_formed_unix_witness :
    Reachable ⟨[fixtureMorning, fixtureNoon]⟩ ∧
      WellFormedVisits Time.Unix ⟨[fixtureMorning, fixtureNoon]⟩ :=
  have hr : Reachable ⟨[fixtureMorning, fixtureNoon]⟩ :=
    ⟨⟨[]⟩, [Op.push fixtureNoon, Op.push fixtureMorning], rfl, by decide⟩
  ⟨hr, visits_well_formed_unix _ hr⟩

/-- C24 (the code at the failing input): on the reachable heap holding the 10:10:10.9
photo above the 10:10:10.1 photo (push the 10.9 photo, then the 10.1 photo), `Group`
returns for London the visit that starts at 10:10:10.9 and ends at 10:10:10.1: its start
is after its end. -/
theorem visits_well_formed_full_precision_fails :
    Reachable ⟨[photoLate, photoEarly]⟩ ∧
    (∃ m, Group ⟨[photoLate, photoEarly]⟩ = some (m, ⟨[]⟩) ∧
      m "London" = some ⟨photoLate.Timestamp, photoEarly.Timestamp, "London"⟩) ∧
    photoEarly.Timestamp.nanos < photoLate.Timestamp.nanos ∧
    ¬ WellFormedVisits Time.nanos ⟨[photoLate, photoEarly]⟩ := by
  refine ⟨⟨⟨[]⟩, [Op.push photoLate, Op.push photoEarly], rfl, by decide⟩,
    ⟨groupPhotos [photoLate, photoEarly] noLocations,
      by apply groupLoop_of_popN; decide, by decide⟩, by decide, ?_⟩
  rintro ⟨m, h1, eg, hall⟩
  have c : Group ⟨[photoLate, photoEarly]⟩
      = some (groupPhotos [photoLate, photoEarly] noLocations, ⟨[]⟩) := by
    apply groupLoop_of_popN
    decide
  rw [c] at eg
  cases eg
  have hv : groupPhotos [photoLate, photoEarly] noLocations "London"
      = some ⟨photoLate.Timestamp, photoEarly.Timestamp, "London"⟩ := by decide
  have := (hall "London" _ hv).1
  revert this
  decide

theorem eq_of_map_eq_of_injOn {α β : Type} (f : α → β) : ∀ l1 l2 : List α,
    l1.map f = l2.map f → (∀ x ∈ l1, ∀ y ∈ l2, f x = f y → x = y) → l1 = l2 := by
  intro l1
  induction l1 with
  | nil =>
    intro l2 h _
    cases l2 with
    | nil => rfl
    | cons b l2 => simp at h
  | cons a l1 ih =>
    intro l2 h hinj
    cases l2 with
    | nil => simp at h
    | cons b l2 =>
      simp only [List.map_cons, List.cons.injEq] at h
      have hab : a = b := hinj a (List.mem_cons_self _ _) b (List.mem_cons_self _ _) h.1
      have hrest : l1 = l2 := ih l2 h.2 (fun x hx y hy e =>
        hinj x (List.mem_cons_of_mem _ hx) y (List.mem_cons_of_mem _ hy) e)
      rw [hab, hrest]

/-- When the order of arrival does not matter: for every finite collection of records whose timestamps fall in
pairwise distinct Unix seconds, and every two orders in which those records are pushed
onto a new heap, `Group` returns the same mapping of places to visits. -/
theorem grouping_order_independent (ps1 ps2 : List Photo) (hperm : ps1.Perm ps2)
    (hd : (ps1.map (fun r => r.Timestamp.Unix)).Nodup) : SameGrouping ps1 ps2 := by
  obtain ⟨h1, e1, o1, p1⟩ := pushAll_spec ps1 ⟨[]⟩ heapOrdered_nil
  obtain ⟨h2, e2, o2, p2⟩ := pushAll_spec ps2 ⟨[]⟩ heapOrdered_nil
  simp only [List.append_nil] at p1 p2
  obtain ⟨outs1, _, g1, q1, s1⟩ := group_spec h1 o1
  obtain ⟨outs2, _, g2, q2, s2⟩ := group_spec h2 o2
  have r1 : outs1.Perm ps1 := q1.trans p1
  have r2 : outs2.Perm ps1 := (q2.trans p2).trans hperm.symm
  have hkeys : outs1.map (fun r => r.Timestamp.Unix) = outs2.map (fun r => r.Timestamp.Unix) := by
    apply List.eq_of_perm_of_sorted (r := fun a b : Int => a ≤ b)
    · exact (r1.trans r2.symm).map _
    · unfold List.Sorted; rw [List.pairwise_map]; exact s1
    · unfold List.Sorted; rw [List.pairwise_map]; exact s2
  have hinj := List.inj_on_of_nodup_map hd
  have houts : outs1 = outs2 :=
    eq_of_map_eq_of_injOn _ outs1 outs2 hkeys
      (fun x hx y hy e => hinj (r1.subset hx) (r2.subset hy) e)
  rw [← houts] at g2
  exact ⟨⟨[]⟩, h1, h2, _, _, _, new_eq, e1, e2, g1, g2⟩

/-- An instance of `grouping_order_independent`: the two photos of the test "grouping by same location", pushed in
the two orders. -/
theorem grouping_order_independent_witness :
    [fixtureNoon, fixtureMorning].Perm [fixtureMorning, fixtureNoon] ∧
    ([fixtureNoon, fixtureMorning].map (fun r => r.Timestamp.Unix)).Nodup ∧
    SameGrouping [fixtureNoon, fixtureMorning] [fixtureMorning, fixtureNoon] :=
  have hperm : [fixtureNoon, fixtureMorning].Perm [fixtureMorning, fixtureNoon] :=
    List.Perm.swap _ _ _
  have hd : ([fixtureNoon, fixtureMorning].map (fun r => r.Timestamp.Unix)).Nodup := by
    decide
  ⟨hperm, hd, grouping_order_independent _ _ hperm hd⟩

/-- C25 (the code at the failing input): the 10:10:10.9 photo and the 10:10:10.1 photo
have distinct timestamps; pushed later one first, `Group` returns for London the visit
from 10.9 to 10.1, pushed earlier one first, the visit from 10.1 to 10.9: the two orders
of arrival give two different maps. -/
theorem grouping_order_distinct_timestamps_fails :
    [photoLate, photoEarly].Perm [photoEarly, photoLate] ∧
    ([photoLate, photoEarly].map (fun r => r.Timestamp.nanos)).Nodup ∧
    (∃ h m, pushAll ⟨[]⟩ [photoLate, photoEarly] = some h ∧ Group h = some (m, ⟨[]⟩) ∧
      m "London" = some ⟨photoLate.Timestamp, photoEarly.Timestamp, "London"⟩) ∧
    (∃ h m, pushAll ⟨[]⟩ [photoEarly, photoLate] = some h ∧ Group h = some (m, ⟨[]⟩) ∧
      m "London" = some ⟨photoEarly.Timestamp, photoLate.Timestamp, "London"⟩) ∧
    ¬ SameGrouping [photoLate, photoEarly] [photoEarly, photoLate] := by
  refine ⟨List.Perm.swap _ _ _, by decide,
    ⟨⟨[photoLate, photoEarly]⟩, groupPhotos [photoLate, photoEarly] noLocations, by decide,
      by apply groupLoop_of_popN; decide, by decide⟩,
    ⟨⟨[photoEarly, photoLate]⟩, groupPhotos [photoEarly, photoLate] noLocations, by decide,
      by apply groupLoop_of_popN; decide, by decide⟩, ?_⟩
  rintro ⟨h0, h1, h2, m, e1, e2, e0, hp1, hp2, hg1, hg2⟩
  rw [new_eq] at e0
  cases e0
  have c1 : pushAll ⟨[]⟩ [photoLate, photoEarly] = some ⟨[photoLate, photoEarly]⟩ := by decide
  have c2 : pushAll ⟨[]⟩ [photoEarly, photoLate] = some ⟨[photoEarly, photoLate]⟩ := by decide
  rw [c1] at hp1
  rw [c2] at hp2
  cases hp1
  cases hp2
  have d1 : Group ⟨[photoLate, photoEarly]⟩
      = some (groupPhotos [photoLate, photoEarly] noLocations, ⟨[]⟩) := by
    apply groupLoop_of_popN
    decide
  have d2 : Group ⟨[photoEarly, photoLate]⟩
      = some (groupPhotos [photoEarly, photoLate] noLocations, ⟨[]⟩) := by
    apply groupLoop_of_popN
    decide
  rw [d1] at hg1
  rw [d2] at hg2
  simp only [Option.some.injEq, Prod.mk.injEq] at hg1 hg2
  have hm : groupPhotos [photoLate, photoEarly] noLocations "London"
      = groupPhotos [photoEarly, photoLate] noLocations "London" := by
    rw [hg1.1, hg2.1]
  revert hm
  decide

end PhotoGrouping
